import Mathlib

/-!
# Threads::ThreadPool (src/threads/thread_pool.hpp)

A shallow embedding of the worker pool.  The three data members that the
threads share (`m_threads`, `m_tasks`, `m_stop`) form the pool state.  Every
block of the source that runs under `m_queueMutex` is one atomic step of the
model; the mutex is what makes that block indivisible in the program.  In
this first model the condition variable is not a state component: a waiting
worker may re-evaluate its wait predicate at any moment (after `notify_one`,
`notify_all` or a spurious wake-up), and the predicate decides whether it
proceeds.  That is enough for what must hold in every state.

Tasks are opaque values of a type `τ` (the source stores
`std::function<void()>`).  What a task does when called is chosen by the
environment: the call returns, or it throws.

A second model runs the same program one statement at a time, with the mutex
as a state component (`LockState`).  Its states satisfy `LockInv` (the owner
of the mutex is the thread inside a critical section) and `Guarded`, and each
of its steps is invisible in the pool state or is one step of the first model
(`lockStep_refines`).

A third model adds the condition variable to the first (`WaitConfig`,
`waitStep`): the workers blocked inside `m_cv.wait`, the calls of `notify_one`
still to come and the phase of the destructor.  A blocked worker moves only
after `notify_one`, `notify_all` or a spurious wake-up.  Progress of shutdown
is proved there; each of its steps is a step of the first model or leaves the
pool as it is (`waitStep_refines`).
-/

namespace Threads

/-- Control state of one worker thread, lines 25-55: blocked in `m_cv.wait`
(or about to enter it), inside `task()` at line 54, or past the `return` of
line 47. -/
inductive WorkerState (τ : Type) where
  | idleWait : WorkerState τ
  | executing (task : τ) : WorkerState τ
  | terminated : WorkerState τ
  deriving DecidableEq

/-- One element of `m_threads`: the thread's control state together with the
`joinable()` status of the `std::thread` object that owns it. -/
structure Worker (τ : Type) where
  state : WorkerState τ
  joinable : Bool
  deriving DecidableEq

/-- The data members of `class ThreadPool`, lines 90-95.  `m_queueMutex` and
`m_cv` carry no data of their own. -/
structure ThreadPool (τ : Type) where
  m_threads : List (Worker τ)
  m_tasks : List τ
  m_stop : Bool
  deriving DecidableEq

variable {τ : Type}

/-- The task a worker is running, as a list of length at most one. -/
def WorkerState.inflight : WorkerState τ → List τ
  | .executing t => [t]
  | _ => []

/-- The worker has left its loop. -/
def WorkerState.isTerminated : WorkerState τ → Bool
  | .terminated => true
  | _ => false

/-- The worker is inside `task()`. -/
def WorkerState.isExecuting : WorkerState τ → Bool
  | .executing _ => true
  | _ => false

/-- The tasks currently inside `task()` at some worker, in thread order. -/
def ThreadPool.inflight (p : ThreadPool τ) : List τ :=
  p.m_threads.flatMap (fun w => w.state.inflight)

/-- Constructor, lines 18-58: `numThreads` iterations of `emplace_back`, each
starting a thread that enters the service loop; `m_tasks` starts empty and
`m_stop` is initialised to `false` (line 95).  The loop body has no test on
`numThreads`. -/
def ThreadPool.ctor (numThreads : Nat) : ThreadPool τ :=
  { m_threads := List.replicate numThreads { state := .idleWait, joinable := true }
    m_tasks := []
    m_stop := false }

/-- Member function `Enqueue`, lines 80-87: `m_tasks.emplace(std::move(task))` under the
lock.  The function returns `void` and reads neither `m_stop` nor the size of
the queue. -/
def ThreadPool.Enqueue (p : ThreadPool τ) (task : τ) : ThreadPool τ :=
  { p with m_tasks := p.m_tasks ++ [task] }

/-- The wait predicate of line 41, `!m_tasks.empty() || m_stop`. -/
def ThreadPool.waitPredicate (p : ThreadPool τ) : Bool :=
  !p.m_tasks.isEmpty || p.m_stop

/-- Lines 35-52, the worker's critical section entered from Idle-Wait.  The
result is the worker's next control state and the queue it leaves behind.
While the wait predicate is false `m_cv.wait` does not return; when
`m_stop && m_tasks.empty()` the thread function returns; otherwise the front
task is moved out and popped.  The last branch cannot be taken: the
predicate held and the exit test failed, so the queue has a front. -/
def ThreadPool.criticalSection (p : ThreadPool τ) : WorkerState τ × List τ :=
  if !p.waitPredicate then (.idleWait, p.m_tasks)
  else if p.m_stop && p.m_tasks.isEmpty then (.terminated, p.m_tasks)
  else match p.m_tasks with
    | t :: rest => (.executing t, rest)
    | [] => (.idleWait, [])

/-- Destructor, lines 62-66: `m_stop = true` under the lock. -/
def ThreadPool.dtorSetStop (p : ThreadPool τ) : ThreadPool τ :=
  { p with m_stop := true }

/-- Destructor, lines 75-76, on one thread: `if (thread.joinable()) thread.join();`.
`join` returns once the thread function has returned and leaves the thread
object non-joinable; `none` stands for a `join` that is still blocked. -/
def joinIfJoinable (w : Worker τ) : Option (Worker τ) :=
  if w.joinable then
    match w.state with
    | .terminated => some { w with joinable := false }
    | _ => none
  else some w

/-- Destructor, lines 73-77: the loop over `m_threads`, in order. -/
def joinLoop : List (Worker τ) → Option (List (Worker τ))
  | [] => some []
  | w :: ws =>
    match joinIfJoinable w with
    | some w' => (joinLoop ws).map (fun ws' => w' :: ws')
    | none => none

/-- Number of calls of `join()` that the loop of lines 73-77 makes on a list
of threads. -/
def joinCalls (ws : List (Worker τ)) : Nat :=
  (ws.filter (fun w => w.joinable)).length

/-- Destructor body, lines 60-78, run to its end while no other thread takes a
step: set the flag, then visit the threads in order.  `none` when some `join`
cannot return because its thread has not terminated. -/
def ThreadPool.dtor (p : ThreadPool τ) : Option (ThreadPool τ) :=
  (joinLoop p.dtorSetStop.m_threads).map
    (fun ws => { p.dtorSetStop with m_threads := ws })

/-- The destructor has returned: the flag is set and the join loop has gone
past every thread, which leaves each of them non-joinable. -/
def ThreadPool.dtorReturned (p : ThreadPool τ) : Bool :=
  p.m_stop && p.m_threads.all (fun w => !w.joinable)

/-- Some worker has left its loop. -/
def ThreadPool.anyTerminated (p : ThreadPool τ) : Bool :=
  p.m_threads.any (fun w => w.state.isTerminated)

/-- What an execution has done so far, kept beside the pool and never read by
it: the tasks passed to `Enqueue` in the order of their critical sections,
those among them that arrived while `m_stop` was already set, the tasks taken
from the queue in dequeue order, and the tasks whose call at line 54 has
returned, in order of return. -/
structure History (τ : Type) where
  submitted : List τ
  lateSubmitted : List τ
  dequeued : List τ
  executed : List τ
  deriving DecidableEq

/-- A pool together with the history of the execution that led to it. -/
structure Config (τ : Type) where
  pool : ThreadPool τ
  hist : History τ
  deriving DecidableEq

/-- The atomic steps of the threads that share a pool. -/
inductive Action (τ : Type) where
  /-- a producer runs `Enqueue(task)` -/
  | enqueue (task : τ) : Action τ
  /-- worker `i`, in Idle-Wait, runs its critical section -/
  | wake (i : Nat) : Action τ
  /-- the call `task()` of worker `i` returns -/
  | taskReturns (i : Nat) : Action τ
  /-- the call `task()` of worker `i` throws -/
  | taskThrows (i : Nat) : Action τ
  /-- the destructor sets the stop flag -/
  | dtorStop : Action τ
  /-- the destructor's loop visits thread `i` -/
  | dtorJoin (i : Nat) : Action τ
  deriving DecidableEq

/-- Result of attempting a step: a successor configuration, a step that
cannot be taken in this state, or the end of the process.  Line 54 is not
inside a `try` block, so an exception thrown by a task leaves the thread
function and `std::terminate` is called. -/
inductive Outcome (τ : Type) where
  | running (c : Config τ) : Outcome τ
  | notEnabled : Outcome τ
  | terminateCalled : Outcome τ
  deriving DecidableEq

/-- The freshly constructed pool with an empty history. -/
def Config.init (numThreads : Nat) : Config τ :=
  { pool := ThreadPool.ctor numThreads
    hist := { submitted := [], lateSubmitted := [], dequeued := [], executed := [] } }

/-- One atomic step.  A worker in Idle-Wait may take `wake` at any moment:
whether it is blocked inside `m_cv.wait` and who wakes it is not recorded
here, `waitStep` below adds that. -/
def step (c : Config τ) : Action τ → Outcome τ
  | .enqueue t =>
    .running
      { pool := c.pool.Enqueue t
        hist := { c.hist with
          submitted := c.hist.submitted ++ [t]
          lateSubmitted := c.hist.lateSubmitted ++ (if c.pool.m_stop then [t] else []) } }
  | .wake i =>
    match c.pool.m_threads[i]? with
    | some ⟨.idleWait, j⟩ =>
      .running
        { pool := { c.pool with
            m_threads := c.pool.m_threads.set i ⟨c.pool.criticalSection.1, j⟩
            m_tasks := c.pool.criticalSection.2 }
          hist := { c.hist with
            dequeued := c.hist.dequeued ++ c.pool.criticalSection.1.inflight } }
    | _ => .notEnabled
  | .taskReturns i =>
    match c.pool.m_threads[i]? with
    | some ⟨.executing t, j⟩ =>
      .running
        { pool := { c.pool with m_threads := c.pool.m_threads.set i ⟨.idleWait, j⟩ }
          hist := { c.hist with executed := c.hist.executed ++ [t] } }
    | _ => .notEnabled
  | .taskThrows i =>
    match c.pool.m_threads[i]? with
    | some ⟨.executing _, _⟩ => .terminateCalled
    | _ => .notEnabled
  | .dtorStop => .running { c with pool := c.pool.dtorSetStop }
  | .dtorJoin i =>
    if c.pool.m_stop && (c.pool.m_threads.take i).all (fun w => !w.joinable) then
      match c.pool.m_threads[i]? with
      | some w =>
        match joinIfJoinable w with
        | some w' => .running { c with pool := { c.pool with m_threads := c.pool.m_threads.set i w' } }
        | none => .notEnabled
      | none => .notEnabled
    else .notEnabled

/-- A sequence of steps from a configuration; it stops at the first step that
is not enabled or that ends the process. -/
def run (c : Config τ) : List (Action τ) → Outcome τ
  | [] => .running c
  | a :: rest =>
    match step c a with
    | .running c' => run c' rest
    | o => o

/-- The configurations an execution of `ThreadPool(numThreads)` can be in. -/
def Reachable (numThreads : Nat) (c : Config τ) : Prop :=
  ∃ acts : List (Action τ), run (Config.init numThreads) acts = .running c

/-- What every reachable configuration satisfies. -/
structure Config.Inv (c : Config τ) : Prop where
  /-- what was taken from the queue, then what is still in it, is what was submitted -/
  fifo : c.hist.dequeued ++ c.pool.m_tasks = c.hist.submitted
  /-- a dequeued task is in flight at one worker or has returned, never both -/
  once : List.Perm (c.pool.inflight ++ c.hist.executed) c.hist.dequeued
  /-- a worker only leaves its loop when the flag is set -/
  stopOfTerminated : ∀ w ∈ c.pool.m_threads, w.state = .terminated → c.pool.m_stop = true
  /-- a thread that was joined has left its loop -/
  terminatedOfJoined : ∀ w ∈ c.pool.m_threads, w.joinable = false → w.state = .terminated
  /-- once a worker has left, only late submissions can be in the queue -/
  drained : (∃ w ∈ c.pool.m_threads, w.state = .terminated) →
    c.pool.m_tasks <:+ c.hist.lateSubmitted
  /-- no late submission while the flag is clear -/
  lateOnly : c.pool.m_stop = false → c.hist.lateSubmitted = []
  /-- a lone worker returns from its tasks in the order it took them -/
  single : c.pool.m_threads.length ≤ 1 → c.hist.dequeued = c.hist.executed ++ c.pool.inflight

/-- The step is a call of `Enqueue`. -/
def Action.isEnqueue : Action τ → Bool
  | .enqueue _ => true
  | _ => false

/-- Work left before the destructor can return: queued tasks (each still to be
taken and to return), running tasks, workers still in their loop, threads
still to be joined. -/
def ThreadPool.pending (p : ThreadPool τ) : Nat :=
  2 * p.m_tasks.length + p.m_threads.countP (fun w => w.state.isExecuting)
    + p.m_threads.countP (fun w => !w.state.isTerminated)
    + p.m_threads.countP (fun w => w.joinable)

/-! ### Sample executions -/

/-- One execution of `RuntTest`, lines 98-113: `ThreadPool pool(4)`, five calls
of `Enqueue` with the tasks `0..4`, then the destructor at the end of the
scope.  Two workers have taken a task when the flag is set; the others wake
afterwards and the queue is drained before any thread is joined. -/
def RuntTest : List (Action Nat) :=
  [.enqueue 0, .enqueue 1, .enqueue 2, .enqueue 3, .enqueue 4, .wake 0, .wake 1, .dtorStop,
   .wake 2, .wake 3, .taskReturns 1, .wake 1, .taskReturns 0, .wake 0, .taskReturns 3,
   .taskReturns 2, .taskReturns 1, .wake 1, .wake 2, .wake 3,
   .dtorJoin 0, .dtorJoin 1, .dtorJoin 2, .dtorJoin 3]

/-- Where the execution `RuntTest` ends. -/
def RuntTestEnd : Config Nat :=
  { pool :=
      { m_threads := List.replicate 4 ⟨.terminated, false⟩, m_tasks := [], m_stop := true }
    hist :=
      { submitted := [0, 1, 2, 3, 4], lateSubmitted := [], dequeued := [0, 1, 2, 3, 4],
        executed := [1, 0, 3, 2, 4] } }

/-- Two workers in the middle of their work: one task queued, one in flight,
one returned. -/
def twoWorkerMidActs : List (Action Nat) :=
  [.enqueue 10, .enqueue 20, .wake 1, .wake 0, .enqueue 30, .taskReturns 1]

/-- Where `twoWorkerMidActs` ends. -/
def twoWorkerMid : Config Nat :=
  { pool :=
      { m_threads := [⟨.executing 20, true⟩, ⟨.idleWait, true⟩], m_tasks := [30],
        m_stop := false }
    hist :=
      { submitted := [10, 20, 30], lateSubmitted := [], dequeued := [10, 20],
        executed := [10] } }

/-- One worker; the destructor starts before any of the three tasks has been
taken. -/
def oneWorkerActs : List (Action Nat) :=
  [.enqueue 1, .enqueue 2, .enqueue 3, .dtorStop, .wake 0, .taskReturns 0, .wake 0,
   .taskReturns 0, .wake 0, .taskReturns 0, .wake 0, .dtorJoin 0]

/-- Where `oneWorkerActs` ends. -/
def oneWorkerEnd : Config Nat :=
  { pool := { m_threads := [⟨.terminated, false⟩], m_tasks := [], m_stop := true }
    hist :=
      { submitted := [1, 2, 3], lateSubmitted := [], dequeued := [1, 2, 3],
        executed := [1, 2, 3] } }

/-- One of two workers has left after the flag was set, the other is still
running the last task. -/
def oneLeftActs : List (Action Nat) :=
  [.enqueue 10, .enqueue 20, .dtorStop, .wake 0, .wake 1, .taskReturns 0, .wake 0]

/-- Where `oneLeftActs` ends. -/
def oneLeft : Config Nat :=
  { pool :=
      { m_threads := [⟨.terminated, true⟩, ⟨.executing 20, true⟩], m_tasks := [],
        m_stop := true }
    hist :=
      { submitted := [10, 20], lateSubmitted := [], dequeued := [10, 20], executed := [10] } }

/-- A pool constructed with zero workers after `Enqueue(7)` and the destructor:
the task is still queued. -/
def noWorkerEnd : Config Nat :=
  { pool := { m_threads := [], m_tasks := [7], m_stop := true }
    hist := { submitted := [7], lateSubmitted := [], dequeued := [], executed := [] } }

/-- One idle worker, empty queue, stop flag already set by the destructor. -/
def stoppedIdle : Config Nat :=
  { pool := { m_threads := [⟨.idleWait, true⟩], m_tasks := [], m_stop := true }
    hist := { submitted := [], lateSubmitted := [], dequeued := [], executed := [] } }

/-- The state of `stoppedIdle` after `Enqueue(7)` and a wake-up of the worker. -/
def lateDelivered : Config Nat :=
  { pool := { m_threads := [⟨.executing 7, true⟩], m_tasks := [], m_stop := true }
    hist := { submitted := [7], lateSubmitted := [7], dequeued := [7], executed := [] } }

/-- One worker inside task `1`, task `2` still queued. -/
def busyWithQueue : Config Nat :=
  { pool := { m_threads := [⟨.executing 1, true⟩], m_tasks := [2], m_stop := false }
    hist := { submitted := [1, 2], lateSubmitted := [], dequeued := [1], executed := [] } }

/-- Two workers that have left their loops and have not been joined yet, one
late task left in the queue. -/
def beforeDtor : ThreadPool Nat :=
  { m_threads := [⟨.terminated, true⟩, ⟨.terminated, true⟩], m_tasks := [5], m_stop := true }

/-- The pool `beforeDtor` after the destructor body has run once. -/
def afterDtor : ThreadPool Nat :=
  { m_threads := [⟨.terminated, false⟩, ⟨.terminated, false⟩], m_tasks := [5], m_stop := true }

/-- The step is taken by a worker: a pass through its critical section or the
return of its task. -/
def Action.isWorkerStep : Action τ → Bool
  | .wake _ => true
  | .taskReturns _ => true
  | _ => false

/-- One idle worker and one worker inside task `5`, with tasks `8` and `9`
queued and the stop flag clear. -/
def idleWithQueue : Config Nat :=
  { pool :=
      { m_threads := [⟨.idleWait, true⟩, ⟨.executing 5, true⟩], m_tasks := [8, 9],
        m_stop := false }
    hist := { submitted := [5, 8, 9], lateSubmitted := [], dequeued := [5], executed := [] } }

/-- One idle worker, nothing queued, stop flag clear. -/
def idleEmpty : Config Nat :=
  { pool := { m_threads := [⟨.idleWait, true⟩], m_tasks := [], m_stop := false }
    hist := { submitted := [], lateSubmitted := [], dequeued := [], executed := [] } }

/-- An execution in which `Enqueue(7)` runs after the stop flag was set and
after both workers have left their loops, while the destructor has not yet
joined them. -/
def strandedActs : List (Action Nat) :=
  [.enqueue 1, .wake 0, .dtorStop, .wake 1, .taskReturns 0, .wake 0, .enqueue 7,
   .dtorJoin 0, .dtorJoin 1]

/-- Where `strandedActs` ends: the destructor has returned and task `7` is
still in the queue. -/
def stranded : Config Nat :=
  { pool :=
      { m_threads := [⟨.terminated, false⟩, ⟨.terminated, false⟩], m_tasks := [7],
        m_stop := true }
    hist := { submitted := [1, 7], lateSubmitted := [7], dequeued := [1], executed := [1] } }

/-- The measure as the specification words it: queue length, plus the number
of Executing workers, plus the number of workers that are not Terminated. -/
def ThreadPool.claimedMeasure (p : ThreadPool τ) : Nat :=
  p.m_tasks.length + p.m_threads.countP (fun w => w.state.isExecuting)
    + p.m_threads.countP (fun w => !w.state.isTerminated)

/-- Worker steps still to come once the flag is set: every queued task is
still to be taken and to return (two steps), every running task is still to
return, every worker still in its loop is still to leave. -/
def ThreadPool.workLeft (p : ThreadPool τ) : Nat :=
  2 * p.m_tasks.length + p.m_threads.countP (fun w => w.state.isExecuting)
    + p.m_threads.countP (fun w => !w.state.isTerminated)

/-- One idle worker, task `7` queued, stop flag set. -/
def stoppedWithTask : Config Nat :=
  { pool := { m_threads := [⟨.idleWait, true⟩], m_tasks := [7], m_stop := true }
    hist := { submitted := [7], lateSubmitted := [], dequeued := [], executed := [] } }

/-- The state of `stoppedWithTask` after the worker has taken task `7`. -/
def stoppedTaking : Config Nat :=
  { pool := { m_threads := [⟨.executing 7, true⟩], m_tasks := [], m_stop := true }
    hist := { submitted := [7], lateSubmitted := [], dequeued := [7], executed := [] } }

/-! ### The same program, one statement at a time

The steps above take each block under `m_queueMutex` as a whole.  The model
below does not: a thread executes one statement per step, the mutex is a
state component written by the `unique_lock` constructors and destructors and
by `m_cv.wait`, and no statement that touches `m_tasks` or `m_stop` tests
who owns the mutex. -/

/-- The threads that use the pool. -/
inductive ThreadId where
  | worker (i : Nat) : ThreadId
  | producer (k : Nat) : ThreadId
  | destructor : ThreadId
  deriving DecidableEq

/-- Program points of the worker's thread function, lines 25-55. -/
inductive WorkerPc (τ : Type) where
  /-- line 35, before the constructor of `lock` -/
  | loopTop : WorkerPc τ
  /-- lines 39-42, inside `m_cv.wait`, about to evaluate the predicate -/
  | waitCheck : WorkerPc τ
  /-- lines 39-42, inside `m_cv.wait`, blocked with the mutex released -/
  | waitBlocked : WorkerPc τ
  /-- line 46, before the test `m_stop && m_tasks.empty()` -/
  | exitCheck : WorkerPc τ
  /-- lines 50-51, before `front()` and `pop()` -/
  | takeFront : WorkerPc τ
  /-- line 52, the end of the scope of `lock`, with the task in the local -/
  | scopeEnd (task : τ) : WorkerPc τ
  /-- line 54, inside `task()` -/
  | callTask (task : τ) : WorkerPc τ
  /-- after the `return` of line 47 -/
  | returned : WorkerPc τ
  deriving DecidableEq

/-- Program points of one call of `Enqueue`, lines 80-87. -/
inductive EnqueuePc (τ : Type) where
  /-- line 83, before the constructor of `lock` -/
  | entry (task : τ) : EnqueuePc τ
  /-- line 84, before `m_tasks.emplace` -/
  | emplace (task : τ) : EnqueuePc τ
  /-- line 85, the end of the scope of `lock` -/
  | scopeEnd : EnqueuePc τ
  /-- line 86, before `m_cv.notify_one()` -/
  | notifyOne : EnqueuePc τ
  | done : EnqueuePc τ
  deriving DecidableEq

/-- Program points of the destructor, lines 60-78. -/
inductive DtorPc where
  /-- line 64, before the constructor of `lock` (also: not called yet) -/
  | entry : DtorPc
  /-- line 65, before `m_stop = true` -/
  | setStop : DtorPc
  /-- line 66, the end of the scope of `lock` -/
  | scopeEnd : DtorPc
  /-- line 69, before `m_cv.notify_all()` -/
  | notifyAll : DtorPc
  /-- lines 73-77, about to visit thread `i` -/
  | joinLoop (i : Nat) : DtorPc
  | done : DtorPc
  deriving DecidableEq

/-- The shared data, the mutex (its owner, if any) and where every thread
is. -/
structure LockState (τ : Type) where
  m_tasks : List τ
  m_stop : Bool
  m_queueMutex : Option ThreadId
  workers : List (WorkerPc τ)
  producers : List (EnqueuePc τ)
  dtor : DtorPc
  deriving DecidableEq

/-- The state right after the constructor: every worker at the top of its
loop, the mutex free, no call of `Enqueue` or of the destructor under way. -/
def LockState.init (numThreads : Nat) : LockState τ :=
  { m_tasks := [], m_stop := false, m_queueMutex := none
    workers := List.replicate numThreads .loopTop, producers := [], dtor := .entry }

/-- Who moves. -/
inductive LockAction (τ : Type) where
  /-- worker `i` executes its next statement; at line 54 the task returns -/
  | worker (i : Nat) : LockAction τ
  /-- the task of worker `i` throws at line 54 -/
  | workerThrows (i : Nat) : LockAction τ
  /-- some thread calls `Enqueue(task)` -/
  | callEnqueue (task : τ) : LockAction τ
  /-- the `k`-th call of `Enqueue` executes its next statement -/
  | producer (k : Nat) : LockAction τ
  /-- the destructor executes its next statement -/
  | destructor : LockAction τ
  deriving DecidableEq

/-- The next statement of worker `i`, which is at `pc`.  `none`: the worker
cannot move (the mutex is taken, or the thread function has returned). -/
def workerStep (s : LockState τ) (i : Nat) : WorkerPc τ → Option (LockState τ)
  | .loopTop =>
    if s.m_queueMutex = none then
      some { s with m_queueMutex := some (.worker i), workers := s.workers.set i .waitCheck }
    else none
  | .waitCheck =>
    if !s.m_tasks.isEmpty || s.m_stop then
      some { s with workers := s.workers.set i .exitCheck }
    else some { s with m_queueMutex := none, workers := s.workers.set i .waitBlocked }
  | .waitBlocked =>
    if s.m_queueMutex = none then
      some { s with m_queueMutex := some (.worker i), workers := s.workers.set i .waitCheck }
    else none
  | .exitCheck =>
    if s.m_stop && s.m_tasks.isEmpty then
      some { s with m_queueMutex := none, workers := s.workers.set i .returned }
    else some { s with workers := s.workers.set i .takeFront }
  | .takeFront =>
    match s.m_tasks with
    | t :: rest => some { s with m_tasks := rest, workers := s.workers.set i (.scopeEnd t) }
    | [] => none
  | .scopeEnd t =>
    some { s with m_queueMutex := none, workers := s.workers.set i (.callTask t) }
  | .callTask _ => some { s with workers := s.workers.set i .loopTop }
  | .returned => none

/-- The next statement of the `k`-th call of `Enqueue`, which is at `pc`. -/
def producerStep (s : LockState τ) (k : Nat) : EnqueuePc τ → Option (LockState τ)
  | .entry t =>
    if s.m_queueMutex = none then
      some { s with m_queueMutex := some (.producer k), producers := s.producers.set k (.emplace t) }
    else none
  | .emplace t =>
    some { s with m_tasks := s.m_tasks ++ [t], producers := s.producers.set k .scopeEnd }
  | .scopeEnd =>
    some { s with m_queueMutex := none, producers := s.producers.set k .notifyOne }
  | .notifyOne => some { s with producers := s.producers.set k .done }
  | .done => none

/-- The next statement of the destructor.  At `joinLoop i` the call
`join()` returns only when thread `i` has returned. -/
def dtorStep (s : LockState τ) : DtorPc → Option (LockState τ)
  | .entry =>
    if s.m_queueMutex = none then
      some { s with m_queueMutex := some .destructor, dtor := .setStop }
    else none
  | .setStop => some { s with m_stop := true, dtor := .scopeEnd }
  | .scopeEnd => some { s with m_queueMutex := none, dtor := .notifyAll }
  | .notifyAll => some { s with dtor := .joinLoop 0 }
  | .joinLoop i =>
    match s.workers[i]? with
    | some .returned => some { s with dtor := .joinLoop (i + 1) }
    | some _ => none
    | none => some { s with dtor := .done }
  | .done => none

/-- One statement of one thread.  `none`: the step cannot be taken, or (a
throwing task) the process ends. -/
def lockStep (s : LockState τ) : LockAction τ → Option (LockState τ)
  | .worker i =>
    match s.workers[i]? with
    | some pc => workerStep s i pc
    | none => none
  | .workerThrows _ => none
  | .callEnqueue t => some { s with producers := s.producers ++ [.entry t] }
  | .producer k =>
    match s.producers[k]? with
    | some pc => producerStep s k pc
    | none => none
  | .destructor => dtorStep s s.dtor

/-- A sequence of statements. -/
def lockRun (s : LockState τ) : List (LockAction τ) → Option (LockState τ)
  | [] => some s
  | a :: rest =>
    match lockStep s a with
    | some s' => lockRun s' rest
    | none => none

/-- The states an execution of `ThreadPool(numThreads)` can be in, statement
by statement. -/
def LockReachable (numThreads : Nat) (s : LockState τ) : Prop :=
  ∃ acts : List (LockAction τ), lockRun (LockState.init numThreads) acts = some s

/-- The worker is between the constructor and the destructor of its `lock`
and not blocked inside `m_cv.wait`. -/
def WorkerPc.inCritical : WorkerPc τ → Bool
  | .waitCheck => true
  | .exitCheck => true
  | .takeFront => true
  | .scopeEnd _ => true
  | _ => false

/-- The call of `Enqueue` is inside the scope of its `lock`. -/
def EnqueuePc.inCritical : EnqueuePc τ → Bool
  | .emplace _ => true
  | .scopeEnd => true
  | _ => false

/-- The destructor is inside the scope of its `lock`. -/
def DtorPc.inCritical : DtorPc → Bool
  | .setStop => true
  | .scopeEnd => true
  | _ => false

/-- The thread is at a program point inside a critical section. -/
def LockState.inCritical (s : LockState τ) : ThreadId → Bool
  | .worker i =>
    match s.workers[i]? with
    | some pc => pc.inCritical
    | none => false
  | .producer k =>
    match s.producers[k]? with
    | some pc => pc.inCritical
    | none => false
  | .destructor => s.dtor.inCritical

/-- Exactly the thread inside a critical section owns the mutex. -/
def LockState.LockInv (s : LockState τ) : Prop :=
  ∀ tid : ThreadId, s.inCritical tid = true ↔ s.m_queueMutex = some tid

/-- The control state a program point belongs to: a worker is Executing from
the moment it has moved the task out of the queue, Terminated once the thread
function has returned, and in Idle-Wait everywhere else. -/
def WorkerPc.toState : WorkerPc τ → WorkerState τ
  | .scopeEnd t => .executing t
  | .callTask t => .executing t
  | .returned => .terminated
  | _ => .idleWait

/-- The destructor's loop has gone past thread `i`. -/
def DtorPc.joined : DtorPc → Nat → Bool
  | .joinLoop k, i => decide (i < k)
  | .done, _ => true
  | _, _ => false

/-- The destructor has executed `m_stop = true`. -/
def DtorPc.pastSetStop : DtorPc → Bool
  | .entry => false
  | .setStop => false
  | _ => true

/-- The pool state that a statement-level state stands for. -/
def LockState.toPool (s : LockState τ) : ThreadPool τ :=
  { m_threads := s.workers.mapIdx (fun i pc => ⟨pc.toState, !s.dtor.joined i⟩)
    m_tasks := s.m_tasks
    m_stop := s.m_stop }

/-- What the mutex protects: a worker that has passed the wait finds the
predicate still true at the exit test, and a worker that has passed the exit
test finds a task at the front of the queue; once the destructor has passed
line 65 the flag is set. -/
structure LockState.Guarded (s : LockState τ) : Prop where
  atExitCheck : ∀ i : Nat, s.workers[i]? = some .exitCheck → s.m_tasks ≠ [] ∨ s.m_stop = true
  atTakeFront : ∀ i : Nat, s.workers[i]? = some .takeFront → s.m_tasks ≠ []
  stopSet : s.dtor.pastSetStop = true → s.m_stop = true

/-- Two workers and one call of `Enqueue(7)`: worker 0 has taken task `7` and
is inside `task()`, worker 1 then enters its critical section. -/
def lockDemoActs : List (LockAction Nat) :=
  [.callEnqueue 7, .producer 0, .producer 0, .producer 0, .producer 0,
   .worker 0, .worker 0, .worker 0, .worker 0, .worker 0, .worker 1]

/-- Where `lockDemoActs` ends. -/
def lockDemo : LockState Nat :=
  { m_tasks := [], m_stop := false, m_queueMutex := some (.worker 1)
    workers := [.callTask 7, .waitCheck], producers := [.done], dtor := .entry }

/-! ### Which statements touch the shared data -/

/-- The worker's next statement reads or writes `m_tasks` or `m_stop`: the
wait predicate (line 41), the exit test (line 46), `front()` and `pop()`
(lines 50-51). -/
def WorkerPc.accessesShared : WorkerPc τ → Bool
  | .waitCheck => true
  | .exitCheck => true
  | .takeFront => true
  | _ => false

/-- The next statement of the call of `Enqueue` writes `m_tasks` (line 84). -/
def EnqueuePc.accessesShared : EnqueuePc τ → Bool
  | .emplace _ => true
  | _ => false

/-- The destructor's next statement writes `m_stop` (line 65). -/
def DtorPc.accessesShared : DtorPc → Bool
  | .setStop => true
  | _ => false

/-- The next statement of thread `tid` reads or writes `m_tasks` or `m_stop`. -/
def LockState.accessing (s : LockState τ) : ThreadId → Bool
  | .worker i =>
    match s.workers[i]? with
    | some pc => pc.accessesShared
    | none => false
  | .producer k =>
    match s.producers[k]? with
    | some pc => pc.accessesShared
    | none => false
  | .destructor => s.dtor.accessesShared

/-- The thread that moves in a step; a new call of `Enqueue` is a new
thread of control, numbered after the calls made so far. -/
def LockAction.thread (s : LockState τ) : LockAction τ → ThreadId
  | .worker i => .worker i
  | .workerThrows i => .worker i
  | .callEnqueue _ => .producer s.producers.length
  | .producer k => .producer k
  | .destructor => .destructor

/-- The same state with other contents of the shared data. -/
def LockState.withShared (s : LockState τ) (q : List τ) (b : Bool) : LockState τ :=
  { s with m_tasks := q, m_stop := b }

/-! ### The condition variable

The step relation `step` lets a worker in Idle-Wait pass through its critical
section at any moment, whether or not anybody has woken it.  That only adds
executions, which is harmless for what must hold in every state.  Whether
shutdown makes progress is another matter: a worker that found the wait
predicate false is blocked inside `m_cv.wait` until `notify_one` (line 86),
`notify_all` (line 69) or a spurious wake-up.  The model below adds to a
configuration the workers blocked on `m_cv`, the calls of `notify_one` still
to come and how far the destructor is, and lets a blocked worker move only
after it has been woken. -/

/-- How far the destructor has come. -/
inductive DtorPhase where
  /-- before line 62 -/
  | notCalled : DtorPhase
  /-- lines 62-66 done (`m_stop` is set), line 69 still to come -/
  | flagSet : DtorPhase
  /-- line 69 done (`notify_all`), in the join loop of lines 73-77 or past it -/
  | notified : DtorPhase
  deriving DecidableEq

/-- A configuration together with the state of the condition variable: the
workers blocked inside `m_cv.wait` (by index), the number of calls of `Enqueue`
that have left their critical section and not yet executed `notify_one`, and
the phase of the destructor. -/
structure WaitConfig (τ : Type) where
  base : Config τ
  m_cv : List Nat
  toNotify : Nat
  dtor : DtorPhase
  deriving DecidableEq

/-- The steps of the threads, with the wake-ups made explicit. -/
inductive WaitAction (τ : Type) where
  /-- a producer runs the critical section of `Enqueue(task)`, lines 82-85 -/
  | enqueue (task : τ) : WaitAction τ
  /-- a call of `Enqueue` executes `notify_one` (line 86); it wakes the blocked
  worker `woken`, or nobody when no worker is blocked -/
  | notifyOne (woken : Option Nat) : WaitAction τ
  /-- worker `i`, not blocked, runs its critical section; it blocks on `m_cv`
  when it finds the wait predicate false -/
  | wake (i : Nat) : WaitAction τ
  /-- the blocked worker `i` wakes up without having been notified -/
  | spuriousWake (i : Nat) : WaitAction τ
  /-- the call `task()` of worker `i` returns -/
  | taskReturns (i : Nat) : WaitAction τ
  /-- the call `task()` of worker `i` throws -/
  | taskThrows (i : Nat) : WaitAction τ
  /-- the destructor sets the stop flag, lines 62-66 -/
  | dtorStop : WaitAction τ
  /-- the destructor executes `notify_all`, line 69: every blocked worker wakes -/
  | dtorNotifyAll : WaitAction τ
  /-- the destructor's loop visits thread `i`, lines 75-76 -/
  | dtorJoin (i : Nat) : WaitAction τ
  deriving DecidableEq

/-- Result of attempting a step of the model with wake-ups. -/
inductive WaitOutcome (τ : Type) where
  | running (w : WaitConfig τ) : WaitOutcome τ
  | notEnabled : WaitOutcome τ
  | terminateCalled : WaitOutcome τ
  deriving DecidableEq

/-- The outcome of a step that acts on the pool through `step`. -/
def WaitOutcome.ofBase (o : Outcome τ) (f : Config τ → WaitConfig τ) : WaitOutcome τ :=
  match o with
  | .running c => .running (f c)
  | .notEnabled => .notEnabled
  | .terminateCalled => .terminateCalled

/-- The freshly constructed pool: nobody is blocked yet, no notification is
outstanding, the destructor has not been called. -/
def WaitConfig.init (numThreads : Nat) : WaitConfig τ :=
  { base := Config.init numThreads, m_cv := [], toNotify := 0, dtor := .notCalled }

/-- One step with wake-ups.  What a step does to the pool is what `step` does;
in addition a worker runs its critical section only when it is not blocked
and blocks when the wait predicate is false, `notify_one` and `notify_all`
unblock workers, and the destructor goes through its three parts in order. -/
def waitStep (w : WaitConfig τ) : WaitAction τ → WaitOutcome τ
  | .enqueue t =>
    WaitOutcome.ofBase (step w.base (.enqueue t))
      (fun c => { w with base := c, toNotify := w.toNotify + 1 })
  | .notifyOne none =>
    if 0 < w.toNotify ∧ w.m_cv = [] then .running { w with toNotify := w.toNotify - 1 }
    else .notEnabled
  | .notifyOne (some k) =>
    if 0 < w.toNotify ∧ k ∈ w.m_cv then
      .running { w with toNotify := w.toNotify - 1, m_cv := w.m_cv.erase k }
    else .notEnabled
  | .wake i =>
    if i ∈ w.m_cv then .notEnabled
    else
      WaitOutcome.ofBase (step w.base (.wake i))
        (fun c => { w with
          base := c
          m_cv := if w.base.pool.waitPredicate then w.m_cv else w.m_cv ++ [i] })
  | .spuriousWake i =>
    if i ∈ w.m_cv then .running { w with m_cv := w.m_cv.erase i } else .notEnabled
  | .taskReturns i =>
    WaitOutcome.ofBase (step w.base (.taskReturns i)) (fun c => { w with base := c })
  | .taskThrows i =>
    WaitOutcome.ofBase (step w.base (.taskThrows i)) (fun c => { w with base := c })
  | .dtorStop =>
    if w.dtor = .notCalled then
      WaitOutcome.ofBase (step w.base .dtorStop) (fun c => { w with base := c, dtor := .flagSet })
    else .notEnabled
  | .dtorNotifyAll =>
    if w.dtor = .flagSet then .running { w with m_cv := [], dtor := .notified }
    else .notEnabled
  | .dtorJoin i =>
    if w.dtor = .notified then
      WaitOutcome.ofBase (step w.base (.dtorJoin i)) (fun c => { w with base := c })
    else .notEnabled

/-- A sequence of steps with wake-ups. -/
def waitRun (w : WaitConfig τ) : List (WaitAction τ) → WaitOutcome τ
  | [] => .running w
  | a :: rest =>
    match waitStep w a with
    | .running w' => waitRun w' rest
    | o => o

/-- The configurations an execution of `ThreadPool(numThreads)` can be in, with
the state of the condition variable. -/
def WaitReachable (numThreads : Nat) (w : WaitConfig τ) : Prop :=
  ∃ acts : List (WaitAction τ), waitRun (WaitConfig.init numThreads) acts = .running w

/-- The step is taken by a worker that is awake: a pass through its critical
section or the return of its task. -/
def WaitAction.isWorkerStep : WaitAction τ → Bool
  | .wake _ => true
  | .taskReturns _ => true
  | _ => false

/-- The step is one of the destructor's visits of a thread. -/
def WaitAction.isJoin : WaitAction τ → Bool
  | .dtorJoin _ => true
  | _ => false

/-- What holds of the condition variable in every reachable configuration:
after `notify_all` no worker is blocked, and the flag is set exactly when the
destructor has been called. -/
structure WaitConfig.Inv (w : WaitConfig τ) : Prop where
  noneBlocked : w.dtor = .notified → w.m_cv = []
  flagOfPhase : w.dtor = .notCalled ↔ w.base.pool.m_stop = false

/-- One worker, blocked in `m_cv.wait` on an empty queue, when the destructor
has set the stop flag and has not yet executed `notify_all`. -/
def blockedAtStop : WaitConfig Nat :=
  { base := stoppedIdle, m_cv := [0], toNotify := 0, dtor := .flagSet }

/-- The state of `blockedAtStop` after `notify_all`. -/
def wokenAtStop : WaitConfig Nat :=
  { base := stoppedIdle, m_cv := [], toNotify := 0, dtor := .notified }

/-- One worker that has not yet reached `m_cv.wait`, task `7` queued by an
`Enqueue` that has not yet executed `notify_one`, and the destructor between
setting the flag and `notify_all`. -/
def flagSetWithTask : WaitConfig Nat :=
  { base := stoppedWithTask, m_cv := [], toNotify := 1, dtor := .flagSet }

/-- The state of `flagSetWithTask` after the worker has taken task `7`. -/
def flagSetTaking : WaitConfig Nat :=
  { base := stoppedTaking, m_cv := [], toNotify := 1, dtor := .flagSet }

end Threads

/-!
# The other examples

`ParallelSum` (src/threads/async.hpp), `SafeContainer` (src/threads/mutexes.hpp),
`EventQueue` (src/threads/coroutines.hpp), `Subject` (src/patterns/observer.hpp)
and `User` (src/patterns/pimpl.cpp).  An `int` is a mathematical integer kept in
the 32-bit two's complement range: every `+` on `int` is followed by `intWrap`.
-/

namespace Threads

/-- The `int` that a mathematical integer becomes: its representative modulo
`2^32` in the range `-2^31 .. 2^31 - 1`. -/
def intWrap (x : Int) : Int :=
  (x + 2147483648) % 4294967296 - 2147483648

namespace Async

/-- The call `std::accumulate(beg, end, init)` on a range of `int` with an
`int` initial value: a left fold with `acc = acc + *it`. -/
def accumulate (xs : List Int) (init : Int) : Int :=
  xs.foldl (fun acc x => intWrap (acc + x)) init

/-- Function `ParallelSum`, lines 37-48, on the range with content `xs`:
`len = end - beg`; below 1000 the range is summed directly; otherwise
`mid = beg + len / 2`, the range `[mid, end)` is summed by the task started
with `std::async`, the range `[beg, mid)` by the calling thread, and the
result is `sum + handle.get()`. -/
def ParallelSum (xs : List Int) : Int :=
  if _h : xs.length < 1000 then accumulate xs 0
  else
    intWrap (ParallelSum (xs.take (xs.length / 2)) + ParallelSum (xs.drop (xs.length / 2)))
termination_by xs.length
decreasing_by
  · simp only [List.length_take]
    omega
  · simp only [List.length_drop]
    omega

end Async

/-- A `std::recursive_mutex`: the thread that owns it, if any, and how many
times that thread has locked it. -/
structure RecursiveMutex where
  owner : Option Nat
  count : Nat
  deriving DecidableEq

/-- Member `lock()`, called by thread `tid`: succeeds when the mutex is free or
already owned by `tid`; `none` when another thread owns it (the call
blocks). -/
def RecursiveMutex.lock (m : RecursiveMutex) (tid : Nat) : Option RecursiveMutex :=
  match m.owner with
  | none => some { owner := some tid, count := 1 }
  | some o => if o = tid then some { owner := some tid, count := m.count + 1 } else none

/-- Member `unlock()`, called by the owner: one level of ownership less; the
mutex is free when the last level is released. -/
def RecursiveMutex.unlock (m : RecursiveMutex) : RecursiveMutex :=
  if m.count ≤ 1 then { owner := none, count := 0 }
  else { owner := m.owner, count := m.count - 1 }

/-- The data members of `class SafeContainer`, lines 285-286. -/
structure SafeContainer where
  m_mutex : RecursiveMutex
  m_value : Int
  deriving DecidableEq

/-- Constructor, line 255. -/
def SafeContainer.ctor (value : Int) : SafeContainer :=
  { m_mutex := { owner := none, count := 0 }, m_value := value }

/-- Member `internalAdd`, lines 277-283, called by thread `tid`: lock,
`m_value += val`, unlock at the end of the scope. -/
def SafeContainer.internalAdd (c : SafeContainer) (tid : Nat) (val : Int) :
    Option SafeContainer :=
  match c.m_mutex.lock tid with
  | none => none
  | some m => some { m_mutex := m.unlock, m_value := intWrap (c.m_value + val) }

/-- Member `addAndDouble`, lines 257-268, called by thread `tid`: lock,
`internalAdd(val)`, `internalAdd(m_value)`, unlock at the end of the scope. -/
def SafeContainer.addAndDouble (c : SafeContainer) (tid : Nat) (val : Int) :
    Option SafeContainer :=
  match c.m_mutex.lock tid with
  | none => none
  | some m =>
    match ({ c with m_mutex := m } : SafeContainer).internalAdd tid val with
    | none => none
    | some c1 =>
      match c1.internalAdd tid c1.m_value with
      | none => none
      | some c2 => some { c2 with m_mutex := c2.m_mutex.unlock }

/-- Member `GetValue`, lines 270-274, called by thread `tid`: the value
returned and the container afterwards. -/
def SafeContainer.GetValue (c : SafeContainer) (tid : Nat) : Option (Int × SafeContainer) :=
  match c.m_mutex.lock tid with
  | none => none
  | some m => some (c.m_value, { c with m_mutex := m.unlock })

end Threads

namespace Threads

/-- The value type `struct Event`, lines 204-208. -/
structure Event where
  Id : Int
  Data : String
  deriving DecidableEq

/-- The data member of `struct EventQueue`, line 212: the content of the
`std::queue`, front first. -/
structure EventQueue where
  Events : List Event
  deriving DecidableEq

/-- Member `push`, line 214: `Events.push(event)` appends at the back. -/
def EventQueue.push (q : EventQueue) (event : Event) : EventQueue :=
  { Events := q.Events ++ [event] }

/-- Member `try_pop`, lines 216-224: `nullopt` on an empty queue, otherwise the
front element, which is removed.  The result is the returned value and the
queue afterwards. -/
def EventQueue.try_pop (q : EventQueue) : Option Event × EventQueue :=
  match q.Events with
  | [] => (none, q)
  | event :: rest => (some event, { Events := rest })

/-- The values returned by `n` successive calls of `try_pop`, and the queue
after them. -/
def EventQueue.popMany : Nat → EventQueue → List (Option Event) × EventQueue
  | 0, q => ([], q)
  | n + 1, q => ((q.try_pop.1 :: (popMany n q.try_pop.2).1), (popMany n q.try_pop.2).2)

/-- The queue after pushing the events of a list, in order. -/
def EventQueue.pushAll (q : EventQueue) (events : List Event) : EventQueue :=
  events.foldl EventQueue.push q

end Threads

namespace Patterns

/-- The data members of `class Subject`, lines 87-88.  An observer is known to
the subject by its address, a value of type `ι`. -/
structure Subject (ι : Type) where
  m_listObserver : List ι
  m_message : String
  deriving DecidableEq

variable {ι : Type}

/-- A freshly constructed subject: no observer, empty message. -/
def Subject.init : Subject ι :=
  { m_listObserver := [], m_message := "" }

/-- Member `Attach`, lines 40-43: `push_back`. -/
def Subject.Attach (s : Subject ι) (observer : ι) : Subject ι :=
  { s with m_listObserver := s.m_listObserver ++ [observer] }

/-- Member `Detach`, lines 45-48: `std::list::remove` erases every element equal
to its argument. -/
def Subject.Detach [DecidableEq ι] (s : Subject ι) (observer : ι) : Subject ι :=
  { s with m_listObserver := s.m_listObserver.filter (fun o => decide (o ≠ observer)) }

/-- The loop of lines 55-59 from an iterator position to the end of the list:
the calls `Update(m_message)` it makes, each as the observer called and the
argument passed. -/
def Subject.notifyFrom (message : String) : List ι → List (ι × String)
  | [] => []
  | observer :: rest => (observer, message) :: notifyFrom message rest

/-- Member `Notify`, lines 50-60: the calls of `Update` it makes, in order. -/
def Subject.Notify (s : Subject ι) : List (ι × String) :=
  Subject.notifyFrom s.m_message s.m_listObserver

/-- Member `CreateMessage`, lines 62-66: store the message, then `Notify()`.  The
result is the subject afterwards and the calls of `Update` made. -/
def Subject.CreateMessage (s : Subject ι) (message : String) :
    Subject ι × List (ι × String) :=
  ({ s with m_message := message }, ({ s with m_message := message } : Subject ι).Notify)

/-- A subscription call on a subject. -/
inductive Call (ι : Type) where
  | attach (observer : ι) : Call ι
  | detach (observer : ι) : Call ι
  deriving DecidableEq

/-- The subject after one subscription call. -/
def Subject.call [DecidableEq ι] (s : Subject ι) : Call ι → Subject ι
  | .attach o => s.Attach o
  | .detach o => s.Detach o

/-- The subject after a sequence of subscription calls. -/
def Subject.callAll [DecidableEq ι] (s : Subject ι) (calls : List (Call ι)) : Subject ι :=
  calls.foldl Subject.call s

/-- The observers of the `Attach` calls of a sequence, in call order. -/
def attachOrder : List (Call ι) → List ι
  | [] => []
  | .attach o :: rest => o :: attachOrder rest
  | .detach _ :: rest => attachOrder rest

/-- The observers that a sequence of calls leaves subscribed, said without the
list: one entry for every `Attach(o)` that no later `Detach(o)` follows, in the
order of the `Attach` calls. -/
def stillAttached [DecidableEq ι] : List (Call ι) → List ι
  | [] => []
  | .attach o :: rest =>
    if Call.detach o ∈ rest then stillAttached rest else o :: stillAttached rest
  | .detach _ :: rest => stillAttached rest

/-- The subscription calls of `TestObserver`, lines 132-152, with the observers
numbered as they are created (the constructor of `Observer` attaches it). -/
def TestObserver : List (Call Nat) :=
  [.attach 1, .attach 2, .attach 3, .detach 3, .attach 4, .detach 2, .attach 5,
   .detach 5, .detach 4, .detach 1]

/-- The object behind a `User`, lines 8-20 of pimpl.cpp. -/
structure Impl where
  Name : String
  Salary : Int
  deriving DecidableEq

/-- The free store: the objects created by `new`, by address; `none` marks an
object that has been deleted. -/
structure Heap where
  cells : List (Option Impl)
  deriving DecidableEq

/-- The expression `new Impl(v)`: the store afterwards and the address of the
new object, which is not the address of any object created before. -/
def Heap.new (h : Heap) (v : Impl) : Heap × Nat :=
  ({ cells := h.cells ++ [some v] }, h.cells.length)

/-- The object at an address; `none` when there is no live object there. -/
def Heap.read (h : Heap) (p : Nat) : Option Impl :=
  (h.cells[p]?).join

/-- The deletion of the object at an address. -/
def Heap.delete (h : Heap) (p : Nat) : Heap :=
  { cells := h.cells.set p none }

/-- The data member of `class User`, pimpl.hpp line 28: the address held by
the `unique_ptr`. -/
structure User where
  m_pimpl : Nat
  deriving DecidableEq

/-- Constructor `User(std::string name)`, lines 22-25: `new Impl(name)`, whose
`Salary` starts at `-1`. -/
def User.ctor (h : Heap) (name : String) : Heap × User :=
  ((h.new { Name := name, Salary := -1 }).1, { m_pimpl := (h.new { Name := name, Salary := -1 }).2 })

/-- Copy constructor, line 31: `m_pimpl(new Impl(*other.m_pimpl))`. -/
def User.copy (h : Heap) (other : User) : Option (Heap × User) :=
  match h.read other.m_pimpl with
  | some impl => some ((h.new impl).1, { m_pimpl := (h.new impl).2 })
  | none => none

/-- Assignment `self = other`, lines 33-37: the parameter `rhs` is a copy of
`other`; the pointers of `self` and `rhs` are swapped; `rhs`, which now holds
the old object of `self`, is destroyed on return and deletes it. -/
def User.assign (h : Heap) (self other : User) : Option (Heap × User) :=
  match User.copy h other with
  | some (h1, rhs) => some (h1.delete self.m_pimpl, { m_pimpl := rhs.m_pimpl })
  | none => none

/-- Member `GetSalary`, lines 39-42. -/
def User.GetSalary (h : Heap) (u : User) : Option Int :=
  (h.read u.m_pimpl).map (fun impl => impl.Salary)

/-- Member `SetSalary`, lines 44-48: `m_pimpl->Salary = salary`. -/
def User.SetSalary (h : Heap) (u : User) (salary : Int) : Option Heap :=
  match h.read u.m_pimpl with
  | some impl => some { cells := h.cells.set u.m_pimpl (some { impl with Salary := salary }) }
  | none => none

/-- In store `h`, the users `c` and `u` both have salary `s` and are
independent: they hold different objects, and setting the salary of either
one changes what that one returns and not what the other returns. -/
def User.IndependentWith (h : Heap) (c u : User) (s : Int) : Prop :=
  c.m_pimpl ≠ u.m_pimpl ∧ c.GetSalary h = some s ∧ u.GetSalary h = some s ∧
  ∀ t : Int,
    (∃ h2, c.SetSalary h t = some h2 ∧ c.GetSalary h2 = some t ∧ u.GetSalary h2 = some s) ∧
    (∃ h3, u.SetSalary h t = some h3 ∧ u.GetSalary h3 = some t ∧ c.GetSalary h3 = some s)

/-- A store with one user, created with name `"Ann"` and given salary 100, and
a second user created with name `"Bob"`. -/
def twoUsers : Heap :=
  { cells := [some { Name := "Ann", Salary := 100 }, some { Name := "Bob", Salary := -1 }] }

end Patterns

namespace Threads

variable {τ : Type}

/-! ## The three ways through the critical section -/

theorem criticalSection_cases (p : ThreadPool τ) :
    (p.m_tasks = [] ∧ p.m_stop = false ∧ p.criticalSection = (.idleWait, [])) ∨
    (p.m_tasks = [] ∧ p.m_stop = true ∧ p.criticalSection = (.terminated, [])) ∨
    (∃ t rest, p.m_tasks = t :: rest ∧ p.criticalSection = (.executing t, rest)) := by
  rcases p with ⟨ws, q, s⟩
  cases q with
  | nil => cases s <;> simp [ThreadPool.criticalSection, ThreadPool.waitPredicate]
  | cons t rest => cases s <;> simp [ThreadPool.criticalSection, ThreadPool.waitPredicate]

/-! ## Replacing one thread of `m_threads` -/

theorem set_split {α : Type} {l : List α} {i : Nat} {w : α} (h : l[i]? = some w) (w' : α) :
    l = l.take i ++ w :: l.drop (i + 1) ∧ l.set i w' = l.take i ++ w' :: l.drop (i + 1) := by
  induction l generalizing i with
  | nil => simp at h
  | cons a l ih =>
    cases i with
    | zero => simp at h; simp [h]
    | succ i =>
      simp at h
      obtain ⟨h1, h2⟩ := ih h
      constructor
      · simp only [List.take_succ_cons, List.drop_succ_cons, List.cons_append]; rw [← h1]
      · simp only [List.set_cons_succ, List.take_succ_cons, List.drop_succ_cons,
          List.cons_append]; rw [h2]

theorem mem_of_getElem?_some {α : Type} {l : List α} {i : Nat} {w : α} (h : l[i]? = some w) :
    w ∈ l := by
  rw [(set_split h w).1]; simp

theorem set_same {α : Type} {l : List α} {i : Nat} {w : α} (h : l[i]? = some w) :
    l.set i w = l := by
  have := set_split h w
  rw [this.2, ← this.1]

/-! ## Inversion of `step` -/

theorem step_enqueue (c : Config τ) (t : τ) :
    step c (.enqueue t) = .running
      { pool := c.pool.Enqueue t
        hist := { c.hist with
          submitted := c.hist.submitted ++ [t]
          lateSubmitted := c.hist.lateSubmitted ++ (if c.pool.m_stop then [t] else []) } } := rfl

theorem step_dtorStop (c : Config τ) :
    step c .dtorStop = .running { c with pool := c.pool.dtorSetStop } := rfl

theorem step_taskThrows_ne_running (c c' : Config τ) (i : Nat) :
    step c (.taskThrows i) ≠ .running c' := by
  intro h
  simp only [step] at h
  split at h <;> cases h

theorem step_wake_inv {c c' : Config τ} {i : Nat} (h : step c (.wake i) = .running c') :
    ∃ j, c.pool.m_threads[i]? = some ⟨.idleWait, j⟩ ∧
      ((c.pool.m_tasks = [] ∧ c.pool.m_stop = false ∧ c' = c) ∨
       (c.pool.m_tasks = [] ∧ c.pool.m_stop = true ∧
          c' = { c with pool := { c.pool with
                  m_threads := c.pool.m_threads.set i ⟨.terminated, j⟩ } }) ∨
       (∃ t rest, c.pool.m_tasks = t :: rest ∧
          c' = { pool := { c.pool with
                   m_threads := c.pool.m_threads.set i ⟨.executing t, j⟩
                   m_tasks := rest }
                 hist := { c.hist with dequeued := c.hist.dequeued ++ [t] } })) := by
  simp only [step] at h
  split at h
  · next j hj =>
    refine ⟨j, hj, ?_⟩
    injection h with h
    subst h
    rcases criticalSection_cases c.pool with ⟨hq, hs, hc⟩ | ⟨hq, hs, hc⟩ | ⟨t, rest, hq, hc⟩
    · left
      refine ⟨hq, hs, ?_⟩
      rcases c with ⟨⟨ws, q, s⟩, hist⟩
      simp only at hq hs hj
      subst hq
      simp only [hc, WorkerState.inflight, List.append_nil, set_same hj]
    · right; left
      refine ⟨hq, hs, ?_⟩
      rcases c with ⟨⟨ws, q, s⟩, hist⟩
      simp only at hq hs hj
      subst hq
      simp only [hc, WorkerState.inflight, List.append_nil]
    · right; right
      refine ⟨t, rest, hq, ?_⟩
      simp only [hc, WorkerState.inflight]
  · cases h

theorem step_taskReturns_inv {c c' : Config τ} {i : Nat}
    (h : step c (.taskReturns i) = .running c') :
    ∃ t j, c.pool.m_threads[i]? = some ⟨.executing t, j⟩ ∧
      c' = { pool := { c.pool with m_threads := c.pool.m_threads.set i ⟨.idleWait, j⟩ }
             hist := { c.hist with executed := c.hist.executed ++ [t] } } := by
  simp only [step] at h
  split at h
  · next t j hj =>
    injection h with h
    exact ⟨t, j, hj, h.symm⟩
  · cases h

theorem step_dtorJoin_inv {c c' : Config τ} {i : Nat}
    (h : step c (.dtorJoin i) = .running c') :
    c.pool.m_stop = true ∧ (∀ w ∈ c.pool.m_threads.take i, w.joinable = false) ∧
    ∃ w, c.pool.m_threads[i]? = some w ∧
      ((w.joinable = false ∧ c' = c) ∨
       (w.joinable = true ∧ w.state = .terminated ∧
          c' = { c with pool := { c.pool with
                  m_threads := c.pool.m_threads.set i ⟨.terminated, false⟩ } })) := by
  simp only [step] at h
  split at h
  · next hg =>
    simp only [Bool.and_eq_true, List.all_eq_true, Bool.not_eq_true'] at hg
    refine ⟨hg.1, hg.2, ?_⟩
    split at h
    · next w hw =>
      refine ⟨w, hw, ?_⟩
      rcases w with ⟨st, jn⟩
      cases jn with
      | false =>
        left
        simp only [joinIfJoinable] at h
        injection h with h
        subst h
        rcases c with ⟨⟨ws, q, s⟩, hist⟩
        simp only at hw
        simp [set_same hw]
      | true =>
        right
        cases st with
        | terminated =>
          simp only [joinIfJoinable] at h
          injection h with h
          exact ⟨rfl, rfl, h.symm⟩
        | idleWait => simp [joinIfJoinable] at h
        | executing t => simp [joinIfJoinable] at h
    · cases h
  · cases h

end Threads

namespace Threads

variable {τ : Type}

/-! ## The invariant -/

theorem inflight_set {l : List (Worker τ)} {i : Nat} {w : Worker τ} (h : l[i]? = some w)
    (w' : Worker τ) :
    ∃ A B : List τ,
      l.flatMap (fun w => w.state.inflight) = A ++ w.state.inflight ++ B ∧
      (l.set i w').flatMap (fun w => w.state.inflight) = A ++ w'.state.inflight ++ B := by
  obtain ⟨h1, h2⟩ := set_split h w'
  refine ⟨(l.take i).flatMap (fun w => w.state.inflight),
    (l.drop (i + 1)).flatMap (fun w => w.state.inflight), ?_, ?_⟩
  · conv_lhs => rw [h1]
    simp [List.flatMap_append, List.flatMap_cons]
  · rw [h2]
    simp [List.flatMap_append, List.flatMap_cons]

theorem single_thread {l : List (Worker τ)} {i : Nat} {w : Worker τ} (h : l[i]? = some w)
    (hl : l.length ≤ 1) : l = [w] ∧ i = 0 := by
  match l, i, h, hl with
  | [a], 0, h, _ => simp at h; simp [h]
  | [a], i + 1, h, _ => simp at h
  | _ :: _ :: _, _, _, hl => simp at hl

theorem inv_init (n : Nat) : (Config.init n : Config τ).Inv where
  fifo := rfl
  once := by
    simp [Config.init, ThreadPool.ctor, ThreadPool.inflight, WorkerState.inflight]
  stopOfTerminated := by
    intro w hw hs
    simp only [Config.init, ThreadPool.ctor] at hw
    rw [List.eq_of_mem_replicate hw] at hs
    cases hs
  terminatedOfJoined := by
    intro w hw hj
    simp only [Config.init, ThreadPool.ctor] at hw
    rw [List.eq_of_mem_replicate hw] at hj
    cases hj
  drained := by
    intro _
    exact List.nil_suffix
  lateOnly := fun _ => rfl
  single := by
    intro _
    simp [Config.init, ThreadPool.ctor, ThreadPool.inflight, WorkerState.inflight]

theorem inv_enqueue {c : Config τ} (hI : c.Inv) (t : τ) :
    Config.Inv
      { pool := c.pool.Enqueue t
        hist := { c.hist with
          submitted := c.hist.submitted ++ [t]
          lateSubmitted := c.hist.lateSubmitted ++ (if c.pool.m_stop then [t] else []) } } where
  fifo := by
    show c.hist.dequeued ++ (c.pool.m_tasks ++ [t]) = c.hist.submitted ++ [t]
    rw [← List.append_assoc, hI.fifo]
  once := hI.once
  stopOfTerminated := hI.stopOfTerminated
  terminatedOfJoined := hI.terminatedOfJoined
  drained := by
    intro hex
    obtain ⟨w, hw, hs⟩ := hex
    have hstop : c.pool.m_stop = true := hI.stopOfTerminated w hw hs
    obtain ⟨pre, hpre⟩ := hI.drained ⟨w, hw, hs⟩
    show c.pool.m_tasks ++ [t] <:+ c.hist.lateSubmitted ++ (if c.pool.m_stop then [t] else [])
    rw [hstop]
    exact ⟨pre, by simp [← hpre]⟩
  lateOnly := by
    intro hs
    have hs' : c.pool.m_stop = false := hs
    show c.hist.lateSubmitted ++ (if c.pool.m_stop then [t] else []) = []
    simp [hs', hI.lateOnly hs']
  single := hI.single

theorem inv_dtorStop {c : Config τ} (hI : c.Inv) :
    Config.Inv { c with pool := c.pool.dtorSetStop } where
  fifo := hI.fifo
  once := hI.once
  stopOfTerminated := fun _ _ _ => rfl
  terminatedOfJoined := hI.terminatedOfJoined
  drained := hI.drained
  lateOnly := by
    intro hs
    cases hs
  single := hI.single

theorem inv_exit {c : Config τ} (hI : c.Inv) {i : Nat} {j : Bool}
    (hj : c.pool.m_threads[i]? = some ⟨.idleWait, j⟩)
    (hq : c.pool.m_tasks = []) (hs : c.pool.m_stop = true) :
    Config.Inv { c with pool := { c.pool with
      m_threads := c.pool.m_threads.set i ⟨.terminated, j⟩ } } := by
  obtain ⟨A, B, hA, hB⟩ := inflight_set hj ⟨.terminated, j⟩
  have hin : (c.pool.m_threads.set i ⟨.terminated, j⟩).flatMap (fun w => w.state.inflight)
      = c.pool.inflight := by
    rw [hB, ThreadPool.inflight, hA]; rfl
  refine ⟨hI.fifo, ?_, fun _ _ _ => hs, ?_, ?_, hI.lateOnly, ?_⟩
  · show List.Perm ((c.pool.m_threads.set i ⟨.terminated, j⟩).flatMap
      (fun w => w.state.inflight) ++ c.hist.executed) c.hist.dequeued
    rw [hin]; exact hI.once
  · intro w hw hjn
    rcases List.mem_or_eq_of_mem_set hw with h | h
    · exact hI.terminatedOfJoined w h hjn
    · rw [h]
  · intro _
    show c.pool.m_tasks <:+ c.hist.lateSubmitted
    rw [hq]; exact List.nil_suffix
  · intro hl
    show c.hist.dequeued = c.hist.executed ++
      (c.pool.m_threads.set i ⟨.terminated, j⟩).flatMap (fun w => w.state.inflight)
    rw [hin]
    exact hI.single (by simpa using hl)

theorem inv_dequeue {c : Config τ} (hI : c.Inv) {i : Nat} {j : Bool} {t : τ} {rest : List τ}
    (hj : c.pool.m_threads[i]? = some ⟨.idleWait, j⟩) (hq : c.pool.m_tasks = t :: rest) :
    Config.Inv
      { pool := { c.pool with
          m_threads := c.pool.m_threads.set i ⟨.executing t, j⟩
          m_tasks := rest }
        hist := { c.hist with dequeued := c.hist.dequeued ++ [t] } } := by
  obtain ⟨A, B, hA, hB⟩ := inflight_set hj ⟨.executing t, j⟩
  have hmem := mem_of_getElem?_some hj
  refine ⟨?_, ?_, ?_, ?_, ?_, hI.lateOnly, ?_⟩
  · show (c.hist.dequeued ++ [t]) ++ rest = c.hist.submitted
    rw [← hI.fifo, hq]; simp
  · show List.Perm ((c.pool.m_threads.set i ⟨.executing t, j⟩).flatMap
      (fun w => w.state.inflight) ++ c.hist.executed) (c.hist.dequeued ++ [t])
    have h0 := hI.once
    rw [ThreadPool.inflight, hA] at h0
    rw [hB]
    simp only [WorkerState.inflight, List.append_nil, List.append_assoc,
      List.singleton_append] at h0 ⊢
    exact (List.perm_middle.trans (h0.cons t)).trans (List.perm_append_singleton t _).symm
  · intro w hw hst
    rcases List.mem_or_eq_of_mem_set hw with h | h
    · exact hI.stopOfTerminated w h hst
    · rw [h] at hst; cases hst
  · intro w hw hjn
    rcases List.mem_or_eq_of_mem_set hw with h | h
    · exact hI.terminatedOfJoined w h hjn
    · rw [h] at hjn
      have := hI.terminatedOfJoined _ hmem hjn
      cases this
  · rintro ⟨w, hw, hst⟩
    show rest <:+ c.hist.lateSubmitted
    rcases List.mem_or_eq_of_mem_set hw with h | h
    · have := hI.drained ⟨w, h, hst⟩
      rw [hq] at this
      exact (List.suffix_cons t rest).trans this
    · rw [h] at hst; cases hst
  · intro hl
    have hl' : c.pool.m_threads.length ≤ 1 := by simpa using hl
    obtain ⟨hws, hi⟩ := single_thread hj hl'
    have h0 := hI.single hl'
    show c.hist.dequeued ++ [t] = c.hist.executed ++
      (c.pool.m_threads.set i ⟨.executing t, j⟩).flatMap (fun w => w.state.inflight)
    rw [h0, hws, hi]
    simp [ThreadPool.inflight, hws, WorkerState.inflight]

theorem inv_taskReturns {c : Config τ} (hI : c.Inv) {i : Nat} {j : Bool} {t : τ}
    (hj : c.pool.m_threads[i]? = some ⟨.executing t, j⟩) :
    Config.Inv
      { pool := { c.pool with m_threads := c.pool.m_threads.set i ⟨.idleWait, j⟩ }
        hist := { c.hist with executed := c.hist.executed ++ [t] } } := by
  obtain ⟨A, B, hA, hB⟩ := inflight_set hj ⟨.idleWait, j⟩
  have hmem := mem_of_getElem?_some hj
  refine ⟨hI.fifo, ?_, ?_, ?_, ?_, hI.lateOnly, ?_⟩
  · show List.Perm ((c.pool.m_threads.set i ⟨.idleWait, j⟩).flatMap
      (fun w => w.state.inflight) ++ (c.hist.executed ++ [t])) c.hist.dequeued
    have h0 := hI.once
    rw [ThreadPool.inflight, hA] at h0
    rw [hB]
    simp only [WorkerState.inflight, List.append_nil, List.append_assoc,
      List.singleton_append] at h0 ⊢
    refine List.Perm.trans ?_ h0
    rw [← List.append_assoc, ← List.append_assoc]
    refine (List.perm_append_singleton t _).trans ?_
    rw [List.append_assoc]
    exact List.perm_middle.symm
  · intro w hw hst
    rcases List.mem_or_eq_of_mem_set hw with h | h
    · exact hI.stopOfTerminated w h hst
    · rw [h] at hst; cases hst
  · intro w hw hjn
    rcases List.mem_or_eq_of_mem_set hw with h | h
    · exact hI.terminatedOfJoined w h hjn
    · rw [h] at hjn
      have := hI.terminatedOfJoined _ hmem hjn
      cases this
  · rintro ⟨w, hw, hst⟩
    show c.pool.m_tasks <:+ c.hist.lateSubmitted
    rcases List.mem_or_eq_of_mem_set hw with h | h
    · exact hI.drained ⟨w, h, hst⟩
    · rw [h] at hst; cases hst
  · intro hl
    have hl' : c.pool.m_threads.length ≤ 1 := by simpa using hl
    obtain ⟨hws, hi⟩ := single_thread hj hl'
    have h0 := hI.single hl'
    show c.hist.dequeued = (c.hist.executed ++ [t]) ++
      (c.pool.m_threads.set i ⟨.idleWait, j⟩).flatMap (fun w => w.state.inflight)
    rw [h0, hws, hi]
    simp [ThreadPool.inflight, hws, WorkerState.inflight]

theorem inv_dtorJoin {c : Config τ} (hI : c.Inv) {i : Nat} {w : Worker τ}
    (hj : c.pool.m_threads[i]? = some w) (hst : w.state = .terminated) :
    Config.Inv { c with pool := { c.pool with
      m_threads := c.pool.m_threads.set i ⟨.terminated, false⟩ } } := by
  obtain ⟨A, B, hA, hB⟩ := inflight_set hj ⟨.terminated, false⟩
  have hmem := mem_of_getElem?_some hj
  have hin : (c.pool.m_threads.set i ⟨.terminated, false⟩).flatMap (fun w => w.state.inflight)
      = c.pool.inflight := by
    rw [hB, ThreadPool.inflight, hA, hst]
  refine ⟨hI.fifo, ?_, ?_, ?_, ?_, hI.lateOnly, ?_⟩
  · show List.Perm ((c.pool.m_threads.set i ⟨.terminated, false⟩).flatMap
      (fun w => w.state.inflight) ++ c.hist.executed) c.hist.dequeued
    rw [hin]; exact hI.once
  · intro _ _ _
    exact hI.stopOfTerminated w hmem hst
  · intro w' hw hjn
    rcases List.mem_or_eq_of_mem_set hw with h | h
    · exact hI.terminatedOfJoined w' h hjn
    · rw [h]
  · intro _
    exact hI.drained ⟨w, hmem, hst⟩
  · intro hl
    show c.hist.dequeued = c.hist.executed ++
      (c.pool.m_threads.set i ⟨.terminated, false⟩).flatMap (fun w => w.state.inflight)
    rw [hin]
    exact hI.single (by simpa using hl)

theorem inv_step {c c' : Config τ} {a : Action τ} (hI : c.Inv)
    (h : step c a = .running c') : c'.Inv := by
  cases a with
  | enqueue t =>
    rw [step_enqueue] at h
    injection h with h
    subst h
    exact inv_enqueue hI t
  | wake i =>
    obtain ⟨j, hj, ⟨_, _, rfl⟩ | ⟨hq, hs, rfl⟩ | ⟨t, rest, hq, rfl⟩⟩ := step_wake_inv h
    · exact hI
    · exact inv_exit hI hj hq hs
    · exact inv_dequeue hI hj hq
  | taskReturns i =>
    obtain ⟨t, j, hj, rfl⟩ := step_taskReturns_inv h
    exact inv_taskReturns hI hj
  | taskThrows i => exact absurd h (step_taskThrows_ne_running c c' i)
  | dtorStop =>
    rw [step_dtorStop] at h
    injection h with h
    subst h
    exact inv_dtorStop hI
  | dtorJoin i =>
    obtain ⟨_, _, w, hw, ⟨_, rfl⟩ | ⟨_, hst, rfl⟩⟩ := step_dtorJoin_inv h
    · exact hI
    · exact inv_dtorJoin hI hw hst

theorem run_cons_running {c c' : Config τ} {a : Action τ} {rest : List (Action τ)}
    (h : run c (a :: rest) = .running c') :
    ∃ c1, step c a = .running c1 ∧ run c1 rest = .running c' := by
  simp only [run] at h
  split at h
  · next c1 h1 => exact ⟨c1, h1, h⟩
  · next o hne =>
    rw [h] at hne
    exact absurd rfl (hne c')

theorem inv_run {acts : List (Action τ)} {c c' : Config τ} (hI : c.Inv)
    (h : run c acts = .running c') : c'.Inv := by
  induction acts generalizing c with
  | nil =>
    simp only [run] at h
    injection h with h
    subst h
    exact hI
  | cons a rest ih =>
    obtain ⟨c1, h1, h2⟩ := run_cons_running h
    exact ih (inv_step hI h1) h2

theorem inv_reachable {n : Nat} {c : Config τ} (h : Reachable n c) : c.Inv := by
  obtain ⟨acts, h⟩ := h
  exact inv_run (inv_init n) h

end Threads

namespace Threads

variable {τ : Type}

/-! ## What a step leaves alone -/

theorem step_length {c c' : Config τ} {a : Action τ} (h : step c a = .running c') :
    c'.pool.m_threads.length = c.pool.m_threads.length := by
  cases a with
  | enqueue t =>
    rw [step_enqueue] at h
    injection h with h
    subst h
    rfl
  | wake i =>
    obtain ⟨j, hj, ⟨_, _, rfl⟩ | ⟨hq, hs, rfl⟩ | ⟨t, rest, hq, rfl⟩⟩ := step_wake_inv h
    · rfl
    · simp
    · simp
  | taskReturns i =>
    obtain ⟨t, j, hj, rfl⟩ := step_taskReturns_inv h
    simp
  | taskThrows i => exact absurd h (step_taskThrows_ne_running c c' i)
  | dtorStop =>
    rw [step_dtorStop] at h
    injection h with h
    subst h
    rfl
  | dtorJoin i =>
    obtain ⟨_, _, w, hw, ⟨_, rfl⟩ | ⟨_, hst, rfl⟩⟩ := step_dtorJoin_inv h
    · rfl
    · simp

theorem run_length {acts : List (Action τ)} {c c' : Config τ}
    (h : run c acts = .running c') :
    c'.pool.m_threads.length = c.pool.m_threads.length := by
  induction acts generalizing c with
  | nil =>
    simp only [run] at h
    injection h with h
    subst h
    rfl
  | cons a rest ih =>
    obtain ⟨c1, h1, h2⟩ := run_cons_running h
    rw [ih h2, step_length h1]

theorem reachable_length {n : Nat} {c : Config τ} (h : Reachable n c) :
    c.pool.m_threads.length = n := by
  obtain ⟨acts, h⟩ := h
  rw [run_length h]
  simp [Config.init, ThreadPool.ctor]

theorem run_append {as bs : List (Action τ)} {c c1 : Config τ}
    (h : run c as = .running c1) : run c (as ++ bs) = run c1 bs := by
  induction as generalizing c with
  | nil =>
    simp only [run] at h
    injection h with h
    subst h
    rfl
  | cons a rest ih =>
    obtain ⟨c2, h1, h2⟩ := run_cons_running h
    simp only [List.cons_append, run, h1]
    exact ih h2

theorem reachable_run {n : Nat} {c c' : Config τ} {acts : List (Action τ)}
    (hc : Reachable n c) (h : run c acts = .running c') : Reachable n c' := by
  obtain ⟨as, has⟩ := hc
  exact ⟨as ++ acts, by rw [run_append has, h]⟩

/-! ## The destructor can always run to its end -/

theorem countP_set {α : Type} {l : List α} {i : Nat} {w : α} (h : l[i]? = some w) (w' : α)
    (P : α → Bool) :
    (l.set i w').countP P + (if P w then 1 else 0) = l.countP P + (if P w' then 1 else 0) := by
  obtain ⟨h1, h2⟩ := set_split h w'
  rw [h2]
  conv_rhs => rw [h1]
  simp only [List.countP_append, List.countP_cons]
  omega

theorem countP_set_same {α : Type} {l : List α} {i : Nat} {w : α} (h : l[i]? = some w)
    (w' : α) (P : α → Bool) (hP : P w = P w') : (l.set i w').countP P = l.countP P := by
  have := countP_set h w' P
  rw [hP] at this
  omega

theorem countP_set_dec {α : Type} {l : List α} {i : Nat} {w : α} (h : l[i]? = some w)
    (w' : α) (P : α → Bool) (hw : P w = true) (hw' : P w' = false) :
    (l.set i w').countP P + 1 = l.countP P := by
  have := countP_set h w' P
  simp only [hw, hw', if_true, Bool.false_eq_true, if_false] at this
  omega

theorem countP_set_inc {α : Type} {l : List α} {i : Nat} {w : α} (h : l[i]? = some w)
    (w' : α) (P : α → Bool) (hw : P w = false) (hw' : P w' = true) :
    (l.set i w').countP P = l.countP P + 1 := by
  have := countP_set h w' P
  simp only [hw, hw', if_true, Bool.false_eq_true, if_false] at this
  omega

theorem exists_first {α : Type} (P : α → Bool) (l : List α) (h : ∃ w ∈ l, P w = true) :
    ∃ i w, l[i]? = some w ∧ P w = true ∧ ∀ v ∈ l.take i, P v = false := by
  induction l with
  | nil => simp at h
  | cons a l ih =>
    cases ha : P a with
    | true => exact ⟨0, a, by simp, ha, by simp⟩
    | false =>
      have : ∃ w ∈ l, P w = true := by
        obtain ⟨w, hw, hp⟩ := h
        rcases List.mem_cons.1 hw with rfl | hw
        · rw [ha] at hp; cases hp
        · exact ⟨w, hw, hp⟩
      obtain ⟨i, w, hi, hp, hb⟩ := ih this
      refine ⟨i + 1, w, by simpa using hi, hp, ?_⟩
      intro v hv
      simp only [List.take_succ_cons, List.mem_cons] at hv
      rcases hv with rfl | hv
      · exact ha
      · exact hb v hv

theorem exists_index {α : Type} {l : List α} {w : α} (h : w ∈ l) :
    ∃ i : Nat, l[i]? = some w := by
  obtain ⟨i, hi, rfl⟩ := List.getElem_of_mem h
  exact ⟨i, by simp [hi]⟩

/-- While the flag is set and the destructor has not returned, some worker or
destructor step can be taken, it lowers `pending`, keeps the flag set and
leaves the record of submissions as it is. -/
theorem shutdown_progress {c : Config τ} (hs : c.pool.m_stop = true)
    (hr : c.pool.dtorReturned = false) :
    ∃ a c', Action.isEnqueue a = false ∧ step c a = .running c' ∧
      c'.pool.pending < c.pool.pending ∧ c'.pool.m_stop = true ∧
      c'.hist.submitted = c.hist.submitted ∧
      c'.hist.lateSubmitted = c.hist.lateSubmitted := by
  by_cases hex : ∃ w ∈ c.pool.m_threads, w.state.isExecuting = true
  · -- a running task returns
    obtain ⟨w, hw, hwe⟩ := hex
    obtain ⟨i, hi⟩ := exists_index hw
    rcases w with ⟨st, j⟩
    cases st with
    | idleWait => cases hwe
    | terminated => cases hwe
    | executing t =>
      refine ⟨.taskReturns i,
        { pool := { c.pool with m_threads := c.pool.m_threads.set i ⟨.idleWait, j⟩ }
          hist := { c.hist with executed := c.hist.executed ++ [t] } },
        rfl, by simp only [step, hi], ?_, hs, rfl, rfl⟩
      have h1 := countP_set_dec hi ⟨.idleWait, j⟩ (fun w => w.state.isExecuting) rfl rfl
      have h2 := countP_set_same hi ⟨.idleWait, j⟩ (fun w => !w.state.isTerminated) rfl
      have h3 := countP_set_same hi ⟨.idleWait, j⟩ (fun w => w.joinable) rfl
      simp only [ThreadPool.pending]
      omega
  · by_cases hid : ∃ w ∈ c.pool.m_threads, w.state = .idleWait
    · -- an idle worker passes its wait: it leaves, or takes the front task
      obtain ⟨w, hw, hwi⟩ := hid
      obtain ⟨i, hi⟩ := exists_index hw
      rcases w with ⟨st, j⟩
      simp only at hwi
      subst hwi
      rcases criticalSection_cases c.pool with ⟨_, hs', _⟩ | ⟨hq, _, hc⟩ | ⟨t, rest, hq, hc⟩
      · rw [hs] at hs'; cases hs'
      · refine ⟨.wake i,
          { pool := { c.pool with
              m_threads := c.pool.m_threads.set i ⟨.terminated, j⟩
              m_tasks := [] }
            hist := { c.hist with dequeued := c.hist.dequeued ++ [] } },
          rfl, by simp only [step, hi, hc, WorkerState.inflight], ?_, hs, rfl, rfl⟩
        have h1 := countP_set_same hi ⟨.terminated, j⟩ (fun w => w.state.isExecuting) rfl
        have h2 := countP_set_dec hi ⟨.terminated, j⟩ (fun w => !w.state.isTerminated) rfl rfl
        have h3 := countP_set_same hi ⟨.terminated, j⟩ (fun w => w.joinable) rfl
        simp only [ThreadPool.pending, hq]
        omega
      · refine ⟨.wake i,
          { pool := { c.pool with
              m_threads := c.pool.m_threads.set i ⟨.executing t, j⟩
              m_tasks := rest }
            hist := { c.hist with dequeued := c.hist.dequeued ++ [t] } },
          rfl, by simp only [step, hi, hc, WorkerState.inflight], ?_, hs, rfl, rfl⟩
        have h1 := countP_set_inc hi ⟨.executing t, j⟩ (fun w => w.state.isExecuting) rfl rfl
        have h2 := countP_set_same hi ⟨.executing t, j⟩ (fun w => !w.state.isTerminated) rfl
        have h3 := countP_set_same hi ⟨.executing t, j⟩ (fun w => w.joinable) rfl
        simp only [ThreadPool.pending, hq, List.length_cons]
        omega
    · -- every worker has left: the destructor joins the first joinable thread
      have hall : ∀ w ∈ c.pool.m_threads, w.state = .terminated := by
        intro w hw
        rcases hst : w.state with _ | t | _
        · exact absurd ⟨w, hw, hst⟩ hid
        · exact absurd ⟨w, hw, by rw [hst]; rfl⟩ hex
        · rfl
      have hjn : ∃ w ∈ c.pool.m_threads, w.joinable = true := by
        simp only [ThreadPool.dtorReturned, hs, Bool.true_and] at hr
        by_contra hno
        have : c.pool.m_threads.all (fun w => !w.joinable) = true := by
          rw [List.all_eq_true]
          intro w hw
          cases hj : w.joinable with
          | false => rfl
          | true => exact absurd ⟨w, hw, hj⟩ hno
        rw [this] at hr
        cases hr
      obtain ⟨i, w, hi, hj, hb⟩ := exists_first (fun w => w.joinable) _ hjn
      have hwt := hall w (mem_of_getElem?_some hi)
      rcases w with ⟨st, j⟩
      simp only at hwt hj
      subst hwt hj
      have hg : (c.pool.m_stop && (c.pool.m_threads.take i).all (fun w => !w.joinable)) = true := by
        rw [hs, Bool.true_and, List.all_eq_true]
        intro v hv
        simp [hb v hv]
      refine ⟨.dtorJoin i,
        { c with pool := { c.pool with
            m_threads := c.pool.m_threads.set i ⟨.terminated, false⟩ } },
        rfl, by simp only [step, hg, hi, joinIfJoinable]; rfl, ?_, hs, rfl, rfl⟩
      have h1 := countP_set_same hi ⟨.terminated, false⟩ (fun w => w.state.isExecuting) rfl
      have h2 := countP_set_same hi ⟨.terminated, false⟩ (fun w => !w.state.isTerminated) rfl
      have h3 := countP_set_dec hi ⟨.terminated, false⟩ (fun w => w.joinable) rfl rfl
      simp only [ThreadPool.pending]
      omega

/-- From a configuration in which the flag is set, worker and destructor steps
alone lead to the return of the destructor. -/
theorem shutdown_completes_of_stop (m : Nat) :
    ∀ c : Config τ, c.pool.m_stop = true → c.pool.pending ≤ m →
    ∃ acts c', (∀ a ∈ acts, Action.isEnqueue a = false) ∧ run c acts = .running c' ∧
      c'.pool.dtorReturned = true ∧ c'.hist.submitted = c.hist.submitted ∧
      c'.hist.lateSubmitted = c.hist.lateSubmitted := by
  induction m with
  | zero =>
    intro c hs hm
    cases hr : c.pool.dtorReturned with
    | true => exact ⟨[], c, by simp, rfl, hr, rfl, rfl⟩
    | false =>
      obtain ⟨a, c1, _, _, hlt, _⟩ := shutdown_progress hs hr
      omega
  | succ m ih =>
    intro c hs hm
    cases hr : c.pool.dtorReturned with
    | true => exact ⟨[], c, by simp, rfl, hr, rfl, rfl⟩
    | false =>
      obtain ⟨a, c1, ha, hstep, hlt, hs1, hsub, hlate⟩ := shutdown_progress hs hr
      obtain ⟨acts, c', hacts, hrun, hret, hsub', hlate'⟩ := ih c1 hs1 (by omega)
      refine ⟨a :: acts, c', ?_, ?_, hret, hsub'.trans hsub, hlate'.trans hlate⟩
      · intro b hb
        rcases List.mem_cons.1 hb with rfl | hb
        · exact ha
        · exact hacts b hb
      · simp only [run, hstep]
        exact hrun

/-- From any configuration the destructor can be run to its return by worker
and destructor steps alone, without a further `Enqueue`. -/
theorem shutdown_completes (c : Config τ) :
    ∃ acts c', (∀ a ∈ acts, Action.isEnqueue a = false) ∧ run c acts = .running c' ∧
      c'.pool.dtorReturned = true ∧ c'.hist.submitted = c.hist.submitted ∧
      c'.hist.lateSubmitted = c.hist.lateSubmitted := by
  obtain ⟨acts, c', hacts, hrun, hret, hsub, hlate⟩ :=
    shutdown_completes_of_stop _ { c with pool := c.pool.dtorSetStop } rfl (Nat.le_refl _)
  refine ⟨.dtorStop :: acts, c', ?_, ?_, hret, hsub, hlate⟩
  · intro b hb
    rcases List.mem_cons.1 hb with rfl | hb
    · rfl
    · exact hacts b hb
  · simp only [run, step_dtorStop]
    exact hrun

end Threads

namespace Threads

variable {τ : Type}

/-! ## Consequences of the invariant -/

theorem inflight_nil_of_terminated {l : List (Worker τ)}
    (h : ∀ w ∈ l, w.state = .terminated) : l.flatMap (fun w => w.state.inflight) = [] := by
  induction l with
  | nil => rfl
  | cons a l ih =>
    have ha := h a (List.mem_cons_self a l)
    rw [List.flatMap_cons, ih (fun w hw => h w (List.mem_cons_of_mem a hw)), ha]
    rfl

theorem joined_of_returned {p : ThreadPool τ} (h : p.dtorReturned = true) :
    p.m_stop = true ∧ ∀ w ∈ p.m_threads, w.joinable = false := by
  simp only [ThreadPool.dtorReturned, Bool.and_eq_true, List.all_eq_true,
    Bool.not_eq_true'] at h
  exact h

/-- With no late submission, the queue is empty as soon as one worker has left,
and everything submitted has been taken from it. -/
theorem drained_of_terminated {c : Config τ} (hI : c.Inv) (hlate : c.hist.lateSubmitted = [])
    (hex : ∃ w ∈ c.pool.m_threads, w.state = .terminated) :
    c.pool.m_tasks = [] ∧ c.hist.dequeued = c.hist.submitted := by
  have h := hI.drained hex
  rw [hlate] at h
  have hq : c.pool.m_tasks = [] := List.eq_nil_of_suffix_nil h
  refine ⟨hq, ?_⟩
  have := hI.fifo
  rw [hq, List.append_nil] at this
  exact this

/-- After the destructor of a pool with a worker has returned, with no late
submission: nothing is queued, nothing is in flight, everything was taken. -/
theorem quiescent_of_returned {c : Config τ} (hI : c.Inv) (hlate : c.hist.lateSubmitted = [])
    (hne : c.pool.m_threads ≠ []) (hret : c.pool.dtorReturned = true) :
    c.pool.m_tasks = [] ∧ c.pool.inflight = [] ∧ c.hist.dequeued = c.hist.submitted := by
  obtain ⟨_, hj⟩ := joined_of_returned hret
  have hall : ∀ w ∈ c.pool.m_threads, w.state = .terminated :=
    fun w hw => hI.terminatedOfJoined w hw (hj w hw)
  obtain ⟨w, hw⟩ := List.exists_mem_of_ne_nil _ hne
  obtain ⟨hq, hd⟩ := drained_of_terminated hI hlate ⟨w, hw, hall w hw⟩
  exact ⟨hq, inflight_nil_of_terminated hall, hd⟩

theorem threads_ne_nil {n : Nat} {c : Config τ} (hn : 1 ≤ n) (hc : Reachable n c) :
    c.pool.m_threads ≠ [] := by
  intro h
  have := reachable_length hc
  rw [h] at this
  simp at this
  omega

/-! ## The claims -/

/-- C1. For every worker count `n ≥ 1` and every `k`: in an execution of
`ThreadPool(n)` in which `k` tasks were passed to `Enqueue`, all of them before
the stop flag was set, every state in which the destructor has returned has
exactly `k` task executions (`k` tasks taken from the queue, `k` calls
returned).  And the destructor does return: from every such state of the
execution, worker and destructor steps alone, every call returning, lead to
the destructor's return with `k` executions. -/
theorem executions_eq_submissions (n k : Nat) (hn : 1 ≤ n) (c : Config τ)
    (hc : Reachable n c) (hk : c.hist.submitted.length = k)
    (hlate : c.hist.lateSubmitted = []) :
    (c.pool.dtorReturned = true →
      c.hist.executed.length = k ∧ c.hist.dequeued.length = k) ∧
    ∃ acts c', (∀ a ∈ acts, Action.isEnqueue a = false) ∧ run c acts = .running c' ∧
      c'.pool.dtorReturned = true ∧ c'.hist.submitted = c.hist.submitted ∧
      c'.hist.executed.length = k := by
  have key : ∀ d : Config τ, Reachable n d → d.hist.lateSubmitted = [] →
      d.pool.dtorReturned = true →
      d.hist.executed.length = d.hist.submitted.length ∧
      d.hist.dequeued.length = d.hist.submitted.length := by
    intro d hd hl hret
    have hI := inv_reachable hd
    obtain ⟨_, hin, hdq⟩ := quiescent_of_returned hI hl (threads_ne_nil hn hd) hret
    have := hI.once.length_eq
    rw [hin, List.nil_append, hdq] at this
    exact ⟨this, by rw [hdq]⟩
  constructor
  · intro hret
    rw [← hk]
    exact key c hc hlate hret
  · obtain ⟨acts, c', hacts, hrun, hret, hsub, hl⟩ := shutdown_completes c
    refine ⟨acts, c', hacts, hrun, hret, hsub, ?_⟩
    rw [(key c' (reachable_run hc hrun) (hl.trans hlate) hret).1, hsub, hk]

theorem executions_eq_submissions_witness :
    Reachable 4 RuntTestEnd ∧ RuntTestEnd.hist.submitted.length = 5 ∧
    RuntTestEnd.pool.dtorReturned = true ∧
    RuntTestEnd.hist.executed.length = 5 ∧ RuntTestEnd.hist.dequeued.length = 5 :=
  ⟨⟨RuntTest, rfl⟩, rfl, rfl,
    (executions_eq_submissions 4 5 (by decide) RuntTestEnd ⟨RuntTest, rfl⟩ rfl rfl).1 rfl⟩

/-- C2. In every reachable state the tasks in the queue, the tasks in flight
at the workers and the tasks whose call has returned are together exactly the
submitted tasks, each as often as it was submitted.  So when the submitted
tasks are pairwise distinct, each is in exactly one of the three places: the
combined list has no duplicate, hence no task has been executed twice and no
two workers hold the same task. -/
theorem task_in_one_place (n : Nat) (c : Config τ) (hc : Reachable n c) :
    List.Perm (c.pool.m_tasks ++ c.pool.inflight ++ c.hist.executed) c.hist.submitted ∧
    (c.hist.submitted.Nodup →
      (c.pool.m_tasks ++ c.pool.inflight ++ c.hist.executed).Nodup ∧
      c.hist.executed.Nodup ∧ c.pool.inflight.Nodup ∧
      (∀ t ∈ c.hist.executed, t ∉ c.pool.inflight ∧ t ∉ c.pool.m_tasks) ∧
      (∀ t ∈ c.pool.inflight, t ∉ c.pool.m_tasks)) := by
  have hI := inv_reachable hc
  have hperm : List.Perm (c.pool.m_tasks ++ c.pool.inflight ++ c.hist.executed)
      c.hist.submitted := by
    rw [← hI.fifo, List.append_assoc]
    exact List.perm_append_comm.trans (List.Perm.append_right _ hI.once)
  refine ⟨hperm, fun hnd => ?_⟩
  have hall := (hperm.nodup_iff).2 hnd
  have h1 := List.nodup_append.1 hall
  have h2 := List.nodup_append.1 h1.1
  refine ⟨hall, h1.2.1, h2.2.1, ?_, ?_⟩
  · intro t ht
    have hd := h1.2.2
    constructor
    · intro hin
      exact hd (List.mem_append_right _ hin) ht
    · intro hq
      exact hd (List.mem_append_left _ hq) ht
  · intro t ht hq
    exact h2.2.2 hq ht

theorem task_in_one_place_witness :
    Reachable 2 twoWorkerMid ∧
    List.Perm ([30] ++ [20] ++ [10]) [10, 20, 30] ∧ ([30] ++ [20] ++ [10]).Nodup :=
  ⟨⟨twoWorkerMidActs, rfl⟩,
    (task_in_one_place 2 twoWorkerMid ⟨twoWorkerMidActs, rfl⟩).1,
    ((task_in_one_place 2 twoWorkerMid ⟨twoWorkerMidActs, rfl⟩).2 (by decide)).1⟩

/-- C3, as the code has it.  Shutdown is a drain for a pool that has a worker:
in every reachable state in which no `Enqueue` happened after the stop flag
was set, if any worker is Terminated then the queue is empty and every
submitted task has been taken from it; so when the destructor has returned in
a pool with at least one worker, every task that was queued when it began has
been dequeued.  For a pool without workers the second part does not hold. -/
theorem shutdown_drains (n : Nat) (c : Config τ) (hc : Reachable n c)
    (hlate : c.hist.lateSubmitted = []) :
    (c.pool.anyTerminated = true →
      c.pool.m_tasks = [] ∧ c.hist.dequeued = c.hist.submitted) ∧
    (c.pool.dtorReturned = true → c.pool.m_threads ≠ [] →
      c.pool.m_tasks = [] ∧ c.hist.dequeued = c.hist.submitted) := by
  have hI := inv_reachable hc
  constructor
  · intro hany
    simp only [ThreadPool.anyTerminated, List.any_eq_true] at hany
    obtain ⟨w, hw, hwt⟩ := hany
    refine drained_of_terminated hI hlate ⟨w, hw, ?_⟩
    cases hst : w.state with
    | terminated => rfl
    | idleWait => rw [hst] at hwt; cases hwt
    | executing t => rw [hst] at hwt; cases hwt
  · intro hret hne
    obtain ⟨hq, _, hd⟩ := quiescent_of_returned hI hlate hne hret
    exact ⟨hq, hd⟩

theorem shutdown_drains_witness :
    Reachable 2 oneLeft ∧ oneLeft.hist.lateSubmitted = [] ∧
    oneLeft.pool.anyTerminated = true ∧
    oneLeft.pool.m_tasks = [] ∧ oneLeft.hist.dequeued = oneLeft.hist.submitted :=
  ⟨⟨oneLeftActs, rfl⟩, rfl, rfl,
    (shutdown_drains 2 oneLeft ⟨oneLeftActs, rfl⟩ rfl).1 rfl⟩

/-- C3 fails on the code for a pool without workers: after `ThreadPool(0)` and
`Enqueue(7)` the task is queued when the destructor begins; the destructor
sets the flag, has no thread to join and returns, with no `Enqueue` after the
flag, and task `7` is still in the queue and has never been dequeued. -/
theorem drain_fails_without_workers :
    run (Config.init 0) [.enqueue 7] =
      .running ⟨⟨[], [7], false⟩, ⟨[7], [], [], []⟩⟩ ∧
    step (⟨⟨[], [7], false⟩, ⟨[7], [], [], []⟩⟩ : Config Nat) .dtorStop =
      .running noWorkerEnd ∧
    Reachable 0 noWorkerEnd ∧
    noWorkerEnd.hist.lateSubmitted = [] ∧
    noWorkerEnd.pool.dtorReturned = true ∧
    noWorkerEnd.pool.m_tasks = [7] ∧
    noWorkerEnd.hist.dequeued = [] ∧
    ¬ (noWorkerEnd.pool.m_tasks = [] ∧
        noWorkerEnd.hist.dequeued = noWorkerEnd.hist.submitted) :=
  ⟨rfl, rfl, ⟨[.enqueue 7, .dtorStop], rfl⟩, rfl, rfl, rfl, rfl, by decide⟩

/-- C4. With a pool of exactly one worker, if the tasks `T1..Tm` were passed to
`Enqueue` in that order, all before the stop flag was set, then in every state
in which the destructor has returned the log of executed tasks is exactly
`T1, ..., Tm`; and from every state of such an execution the destructor can be
run to its return, where the log is that list. -/
theorem single_worker_fifo (ts : List τ) (c : Config τ) (hc : Reachable 1 c)
    (hts : c.hist.submitted = ts) (hlate : c.hist.lateSubmitted = []) :
    (c.pool.dtorReturned = true → c.hist.executed = ts) ∧
    ∃ acts c', (∀ a ∈ acts, Action.isEnqueue a = false) ∧ run c acts = .running c' ∧
      c'.pool.dtorReturned = true ∧ c'.hist.executed = ts := by
  have key : ∀ d : Config τ, Reachable 1 d → d.hist.lateSubmitted = [] →
      d.pool.dtorReturned = true → d.hist.executed = d.hist.submitted := by
    intro d hd hl hret
    have hI := inv_reachable hd
    obtain ⟨_, hin, hdq⟩ :=
      quiescent_of_returned hI hl (threads_ne_nil (Nat.le_refl 1) hd) hret
    have := hI.single (by rw [reachable_length hd])
    rw [hin, List.append_nil, hdq] at this
    exact this.symm
  constructor
  · intro hret
    rw [← hts]
    exact key c hc hlate hret
  · obtain ⟨acts, c', hacts, hrun, hret, hsub, hl⟩ := shutdown_completes c
    refine ⟨acts, c', hacts, hrun, hret, ?_⟩
    rw [key c' (reachable_run hc hrun) (hl.trans hlate) hret, hsub, hts]

theorem single_worker_fifo_witness :
    Reachable 1 oneWorkerEnd ∧ oneWorkerEnd.pool.dtorReturned = true ∧
    oneWorkerEnd.hist.executed = [1, 2, 3] :=
  ⟨⟨oneWorkerActs, rfl⟩, rfl,
    (single_worker_fifo [1, 2, 3] oneWorkerEnd ⟨oneWorkerActs, rfl⟩ rfl rfl).1 rfl⟩

/-- C5. For any number of workers, in every reachable state the tasks dequeued
so far, in dequeue order, followed by the queue content are the tasks passed
to `Enqueue` so far in the order of their critical sections.  So the `k`-th
task taken from the queue is the `k`-th task submitted: of two submissions
whose critical sections ran one after the other, the later one is never
dequeued before the earlier one. -/
theorem dequeue_order (n : Nat) (c : Config τ) (hc : Reachable n c) :
    c.hist.dequeued ++ c.pool.m_tasks = c.hist.submitted ∧
    c.hist.dequeued <+: c.hist.submitted ∧
    (∀ a b : Nat, a ≤ b → b < c.hist.dequeued.length →
      a < c.hist.dequeued.length ∧
      c.hist.dequeued[a]? = c.hist.submitted[a]? ∧
      c.hist.dequeued[b]? = c.hist.submitted[b]?) := by
  have hI := inv_reachable hc
  refine ⟨hI.fifo, ⟨c.pool.m_tasks, hI.fifo⟩, ?_⟩
  intro a b hab hb
  have ha : a < c.hist.dequeued.length := by omega
  refine ⟨ha, ?_, ?_⟩
  · rw [← hI.fifo, List.getElem?_append_left ha]
  · rw [← hI.fifo, List.getElem?_append_left hb]

theorem dequeue_order_witness :
    Reachable 2 twoWorkerMid ∧
    twoWorkerMid.hist.dequeued ++ twoWorkerMid.pool.m_tasks = twoWorkerMid.hist.submitted :=
  ⟨⟨twoWorkerMidActs, rfl⟩, (dequeue_order 2 twoWorkerMid ⟨twoWorkerMidActs, rfl⟩).1⟩

end Threads

namespace Threads

variable {τ : Type}

/-- C6. For every pool state and every task `t`, `Enqueue(t)` succeeds: the
step is enabled whatever the length of the queue, the new queue is the old one
with `t` appended at the tail (one element longer, the old tasks in their old
order in front), and the stop flag and every worker are as before. -/
theorem enqueue_appends (p : ThreadPool τ) (t : τ) :
    (p.Enqueue t).m_tasks = p.m_tasks ++ [t] ∧
    (p.Enqueue t).m_tasks.length = p.m_tasks.length + 1 ∧
    p.m_tasks <+: (p.Enqueue t).m_tasks ∧
    (p.Enqueue t).m_stop = p.m_stop ∧
    (p.Enqueue t).m_threads = p.m_threads ∧
    (∀ h : History τ, ∃ h', step ⟨p, h⟩ (.enqueue t) = .running ⟨p.Enqueue t, h'⟩) := by
  refine ⟨rfl, ?_, ⟨[t], rfl⟩, rfl, rfl, fun h => ⟨_, rfl⟩⟩
  simp [ThreadPool.Enqueue]

/-! ### A pool without workers -/

theorem no_threads_step {c c' : Config τ} {a : Action τ} (h0 : c.pool.m_threads = [])
    (h : step c a = .running c') :
    c'.pool.m_threads = [] ∧ c'.hist.dequeued = c.hist.dequeued ∧
    c'.hist.executed = c.hist.executed := by
  cases a with
  | enqueue t =>
    rw [step_enqueue] at h
    injection h with h
    subst h
    exact ⟨h0, rfl, rfl⟩
  | wake i =>
    obtain ⟨j, hj, _⟩ := step_wake_inv h
    rw [h0] at hj
    simp at hj
  | taskReturns i =>
    obtain ⟨t, j, hj, _⟩ := step_taskReturns_inv h
    rw [h0] at hj
    simp at hj
  | taskThrows i => exact absurd h (step_taskThrows_ne_running c c' i)
  | dtorStop =>
    rw [step_dtorStop] at h
    injection h with h
    subst h
    exact ⟨h0, rfl, rfl⟩
  | dtorJoin i =>
    obtain ⟨_, _, w, hw, _⟩ := step_dtorJoin_inv h
    rw [h0] at hw
    simp at hw

theorem no_threads_run {acts : List (Action τ)} {c c' : Config τ}
    (h0 : c.pool.m_threads = []) (h : run c acts = .running c') :
    c'.hist.dequeued = c.hist.dequeued ∧ c'.hist.executed = c.hist.executed := by
  induction acts generalizing c with
  | nil =>
    simp only [run] at h
    injection h with h
    subst h
    exact ⟨rfl, rfl⟩
  | cons a rest ih =>
    obtain ⟨c1, h1, h2⟩ := run_cons_running h
    obtain ⟨h3, h4, h5⟩ := no_threads_step h0 h1
    obtain ⟨h6, h7⟩ := ih h3 h2
    exact ⟨h6.trans h4, h7.trans h5⟩

/-- C7, as the code has it.  `ThreadPool(0)` does not fail: the constructor's
loop runs zero times and returns a live pool with no worker, an empty queue
and the stop flag clear.  In every state that pool can reach there is still
no worker, nothing has been dequeued or executed, and the queue holds every
task submitted so far. -/
theorem ctor_zero_pool (c : Config τ) (hc : Reachable 0 c) :
    (ThreadPool.ctor 0 : ThreadPool τ) = ⟨[], [], false⟩ ∧
    c.pool.m_threads = [] ∧ c.hist.dequeued = [] ∧ c.hist.executed = [] ∧
    c.pool.m_tasks = c.hist.submitted := by
  have hI := inv_reachable hc
  obtain ⟨acts, hacts⟩ := hc
  obtain ⟨hd, he⟩ := no_threads_run rfl hacts
  have hd' : c.hist.dequeued = [] := hd
  refine ⟨rfl, ?_, hd', he, ?_⟩
  · exact List.length_eq_zero.1 (reachable_length ⟨acts, hacts⟩)
  · have := hI.fifo
    rw [hd', List.nil_append] at this
    exact this

theorem ctor_zero_pool_witness :
    Reachable 0 noWorkerEnd ∧ noWorkerEnd.pool.m_threads = [] ∧
    noWorkerEnd.pool.m_tasks = noWorkerEnd.hist.submitted :=
  ⟨⟨[.enqueue 7, .dtorStop], rfl⟩,
    (ctor_zero_pool noWorkerEnd ⟨[.enqueue 7, .dtorStop], rfl⟩).2.1,
    (ctor_zero_pool noWorkerEnd ⟨[.enqueue 7, .dtorStop], rfl⟩).2.2.2.2⟩

/-- C7 fails on the code: `ThreadPool(0)` is a pool, with zero workers, on
which `Enqueue(7)` is accepted; no worker step is enabled, and the destructor
returns with the task still in the queue. -/
theorem ctor_zero_no_error :
    (ThreadPool.ctor 0 : ThreadPool Nat) = ⟨[], [], false⟩ ∧
    (ThreadPool.ctor 0 : ThreadPool Nat).m_threads.length = 0 ∧
    step (Config.init 0) (.enqueue 7) =
      .running ⟨⟨[], [7], false⟩, ⟨[7], [], [], []⟩⟩ ∧
    step (⟨⟨[], [7], false⟩, ⟨[7], [], [], []⟩⟩ : Config Nat) (.wake 0) = .notEnabled ∧
    run (Config.init 0) [.enqueue 7, .dtorStop] = .running noWorkerEnd ∧
    noWorkerEnd.pool.dtorReturned = true ∧ noWorkerEnd.pool.m_tasks = [7] := by
  decide

/-- C8, as the code has it.  In every pool state in which the stop flag is
set, `Enqueue(t)` is accepted exactly as before shutdown: the step is enabled,
`t` is appended at the tail of the queue, flag and workers stay as they are.
The task is delivered like any other: if the queue was empty, a worker still
in Idle-Wait that wakes next takes `t` and executes it. -/
theorem enqueue_after_stop (c : Config τ) (t : τ) (hs : c.pool.m_stop = true) :
    ∃ c', step c (.enqueue t) = .running c' ∧
      c'.pool.m_tasks = c.pool.m_tasks ++ [t] ∧ c'.pool.m_stop = true ∧
      c'.pool.m_threads = c.pool.m_threads ∧
      c'.hist.lateSubmitted = c.hist.lateSubmitted ++ [t] ∧
      (∀ (i : Nat) (j : Bool), c.pool.m_tasks = [] →
        c.pool.m_threads[i]? = some ⟨.idleWait, j⟩ →
        ∃ c'', step c' (.wake i) = .running c'' ∧
          c''.pool.m_threads[i]? = some ⟨.executing t, j⟩ ∧
          c''.hist.dequeued = c.hist.dequeued ++ [t]) := by
  refine ⟨_, step_enqueue c t, rfl, hs, rfl, ?_, ?_⟩
  · show c.hist.lateSubmitted ++ (if c.pool.m_stop then [t] else []) = _
    rw [hs]; rfl
  · intro i j hq hi
    have hcs : (c.pool.Enqueue t).criticalSection = (.executing t, []) := by
      simp [ThreadPool.criticalSection, ThreadPool.waitPredicate, ThreadPool.Enqueue, hq, hs]
    have hi' : (c.pool.Enqueue t).m_threads[i]? = some ⟨.idleWait, j⟩ := hi
    have hlen : i < c.pool.m_threads.length := by
      rcases Nat.lt_or_ge i c.pool.m_threads.length with h | h
      · exact h
      · rw [List.getElem?_eq_none h] at hi; cases hi
    refine ⟨_, by simp only [step, hi', hcs]; rfl, ?_, ?_⟩
    · show ((c.pool.Enqueue t).m_threads.set i ⟨.executing t, j⟩)[i]? = _
      simp [ThreadPool.Enqueue, hlen]
    · simp [WorkerState.inflight]

theorem enqueue_after_stop_witness :
    stoppedIdle.pool.m_stop = true ∧
    ∃ c', step stoppedIdle (.enqueue 7) = .running c' ∧
      c'.pool.m_tasks = stoppedIdle.pool.m_tasks ++ [7] ∧ c'.pool.m_stop = true :=
  ⟨rfl,
    (enqueue_after_stop stoppedIdle 7 rfl).elim
      (fun c' h => ⟨c', h.1, h.2.1, h.2.2.1⟩)⟩

/-- C8 fails on the code: with the stop flag set, `Enqueue(7)` is accepted and
changes the queue from empty to `[7]`, and the next wake-up of the idle worker
hands task `7` to it. -/
theorem enqueue_after_stop_not_rejected :
    stoppedIdle.pool.m_stop = true ∧
    (stoppedIdle.pool.Enqueue 7).m_tasks = [7] ∧
    (stoppedIdle.pool.Enqueue 7).m_tasks ≠ stoppedIdle.pool.m_tasks ∧
    run (Config.init 1) [.dtorStop] = .running stoppedIdle ∧
    run stoppedIdle [.enqueue 7, .wake 0] = .running lateDelivered ∧
    lateDelivered.pool.m_threads = [⟨.executing 7, true⟩] := by
  decide

theorem joinLoop_joined {l : List (Worker τ)} (h : ∀ w ∈ l, w.joinable = false) :
    joinLoop l = some l := by
  induction l with
  | nil => rfl
  | cons a l ih =>
    have ha := h a (List.mem_cons_self a l)
    simp only [joinLoop, joinIfJoinable, ha, Bool.false_eq_true, if_false,
      ih (fun w hw => h w (List.mem_cons_of_mem a hw)), Option.map_some']

theorem joinLoop_result {l l' : List (Worker τ)} (h : joinLoop l = some l') :
    ∀ w ∈ l', w.joinable = false := by
  induction l generalizing l' with
  | nil =>
    simp only [joinLoop] at h
    injection h with h
    subst h
    simp
  | cons a l ih =>
    simp only [joinLoop] at h
    cases ha : joinIfJoinable a with
    | none => rw [ha] at h; cases h
    | some a' =>
      rw [ha] at h
      cases hl : joinLoop l with
      | none => rw [hl] at h; cases h
      | some l1 =>
        rw [hl] at h
        simp only [Option.map_some'] at h
        injection h with h
        subst h
        intro w hw
        rcases List.mem_cons.1 hw with rfl | hw
        · rcases a with ⟨st, jn⟩
          cases jn with
          | false =>
            simp only [joinIfJoinable] at ha
            injection ha with ha
            rw [← ha]
          | true =>
            cases st with
            | terminated =>
              simp only [joinIfJoinable] at ha
              injection ha with ha
              rw [← ha]
            | idleWait => simp [joinIfJoinable] at ha
            | executing t => simp [joinIfJoinable] at ha
        · exact ih hl w hw

/-- When the destructor body runs to its end, the destructor has returned in
the state it leaves. -/
theorem dtor_returned {p p' : ThreadPool τ} (h : p.dtor = some p') :
    p'.dtorReturned = true := by
  simp only [ThreadPool.dtor, ThreadPool.dtorSetStop] at h
  cases hl : joinLoop p.m_threads with
  | none => rw [hl] at h; cases h
  | some l' =>
    rw [hl] at h
    simp only [Option.map_some'] at h
    injection h with h
    subst h
    have := joinLoop_result hl
    simp only [ThreadPool.dtorReturned, Bool.true_and, List.all_eq_true, Bool.not_eq_true']
    exact this

/-- C10. Shutdown is idempotent.  On a pool whose shutdown has completed (flag
set, every thread joined) the destructor body runs to its end without
blocking and returns the same pool state; it calls `join` on no thread, since
`joinable()` is false for each of them; and each of its steps, taken one at a
time among the steps of other threads, is enabled and changes nothing. -/
theorem shutdown_idempotent (p : ThreadPool τ) (h : p.dtorReturned = true) :
    p.dtor = some p ∧ joinCalls p.m_threads = 0 ∧
    (∀ w ∈ p.m_threads, joinIfJoinable w = some w) ∧
    (∀ hist : History τ, step ⟨p, hist⟩ .dtorStop = .running ⟨p, hist⟩) ∧
    (∀ (hist : History τ) (i : Nat), i < p.m_threads.length →
      step ⟨p, hist⟩ (.dtorJoin i) = .running ⟨p, hist⟩) := by
  obtain ⟨hs, hj⟩ := joined_of_returned h
  rcases p with ⟨ws, q, s⟩
  simp only at hs hj
  subst hs
  refine ⟨?_, ?_, ?_, fun _ => rfl, ?_⟩
  · simp only [ThreadPool.dtor, ThreadPool.dtorSetStop, joinLoop_joined hj, Option.map_some']
  · simp only [joinCalls, List.length_eq_zero, List.filter_eq_nil_iff]
    intro w hw
    simp [hj w hw]
  · intro w hw
    simp [joinIfJoinable, hj w hw]
  · intro hist i hi
    have hw : ws[i]? = some ws[i] := by simp [hi]
    have hwj := hj ws[i] (List.getElem_mem hi)
    have hg : (List.take i ws).all (fun w => !w.joinable) = true := by
      rw [List.all_eq_true]
      intro v hv
      simp [hj v (List.mem_of_mem_take hv)]
    simp only [step, Bool.true_and, hg, if_true, hw, joinIfJoinable, hwj,
      Bool.false_eq_true, if_false]
    rw [set_same hw]

theorem shutdown_idempotent_witness :
    beforeDtor.dtor = some afterDtor ∧ afterDtor.dtorReturned = true ∧
    afterDtor.dtor = some afterDtor ∧ joinCalls afterDtor.m_threads = 0 :=
  ⟨rfl, rfl,
    (shutdown_idempotent afterDtor (dtor_returned (p := beforeDtor) rfl)).1,
    (shutdown_idempotent afterDtor (dtor_returned (p := beforeDtor) rfl)).2.1⟩

end Threads

namespace Threads

variable {τ : Type}

/-! ## Construction, and the wake step of an idle worker -/

theorem getElem?_set_of_some {α : Type} {l : List α} {i : Nat} {w : α} (h : l[i]? = some w)
    (w' : α) : (l.set i w')[i]? = some w' := by
  have hlen : i < l.length := by
    rcases Nat.lt_or_ge i l.length with h1 | h1
    · exact h1
    · rw [List.getElem?_eq_none h1] at h; cases h
  simp [hlen]

theorem step_wake_idle {c : Config τ} {i : Nat} {j : Bool}
    (h : c.pool.m_threads[i]? = some ⟨.idleWait, j⟩) :
    step c (.wake i) = .running
      { pool := { c.pool with
          m_threads := c.pool.m_threads.set i ⟨c.pool.criticalSection.1, j⟩
          m_tasks := c.pool.criticalSection.2 }
        hist := { c.hist with
          dequeued := c.hist.dequeued ++ c.pool.criticalSection.1.inflight } } := by
  simp only [step, h]

/-- The wake step of an idle worker is always enabled, and its result is one
of three: nothing changes (empty queue, flag clear), the worker leaves (empty
queue, flag set), or the worker takes the front task. -/
theorem step_wake_cases {c : Config τ} {i : Nat} {j : Bool}
    (h : c.pool.m_threads[i]? = some ⟨.idleWait, j⟩) :
    ∃ c', step c (.wake i) = .running c' ∧
      ((c.pool.m_tasks = [] ∧ c.pool.m_stop = false ∧ c' = c) ∨
       (c.pool.m_tasks = [] ∧ c.pool.m_stop = true ∧
          c' = { c with pool := { c.pool with
                  m_threads := c.pool.m_threads.set i ⟨.terminated, j⟩ } }) ∨
       (∃ t rest, c.pool.m_tasks = t :: rest ∧
          c' = { pool := { c.pool with
                   m_threads := c.pool.m_threads.set i ⟨.executing t, j⟩
                   m_tasks := rest }
                 hist := { c.hist with dequeued := c.hist.dequeued ++ [t] } })) := by
  refine ⟨_, step_wake_idle h, ?_⟩
  obtain ⟨j', hj', hcases⟩ := step_wake_inv (step_wake_idle h)
  rw [h] at hj'
  injection hj' with hj'
  injection hj' with _ hj'
  subst hj'
  exact hcases

/-- C11. For every worker count `n`, in every reachable state in which the
destructor has returned the stop flag is set and each of the `n` workers is
Terminated, none is in Idle-Wait or Executing.  And the destructor does
return: from every reachable state, worker and destructor steps alone lead
to such a state. -/
theorem workers_terminated_at_return (n : Nat) (c : Config τ) (hc : Reachable n c) :
    (c.pool.dtorReturned = true →
      c.pool.m_stop = true ∧ c.pool.m_threads.length = n ∧
      (∀ w ∈ c.pool.m_threads, w.state = .terminated) ∧
      (∀ w ∈ c.pool.m_threads, w.state ≠ .idleWait ∧ w.state.isExecuting = false)) ∧
    ∃ acts c', (∀ a ∈ acts, Action.isEnqueue a = false) ∧ run c acts = .running c' ∧
      c'.pool.dtorReturned = true ∧ c'.pool.m_stop = true ∧ c'.pool.m_threads.length = n ∧
      (∀ w ∈ c'.pool.m_threads, w.state = .terminated) := by
  have key : ∀ d : Config τ, Reachable n d → d.pool.dtorReturned = true →
      d.pool.m_stop = true ∧ d.pool.m_threads.length = n ∧
      (∀ w ∈ d.pool.m_threads, w.state = .terminated) := by
    intro d hd hret
    obtain ⟨hs, hj⟩ := joined_of_returned hret
    exact ⟨hs, reachable_length hd,
      fun w hw => (inv_reachable hd).terminatedOfJoined w hw (hj w hw)⟩
  constructor
  · intro hret
    obtain ⟨hs, hl, hall⟩ := key c hc hret
    refine ⟨hs, hl, hall, ?_⟩
    intro w hw
    rw [hall w hw]
    refine ⟨?_, rfl⟩
    intro h
    cases h
  · obtain ⟨acts, c', hacts, hrun, hret, _, _⟩ := shutdown_completes c
    obtain ⟨hs, hl, hall⟩ := key c' (reachable_run hc hrun) hret
    exact ⟨acts, c', hacts, hrun, hret, hs, hl, hall⟩

theorem workers_terminated_at_return_witness :
    Reachable 4 RuntTestEnd ∧ RuntTestEnd.pool.dtorReturned = true ∧
    RuntTestEnd.pool.m_stop = true ∧ RuntTestEnd.pool.m_threads.length = 4 ∧
    (∀ w ∈ RuntTestEnd.pool.m_threads, w.state = .terminated) :=
  ⟨⟨RuntTest, rfl⟩, rfl,
    ((workers_terminated_at_return 4 RuntTestEnd ⟨RuntTest, rfl⟩).1 rfl).1,
    ((workers_terminated_at_return 4 RuntTestEnd ⟨RuntTest, rfl⟩).1 rfl).2.1,
    ((workers_terminated_at_return 4 RuntTestEnd ⟨RuntTest, rfl⟩).1 rfl).2.2.1⟩

/-- C12. For every worker count `n`, `ThreadPool(n)` yields a pool with exactly
`n` workers, each in Idle-Wait (and joinable), an empty task queue and the
stop flag false; this pool is the first state of every execution. -/
theorem ctor_spawns_idle_workers (n : Nat) :
    (ThreadPool.ctor n : ThreadPool τ).m_threads.length = n ∧
    (∀ w ∈ (ThreadPool.ctor n : ThreadPool τ).m_threads,
      w.state = .idleWait ∧ w.joinable = true) ∧
    (∀ i : Nat, i < n →
      (ThreadPool.ctor n : ThreadPool τ).m_threads[i]? = some ⟨.idleWait, true⟩) ∧
    (ThreadPool.ctor n : ThreadPool τ).m_tasks = [] ∧
    (ThreadPool.ctor n : ThreadPool τ).m_stop = false ∧
    (Config.init n : Config τ).pool = ThreadPool.ctor n ∧
    Reachable n (Config.init n : Config τ) := by
  refine ⟨by simp [ThreadPool.ctor], ?_, ?_, rfl, rfl, rfl, ⟨[], rfl⟩⟩
  · intro w hw
    simp only [ThreadPool.ctor] at hw
    rw [List.eq_of_mem_replicate hw]
    exact ⟨rfl, rfl⟩
  · intro i hi
    simp [ThreadPool.ctor, hi]

/-- C13. A wake step of a worker in Idle-Wait is always taken, and it moves the
worker to Executing if and only if the queue is non-empty at that moment,
whatever the stop flag is.  In that case the worker holds the head task `t`:
the queue `t :: rest` becomes `rest`, the flag is unchanged and `t` is the
next task recorded as dequeued. -/
theorem wake_to_executing (c : Config τ) (i : Nat) (j : Bool)
    (h : c.pool.m_threads[i]? = some ⟨.idleWait, j⟩) :
    ∃ c', step c (.wake i) = .running c' ∧
      ((∃ t, c'.pool.m_threads[i]? = some ⟨.executing t, j⟩) ↔ c.pool.m_tasks ≠ []) ∧
      (c.pool.criticalSection.1.isExecuting = true ↔ c.pool.m_tasks ≠ []) ∧
      (∀ t rest, c.pool.m_tasks = t :: rest →
        c'.pool.m_threads[i]? = some ⟨.executing t, j⟩ ∧ c'.pool.m_tasks = rest ∧
        c'.pool.m_stop = c.pool.m_stop ∧ c'.hist.dequeued = c.hist.dequeued ++ [t]) := by
  obtain ⟨c', hstep, hcases⟩ := step_wake_cases h
  refine ⟨c', hstep, ?_, ?_, ?_⟩
  · rcases hcases with ⟨hq, _, rfl⟩ | ⟨hq, _, rfl⟩ | ⟨t, rest, hq, rfl⟩
    · rw [hq, h]
      simp
    · rw [hq]
      show (∃ t, (c.pool.m_threads.set i ⟨.terminated, j⟩)[i]? = _) ↔ _
      rw [getElem?_set_of_some h]
      simp
    · rw [hq]
      show (∃ t', (c.pool.m_threads.set i ⟨.executing t, j⟩)[i]? = _) ↔ _
      rw [getElem?_set_of_some h]
      simp
  · rcases criticalSection_cases c.pool with ⟨hq, _, hcs⟩ | ⟨hq, _, hcs⟩ | ⟨t, rest, hq, hcs⟩
    · rw [hcs, hq]; simp [WorkerState.isExecuting]
    · rw [hcs, hq]; simp [WorkerState.isExecuting]
    · rw [hcs, hq]; simp [WorkerState.isExecuting]
  · intro t rest hq
    rcases hcases with ⟨hq', _, _⟩ | ⟨hq', _, _⟩ | ⟨t', rest', hq', rfl⟩
    · rw [hq] at hq'; cases hq'
    · rw [hq] at hq'; cases hq'
    · rw [hq] at hq'
      injection hq' with h1 h2
      subst h1 h2
      exact ⟨getElem?_set_of_some h _, rfl, rfl, rfl⟩

theorem wake_to_executing_witness :
    idleWithQueue.pool.m_threads[0]? = some ⟨.idleWait, true⟩ ∧
    ∃ c', step idleWithQueue (.wake 0) = .running c' ∧
      c'.pool.m_threads[0]? = some ⟨.executing 8, true⟩ ∧ c'.pool.m_tasks = [9] :=
  ⟨rfl,
    (wake_to_executing idleWithQueue 0 true rfl).elim
      (fun c' hc' => ⟨c', hc'.1, (hc'.2.2.2 8 [9] rfl).1, (hc'.2.2.2 8 [9] rfl).2.1⟩)⟩

/-- C14. A wake step of a worker in Idle-Wait moves it to Terminated if and
only if, at that moment, the queue is empty and the stop flag is set; that
step leaves the queue, the stop flag and the record of the execution as they
are. -/
theorem wake_to_terminated (c : Config τ) (i : Nat) (j : Bool)
    (h : c.pool.m_threads[i]? = some ⟨.idleWait, j⟩) :
    ∃ c', step c (.wake i) = .running c' ∧
      (c'.pool.m_threads[i]? = some ⟨.terminated, j⟩ ↔
        c.pool.m_tasks = [] ∧ c.pool.m_stop = true) ∧
      (c.pool.criticalSection.1 = .terminated ↔
        c.pool.m_tasks = [] ∧ c.pool.m_stop = true) ∧
      (c'.pool.m_threads[i]? = some ⟨.terminated, j⟩ →
        c'.pool.m_tasks = c.pool.m_tasks ∧ c'.pool.m_stop = c.pool.m_stop ∧
        c'.hist = c.hist) := by
  obtain ⟨c', hstep, hcases⟩ := step_wake_cases h
  refine ⟨c', hstep, ?_, ?_, ?_⟩
  · rcases hcases with ⟨hq, hs, rfl⟩ | ⟨hq, hs, rfl⟩ | ⟨t, rest, hq, rfl⟩
    · rw [hq, hs, h]
      simp
    · rw [hq, hs]
      show (c.pool.m_threads.set i ⟨.terminated, j⟩)[i]? = _ ↔ _
      rw [getElem?_set_of_some h]
      simp
    · rw [hq]
      show (c.pool.m_threads.set i ⟨.executing t, j⟩)[i]? = _ ↔ _
      rw [getElem?_set_of_some h]
      simp
  · rcases criticalSection_cases c.pool with ⟨hq, hs, hcs⟩ | ⟨hq, hs, hcs⟩ | ⟨t, rest, hq, hcs⟩
    · rw [hcs, hq, hs]; simp
    · rw [hcs, hq, hs]; simp
    · rw [hcs, hq]; simp
  · intro hterm
    rcases hcases with ⟨_, _, rfl⟩ | ⟨_, _, rfl⟩ | ⟨t, rest, _, rfl⟩
    · exact ⟨rfl, rfl, rfl⟩
    · exact ⟨rfl, rfl, rfl⟩
    · have : (c.pool.m_threads.set i ⟨.executing t, j⟩)[i]? = some ⟨.terminated, j⟩ := hterm
      rw [getElem?_set_of_some h] at this
      injection this with this
      injection this with this
      cases this

theorem wake_to_terminated_witness :
    stoppedIdle.pool.m_threads[0]? = some ⟨.idleWait, true⟩ ∧
    ∃ c', step stoppedIdle (.wake 0) = .running c' ∧
      (c'.pool.m_threads[0]? = some ⟨.terminated, true⟩ ↔
        stoppedIdle.pool.m_tasks = [] ∧ stoppedIdle.pool.m_stop = true) :=
  ⟨rfl,
    (wake_to_terminated stoppedIdle 0 true rfl).elim
      (fun c' hc' => ⟨c', hc'.1, hc'.2.1⟩)⟩

/-- C15. A worker in Idle-Wait stays in Idle-Wait exactly while the queue is
empty and the stop flag is false, that is, exactly while the wait predicate
`!m_tasks.empty() || m_stop` is false; a wake-up in such a state changes
nothing at all. -/
theorem wake_stays_idle (c : Config τ) (i : Nat) (j : Bool)
    (h : c.pool.m_threads[i]? = some ⟨.idleWait, j⟩) :
    ∃ c', step c (.wake i) = .running c' ∧
      (c'.pool.m_threads[i]? = some ⟨.idleWait, j⟩ ↔
        c.pool.m_tasks = [] ∧ c.pool.m_stop = false) ∧
      (c'.pool.m_threads[i]? = some ⟨.idleWait, j⟩ ↔ c.pool.waitPredicate = false) ∧
      (c.pool.m_tasks = [] → c.pool.m_stop = false → c' = c) := by
  obtain ⟨c', hstep, hcases⟩ := step_wake_cases h
  have hpred : c.pool.waitPredicate = false ↔ c.pool.m_tasks = [] ∧ c.pool.m_stop = false := by
    cases hq : c.pool.m_tasks <;> cases hs : c.pool.m_stop <;>
      simp [ThreadPool.waitPredicate, hq, hs]
  have hiff : c'.pool.m_threads[i]? = some ⟨.idleWait, j⟩ ↔
      c.pool.m_tasks = [] ∧ c.pool.m_stop = false := by
    rcases hcases with ⟨hq, hs, rfl⟩ | ⟨hq, hs, rfl⟩ | ⟨t, rest, hq, rfl⟩
    · rw [hq, hs, h]
      simp
    · rw [hq, hs]
      show (c.pool.m_threads.set i ⟨.terminated, j⟩)[i]? = _ ↔ _
      rw [getElem?_set_of_some h]
      simp
    · rw [hq]
      show (c.pool.m_threads.set i ⟨.executing t, j⟩)[i]? = _ ↔ _
      rw [getElem?_set_of_some h]
      simp
  refine ⟨c', hstep, hiff, hiff.trans hpred.symm, ?_⟩
  intro hq hs
  rcases hcases with ⟨_, _, rfl⟩ | ⟨_, hs', _⟩ | ⟨t, rest, hq', _⟩
  · rfl
  · rw [hs] at hs'; cases hs'
  · rw [hq] at hq'; cases hq'

theorem wake_stays_idle_witness :
    idleEmpty.pool.m_threads[0]? = some ⟨.idleWait, true⟩ ∧
    ∃ c', step idleEmpty (.wake 0) = .running c' ∧ c' = idleEmpty :=
  ⟨rfl,
    (wake_stays_idle idleEmpty 0 true rfl).elim
      (fun c' hc' => ⟨c', hc'.1, hc'.2.2.2 rfl rfl⟩)⟩

end Threads

namespace Threads

variable {τ : Type}

/-! ## After every worker has left -/

theorem all_terminated_step {c c' : Config τ} {a : Action τ}
    (hall : ∀ w ∈ c.pool.m_threads, w.state = .terminated)
    (h : step c a = .running c') :
    (∀ w ∈ c'.pool.m_threads, w.state = .terminated) ∧
    c'.hist.dequeued = c.hist.dequeued ∧ c'.hist.executed = c.hist.executed ∧
    c.pool.m_tasks <+: c'.pool.m_tasks := by
  cases a with
  | enqueue t =>
    rw [step_enqueue] at h
    injection h with h
    subst h
    exact ⟨hall, rfl, rfl, ⟨[t], rfl⟩⟩
  | wake i =>
    obtain ⟨j, hj, _⟩ := step_wake_inv h
    have := hall _ (mem_of_getElem?_some hj)
    cases this
  | taskReturns i =>
    obtain ⟨t, j, hj, _⟩ := step_taskReturns_inv h
    have := hall _ (mem_of_getElem?_some hj)
    cases this
  | taskThrows i => exact absurd h (step_taskThrows_ne_running c c' i)
  | dtorStop =>
    rw [step_dtorStop] at h
    injection h with h
    subst h
    exact ⟨hall, rfl, rfl, List.prefix_refl _⟩
  | dtorJoin i =>
    obtain ⟨_, _, w, hw, ⟨_, rfl⟩ | ⟨_, hst, rfl⟩⟩ := step_dtorJoin_inv h
    · exact ⟨hall, rfl, rfl, List.prefix_refl _⟩
    · refine ⟨?_, rfl, rfl, List.prefix_refl _⟩
      intro v hv
      rcases List.mem_or_eq_of_mem_set hv with h1 | h1
      · exact hall v h1
      · rw [h1]

theorem all_terminated_run {acts : List (Action τ)} {c c' : Config τ}
    (hall : ∀ w ∈ c.pool.m_threads, w.state = .terminated)
    (h : run c acts = .running c') :
    c'.hist.dequeued = c.hist.dequeued ∧ c'.hist.executed = c.hist.executed ∧
    c.pool.m_tasks <+: c'.pool.m_tasks := by
  induction acts generalizing c with
  | nil =>
    simp only [run] at h
    injection h with h
    subst h
    exact ⟨rfl, rfl, List.prefix_refl _⟩
  | cons a rest ih =>
    obtain ⟨c1, h1, h2⟩ := run_cons_running h
    obtain ⟨hall1, hd, he, hp⟩ := all_terminated_step hall h1
    obtain ⟨hd', he', hp'⟩ := ih hall1 h2
    exact ⟨hd'.trans hd, he'.trans he, hp.trans hp'⟩

/-- C16. There is an execution in which `Enqueue(7)` runs after the stop flag
has been set and is accepted, and task `7` is never executed: in the state in
which every worker is Terminated (and the destructor has returned) it is still
in the queue, and whatever steps follow, it stays in the queue and is never
dequeued or executed. -/
theorem late_task_stranded :
    ∃ (before : List (Action Nat)) (c0 c1 : Config Nat),
      run (Config.init 2) before = .running c0 ∧ c0.pool.m_stop = true ∧
      step c0 (.enqueue 7) = .running c1 ∧ c1.pool.m_tasks = [7] ∧
      run c1 [.dtorJoin 0, .dtorJoin 1] = .running stranded ∧
      Reachable 2 stranded ∧
      (∀ w ∈ stranded.pool.m_threads, w.state = .terminated) ∧
      stranded.pool.dtorReturned = true ∧
      7 ∈ stranded.pool.m_tasks ∧ 7 ∉ stranded.hist.executed ∧
      ∀ (more : List (Action Nat)) (c' : Config Nat), run stranded more = .running c' →
        7 ∈ c'.pool.m_tasks ∧ 7 ∉ c'.hist.dequeued ∧ 7 ∉ c'.hist.executed := by
  refine ⟨[.enqueue 1, .wake 0, .dtorStop, .wake 1, .taskReturns 0, .wake 0],
    ⟨⟨[⟨.terminated, true⟩, ⟨.terminated, true⟩], [], true⟩, ⟨[1], [], [1], [1]⟩⟩,
    ⟨⟨[⟨.terminated, true⟩, ⟨.terminated, true⟩], [7], true⟩, ⟨[1, 7], [7], [1], [1]⟩⟩,
    rfl, rfl, rfl, rfl, rfl, ⟨strandedActs, rfl⟩, by decide, rfl, by decide, by decide, ?_⟩
  intro more c' hrun
  have hall : ∀ w ∈ stranded.pool.m_threads, w.state = .terminated := by decide
  obtain ⟨hd, he, hp⟩ := all_terminated_run hall hrun
  refine ⟨hp.subset (by decide), ?_, ?_⟩
  · rw [hd]; decide
  · rw [he]; decide

/-! ## Worker steps lower the work left -/

theorem worker_step_decreases {c c' : Config τ} {a : Action τ} (hs : c.pool.m_stop = true)
    (ha : a.isWorkerStep = true) (h : step c a = .running c') :
    c'.pool.workLeft < c.pool.workLeft ∧ c'.pool.m_stop = true ∧
    c'.hist.submitted = c.hist.submitted ∧ c'.hist.lateSubmitted = c.hist.lateSubmitted := by
  cases a with
  | enqueue t => cases ha
  | taskThrows i => cases ha
  | dtorStop => cases ha
  | dtorJoin i => cases ha
  | wake i =>
    obtain ⟨j, hj, ⟨_, hs', _⟩ | ⟨hq, _, rfl⟩ | ⟨t, rest, hq, rfl⟩⟩ := step_wake_inv h
    · rw [hs] at hs'; cases hs'
    · refine ⟨?_, hs, rfl, rfl⟩
      have h1 := countP_set_same hj ⟨.terminated, j⟩ (fun w => w.state.isExecuting) rfl
      have h2 := countP_set_dec hj ⟨.terminated, j⟩ (fun w => !w.state.isTerminated) rfl rfl
      simp only [ThreadPool.workLeft]
      omega
    · refine ⟨?_, hs, rfl, rfl⟩
      have h1 := countP_set_inc hj ⟨.executing t, j⟩ (fun w => w.state.isExecuting) rfl rfl
      have h2 := countP_set_same hj ⟨.executing t, j⟩ (fun w => !w.state.isTerminated) rfl
      simp only [ThreadPool.workLeft, hq, List.length_cons]
      omega
  | taskReturns i =>
    obtain ⟨t, j, hj, rfl⟩ := step_taskReturns_inv h
    refine ⟨?_, hs, rfl, rfl⟩
    have h1 := countP_set_dec hj ⟨.idleWait, j⟩ (fun w => w.state.isExecuting) rfl rfl
    have h2 := countP_set_same hj ⟨.idleWait, j⟩ (fun w => !w.state.isTerminated) rfl
    simp only [ThreadPool.workLeft]
    omega

theorem not_terminated_of_countP {l : List (Worker τ)}
    (h : l.countP (fun w => !w.state.isTerminated) = 0) :
    ∀ w ∈ l, w.state = .terminated := by
  intro w hw
  rw [List.countP_eq_zero] at h
  have := h w hw
  cases hst : w.state with
  | terminated => rfl
  | idleWait => rw [hst] at this; exact absurd rfl this
  | executing t => rw [hst] at this; exact absurd rfl this

end Threads

namespace Threads

variable {τ : Type}

/-! ## A running task, and the destructor's first step -/

theorem getElem?_set_other {α : Type} {l : List α} {i k : Nat} (hne : k ≠ i) (w' : α) :
    (l.set k w')[i]? = l[i]? := by
  simp [List.getElem?_set, hne]

theorem step_taskReturns_executing {c : Config τ} {i : Nat} {t : τ} {j : Bool}
    (h : c.pool.m_threads[i]? = some ⟨.executing t, j⟩) :
    step c (.taskReturns i) = .running
      { pool := { c.pool with m_threads := c.pool.m_threads.set i ⟨.idleWait, j⟩ }
        hist := { c.hist with executed := c.hist.executed ++ [t] } } := by
  simp only [step, h]

/-- C19. For every state with worker `i` Executing task `t`: no step other
than the return of `t` changes that worker's state, so setting the stop flag,
`Enqueue`, and the steps of the other workers and of the destructor all leave
it Executing `t`.  The worker cannot exit or take another task (its wake step
is not enabled), the destructor's join of it does not return, and the return
of `t` puts it in Idle-Wait. -/
theorem executing_until_return (c : Config τ) (i : Nat) (t : τ) (j : Bool)
    (h : c.pool.m_threads[i]? = some ⟨.executing t, j⟩) :
    (∀ a c', step c a = .running c' → a ≠ .taskReturns i →
      c'.pool.m_threads[i]? = some ⟨.executing t, j⟩) ∧
    (∃ c', step c .dtorStop = .running c' ∧
      c'.pool.m_threads[i]? = some ⟨.executing t, j⟩) ∧
    (∀ t', ∃ c', step c (.enqueue t') = .running c' ∧
      c'.pool.m_threads[i]? = some ⟨.executing t, j⟩) ∧
    step c (.wake i) = .notEnabled ∧
    (j = true → step c (.dtorJoin i) = .notEnabled) ∧
    (∃ c', step c (.taskReturns i) = .running c' ∧
      c'.pool.m_threads[i]? = some ⟨.idleWait, j⟩ ∧
      c'.hist.executed = c.hist.executed ++ [t]) := by
  refine ⟨?_, ⟨_, step_dtorStop c, h⟩, fun t' => ⟨_, step_enqueue c t', h⟩, ?_, ?_, ?_⟩
  · intro a c' hstep hne
    cases a with
    | enqueue t' =>
      rw [step_enqueue] at hstep
      injection hstep with hstep
      subst hstep
      exact h
    | wake k =>
      obtain ⟨j', hj', ⟨_, _, rfl⟩ | ⟨_, _, rfl⟩ | ⟨t', rest, _, rfl⟩⟩ := step_wake_inv hstep
      · exact h
      · have hk : k ≠ i := by
          rintro rfl
          rw [h] at hj'
          cases hj'
        show (c.pool.m_threads.set k _)[i]? = _
        rw [getElem?_set_other hk, h]
      · have hk : k ≠ i := by
          rintro rfl
          rw [h] at hj'
          cases hj'
        show (c.pool.m_threads.set k _)[i]? = _
        rw [getElem?_set_other hk, h]
    | taskReturns k =>
      obtain ⟨t', j', _, rfl⟩ := step_taskReturns_inv hstep
      have hk : k ≠ i := by
        rintro rfl
        exact hne rfl
      show (c.pool.m_threads.set k _)[i]? = _
      rw [getElem?_set_other hk, h]
    | taskThrows k => exact absurd hstep (step_taskThrows_ne_running c c' k)
    | dtorStop =>
      rw [step_dtorStop] at hstep
      injection hstep with hstep
      subst hstep
      exact h
    | dtorJoin k =>
      obtain ⟨_, _, w, hw, ⟨_, rfl⟩ | ⟨_, hst, rfl⟩⟩ := step_dtorJoin_inv hstep
      · exact h
      · have hk : k ≠ i := by
          rintro rfl
          rw [h] at hw
          injection hw with hw
          rw [← hw] at hst
          cases hst
        show (c.pool.m_threads.set k _)[i]? = _
        rw [getElem?_set_other hk, h]
  · simp only [step, h]
  · intro hj
    subst hj
    simp only [step, h, joinIfJoinable]
    split <;> rfl
  · exact ⟨_, step_taskReturns_executing h, getElem?_set_of_some h _, rfl⟩

theorem executing_until_return_witness :
    busyWithQueue.pool.m_threads[0]? = some ⟨.executing 1, true⟩ ∧
    step busyWithQueue (.wake 0) = .notEnabled ∧
    step busyWithQueue (.dtorJoin 0) = .notEnabled :=
  ⟨rfl,
    (executing_until_return busyWithQueue 0 1 true rfl).2.2.2.1,
    (executing_until_return busyWithQueue 0 1 true rfl).2.2.2.2.1 rfl⟩

/-- C20. The destructor's flag-setting step changes only the stop flag: for
every pool state, after it `m_stop` is true while the queue (tasks and order)
and every thread are exactly as before; as a step it is always enabled and
leaves the record of the execution untouched, so it discards no queued
task. -/
theorem dtor_sets_only_stop (p : ThreadPool τ) :
    p.dtorSetStop.m_stop = true ∧ p.dtorSetStop.m_tasks = p.m_tasks ∧
    p.dtorSetStop.m_threads = p.m_threads ∧
    p.dtorSetStop = { p with m_stop := true } ∧
    (∀ hist : History τ, step ⟨p, hist⟩ .dtorStop = .running ⟨p.dtorSetStop, hist⟩) :=
  ⟨rfl, rfl, rfl, rfl, fun _ => rfl⟩

end Threads

namespace Threads

variable {τ : Type}

/-! ## The mutex and the critical sections -/

/-- How a step of thread `x` may treat the mutex: take it when it is free and
enter a critical section, give it back on leaving one, or leave it alone and
stay on the same side. -/
theorem lockInv_update {s s' : LockState τ} {x : ThreadId} (hI : s.LockInv)
    (hother : ∀ tid, tid ≠ x → s'.inCritical tid = s.inCritical tid)
    (hm : (s.m_queueMutex = none ∧ s'.m_queueMutex = some x ∧ s'.inCritical x = true) ∨
          (s.inCritical x = true ∧ s'.m_queueMutex = none ∧ s'.inCritical x = false) ∨
          (s'.m_queueMutex = s.m_queueMutex ∧ s'.inCritical x = s.inCritical x)) :
    s'.LockInv := by
  intro tid
  by_cases hx : tid = x
  · subst hx
    rcases hm with ⟨_, h2, h3⟩ | ⟨_, h2, h3⟩ | ⟨h1, h2⟩
    · rw [h2, h3]; simp
    · rw [h2, h3]; simp
    · rw [h1, h2]; exact hI tid
  · rw [hother tid hx]
    rcases hm with ⟨h1, h2, _⟩ | ⟨h1, h2, _⟩ | ⟨h1, _⟩
    · rw [h2, hI tid, h1]
      constructor
      · intro h; cases h
      · intro h; injection h with h; exact absurd h.symm hx
    · rw [h2, hI tid]
      have hown := (hI x).1 h1
      rw [hown]
      constructor
      · intro h; injection h with h; exact absurd h.symm hx
      · intro h; cases h
    · rw [h1]; exact hI tid

theorem inCritical_worker_set {s : LockState τ} {i : Nat} {pc : WorkerPc τ}
    (h : s.workers[i]? = some pc) (pc' : WorkerPc τ) (q : List τ) (st : Bool)
    (m : Option ThreadId) :
    s.inCritical (.worker i) = pc.inCritical ∧
    (LockState.mk q st m (s.workers.set i pc') s.producers s.dtor).inCritical (.worker i)
      = pc'.inCritical ∧
    ∀ tid, tid ≠ .worker i →
      (LockState.mk q st m (s.workers.set i pc') s.producers s.dtor).inCritical tid
        = s.inCritical tid := by
  refine ⟨by simp only [LockState.inCritical, h], ?_, ?_⟩
  · simp only [LockState.inCritical, getElem?_set_of_some h]
  · intro tid hne
    cases tid with
    | worker k =>
      have hk : i ≠ k := fun hik => hne (by rw [hik])
      simp only [LockState.inCritical, getElem?_set_other hk]
    | producer k => simp only [LockState.inCritical]
    | destructor => simp only [LockState.inCritical]

theorem inCritical_producer_set {s : LockState τ} {k : Nat} {pc : EnqueuePc τ}
    (h : s.producers[k]? = some pc) (pc' : EnqueuePc τ) (q : List τ) (st : Bool)
    (m : Option ThreadId) :
    s.inCritical (.producer k) = pc.inCritical ∧
    (LockState.mk q st m s.workers (s.producers.set k pc') s.dtor).inCritical (.producer k)
      = pc'.inCritical ∧
    ∀ tid, tid ≠ .producer k →
      (LockState.mk q st m s.workers (s.producers.set k pc') s.dtor).inCritical tid
        = s.inCritical tid := by
  refine ⟨by simp only [LockState.inCritical, h], ?_, ?_⟩
  · simp only [LockState.inCritical, getElem?_set_of_some h]
  · intro tid hne
    cases tid with
    | worker i => simp only [LockState.inCritical]
    | producer i =>
      have hk : k ≠ i := fun hik => hne (by rw [hik])
      simp only [LockState.inCritical, getElem?_set_other hk]
    | destructor => simp only [LockState.inCritical]

theorem inCritical_dtor_set (s : LockState τ) (pc' : DtorPc) (q : List τ) (st : Bool)
    (m : Option ThreadId) :
    s.inCritical .destructor = s.dtor.inCritical ∧
    (LockState.mk q st m s.workers s.producers pc').inCritical .destructor
      = pc'.inCritical ∧
    ∀ tid, tid ≠ .destructor →
      (LockState.mk q st m s.workers s.producers pc').inCritical tid = s.inCritical tid := by
  refine ⟨rfl, rfl, ?_⟩
  intro tid hne
  cases tid with
  | worker i => simp only [LockState.inCritical]
  | producer i => simp only [LockState.inCritical]
  | destructor => exact absurd rfl hne

theorem lockInv_init (n : Nat) : (LockState.init n : LockState τ).LockInv := by
  intro tid
  cases tid with
  | worker i =>
    simp only [LockState.inCritical, LockState.init]
    cases hi : (List.replicate n (WorkerPc.loopTop : WorkerPc τ))[i]? with
    | none => simp
    | some pc =>
      have := List.eq_of_mem_replicate (mem_of_getElem?_some hi)
      subst this
      simp [WorkerPc.inCritical]
  | producer k => simp [LockState.inCritical, LockState.init]
  | destructor => simp [LockState.inCritical, LockState.init, DtorPc.inCritical]

theorem lockInv_workerStep {s s' : LockState τ} {i : Nat} {pc : WorkerPc τ}
    (hI : s.LockInv) (hpc : s.workers[i]? = some pc) (h : workerStep s i pc = some s') :
    s'.LockInv := by
  cases pc with
  | loopTop =>
    simp only [workerStep] at h
    split at h
    · next hfree =>
      injection h with h
      subst h
      obtain ⟨_, h2, h3⟩ := inCritical_worker_set hpc .waitCheck _ _ _
      exact lockInv_update hI h3 (Or.inl ⟨hfree, rfl, h2⟩)
    · cases h
  | waitBlocked =>
    simp only [workerStep] at h
    split at h
    · next hfree =>
      injection h with h
      subst h
      obtain ⟨_, h2, h3⟩ := inCritical_worker_set hpc .waitCheck _ _ _
      exact lockInv_update hI h3 (Or.inl ⟨hfree, rfl, h2⟩)
    · cases h
  | waitCheck =>
    simp only [workerStep] at h
    split at h
    · injection h with h
      subst h
      obtain ⟨h1, h2, h3⟩ := inCritical_worker_set hpc .exitCheck _ _ _
      exact lockInv_update hI h3 (Or.inr (Or.inr ⟨rfl, by rw [h1, h2]; rfl⟩))
    · injection h with h
      subst h
      obtain ⟨h1, h2, h3⟩ := inCritical_worker_set hpc .waitBlocked _ _ _
      exact lockInv_update hI h3 (Or.inr (Or.inl ⟨by rw [h1]; rfl, rfl, by rw [h2]; rfl⟩))
  | exitCheck =>
    simp only [workerStep] at h
    split at h
    · injection h with h
      subst h
      obtain ⟨h1, h2, h3⟩ := inCritical_worker_set hpc .returned _ _ _
      exact lockInv_update hI h3 (Or.inr (Or.inl ⟨by rw [h1]; rfl, rfl, by rw [h2]; rfl⟩))
    · injection h with h
      subst h
      obtain ⟨h1, h2, h3⟩ := inCritical_worker_set hpc .takeFront _ _ _
      exact lockInv_update hI h3 (Or.inr (Or.inr ⟨rfl, by rw [h1, h2]; rfl⟩))
  | takeFront =>
    simp only [workerStep] at h
    split at h
    · next t rest _ =>
      injection h with h
      subst h
      obtain ⟨h1, h2, h3⟩ := inCritical_worker_set hpc (.scopeEnd t) _ _ _
      exact lockInv_update hI h3 (Or.inr (Or.inr ⟨rfl, by rw [h1, h2]; rfl⟩))
    · cases h
  | scopeEnd t =>
    simp only [workerStep] at h
    injection h with h
    subst h
    obtain ⟨h1, h2, h3⟩ := inCritical_worker_set hpc (.callTask t) _ _ _
    exact lockInv_update hI h3 (Or.inr (Or.inl ⟨by rw [h1]; rfl, rfl, by rw [h2]; rfl⟩))
  | callTask t =>
    simp only [workerStep] at h
    injection h with h
    subst h
    obtain ⟨h1, h2, h3⟩ := inCritical_worker_set hpc .loopTop _ _ _
    exact lockInv_update hI h3 (Or.inr (Or.inr ⟨rfl, by rw [h1, h2]; rfl⟩))
  | returned => simp only [workerStep] at h; cases h

theorem lockInv_producerStep {s s' : LockState τ} {k : Nat} {pc : EnqueuePc τ}
    (hI : s.LockInv) (hpc : s.producers[k]? = some pc) (h : producerStep s k pc = some s') :
    s'.LockInv := by
  cases pc with
  | entry t =>
    simp only [producerStep] at h
    split at h
    · next hfree =>
      injection h with h
      subst h
      obtain ⟨_, h2, h3⟩ := inCritical_producer_set hpc (.emplace t) _ _ _
      exact lockInv_update hI h3 (Or.inl ⟨hfree, rfl, h2⟩)
    · cases h
  | emplace t =>
    simp only [producerStep] at h
    injection h with h
    subst h
    obtain ⟨h1, h2, h3⟩ := inCritical_producer_set hpc .scopeEnd _ _ _
    exact lockInv_update hI h3 (Or.inr (Or.inr ⟨rfl, by rw [h1, h2]; rfl⟩))
  | scopeEnd =>
    simp only [producerStep] at h
    injection h with h
    subst h
    obtain ⟨h1, h2, h3⟩ := inCritical_producer_set hpc .notifyOne _ _ _
    exact lockInv_update hI h3 (Or.inr (Or.inl ⟨by rw [h1]; rfl, rfl, by rw [h2]; rfl⟩))
  | notifyOne =>
    simp only [producerStep] at h
    injection h with h
    subst h
    obtain ⟨h1, h2, h3⟩ := inCritical_producer_set hpc .done _ _ _
    exact lockInv_update hI h3 (Or.inr (Or.inr ⟨rfl, by rw [h1, h2]; rfl⟩))
  | done => simp only [producerStep] at h; cases h

theorem lockInv_dtorStep {s s' : LockState τ} (hI : s.LockInv)
    (h : dtorStep s s.dtor = some s') : s'.LockInv := by
  have hcur : s.inCritical .destructor = s.dtor.inCritical := rfl
  cases hpc : s.dtor with
  | entry =>
    rw [hpc] at h
    simp only [dtorStep] at h
    split at h
    · next hfree =>
      injection h with h
      subst h
      obtain ⟨_, h2, h3⟩ := inCritical_dtor_set s .setStop s.m_tasks s.m_stop (some .destructor)
      exact lockInv_update hI h3 (Or.inl ⟨hfree, rfl, h2⟩)
    · cases h
  | setStop =>
    rw [hpc] at h hcur
    simp only [dtorStep] at h
    injection h with h
    subst h
    obtain ⟨_, h2, h3⟩ := inCritical_dtor_set s .scopeEnd s.m_tasks true s.m_queueMutex
    exact lockInv_update hI h3 (Or.inr (Or.inr ⟨rfl, by rw [hcur, h2]; rfl⟩))
  | scopeEnd =>
    rw [hpc] at h hcur
    simp only [dtorStep] at h
    injection h with h
    subst h
    obtain ⟨_, h2, h3⟩ := inCritical_dtor_set s .notifyAll s.m_tasks s.m_stop none
    exact lockInv_update hI h3 (Or.inr (Or.inl ⟨by rw [hcur]; rfl, rfl, by rw [h2]; rfl⟩))
  | notifyAll =>
    rw [hpc] at h hcur
    simp only [dtorStep] at h
    injection h with h
    subst h
    obtain ⟨_, h2, h3⟩ := inCritical_dtor_set s (.joinLoop 0) s.m_tasks s.m_stop s.m_queueMutex
    exact lockInv_update hI h3 (Or.inr (Or.inr ⟨rfl, by rw [hcur, h2]; rfl⟩))
  | joinLoop i =>
    rw [hpc] at h hcur
    simp only [dtorStep] at h
    split at h
    · injection h with h
      subst h
      obtain ⟨_, h2, h3⟩ :=
        inCritical_dtor_set s (.joinLoop (i + 1)) s.m_tasks s.m_stop s.m_queueMutex
      exact lockInv_update hI h3 (Or.inr (Or.inr ⟨rfl, by rw [hcur, h2]; rfl⟩))
    · cases h
    · injection h with h
      subst h
      obtain ⟨_, h2, h3⟩ := inCritical_dtor_set s .done s.m_tasks s.m_stop s.m_queueMutex
      exact lockInv_update hI h3 (Or.inr (Or.inr ⟨rfl, by rw [hcur, h2]; rfl⟩))
  | done =>
    rw [hpc] at h
    simp only [dtorStep] at h
    cases h

theorem lockInv_step {s s' : LockState τ} {a : LockAction τ} (hI : s.LockInv)
    (h : lockStep s a = some s') : s'.LockInv := by
  cases a with
  | worker i =>
    simp only [lockStep] at h
    split at h
    · next pc hpc => exact lockInv_workerStep hI hpc h
    · cases h
  | workerThrows i => simp only [lockStep] at h; cases h
  | callEnqueue t =>
    simp only [lockStep] at h
    injection h with h
    subst h
    intro tid
    rw [← hI tid]
    cases tid with
    | worker i => rfl
    | destructor => rfl
    | producer k =>
      simp only [LockState.inCritical]
      rcases Nat.lt_trichotomy k s.producers.length with hk | hk | hk
      · rw [List.getElem?_append_left hk]
      · subst hk
        simp [EnqueuePc.inCritical]
      · rw [List.getElem?_eq_none (by simp; omega), List.getElem?_eq_none (by omega)]
  | producer k =>
    simp only [lockStep] at h
    split at h
    · next pc hpc => exact lockInv_producerStep hI hpc h
    · cases h
  | destructor =>
    simp only [lockStep] at h
    exact lockInv_dtorStep hI h

theorem lockInv_run {acts : List (LockAction τ)} {s s' : LockState τ} (hI : s.LockInv)
    (h : lockRun s acts = some s') : s'.LockInv := by
  induction acts generalizing s with
  | nil =>
    simp only [lockRun] at h
    injection h with h
    subst h
    exact hI
  | cons a rest ih =>
    simp only [lockRun] at h
    split at h
    · next s1 h1 => exact ih (lockInv_step hI h1) h
    · cases h

theorem lockInv_reachable {n : Nat} {s : LockState τ} (h : LockReachable n s) :
    s.LockInv := by
  obtain ⟨acts, h⟩ := h
  exact lockInv_run (lockInv_init n) h

end Threads

namespace Threads

variable {τ : Type}

theorem lockStep_worker_at {s : LockState τ} {i : Nat} {pc : WorkerPc τ}
    (h : s.workers[i]? = some pc) : lockStep s (.worker i) = workerStep s i pc := by
  simp only [lockStep, h]

theorem lockStep_producer_at {s : LockState τ} {k : Nat} {pc : EnqueuePc τ}
    (h : s.producers[k]? = some pc) : lockStep s (.producer k) = producerStep s k pc := by
  simp only [lockStep, h]

theorem lockStep_worker_acquire {s : LockState τ} {k : Nat}
    (h : s.workers[k]? = some .loopTop ∨ s.workers[k]? = some .waitBlocked)
    (hfree : s.m_queueMutex = none) :
    lockStep s (.worker k) =
      some { s with m_queueMutex := some (.worker k), workers := s.workers.set k .waitCheck } := by
  rcases h with h | h
  · rw [lockStep_worker_at h]; simp only [workerStep, hfree, if_true]
  · rw [lockStep_worker_at h]; simp only [workerStep, hfree, if_true]

theorem lockStep_producer_acquire {s : LockState τ} {k : Nat} {t : τ}
    (h : s.producers[k]? = some (.entry t)) (hfree : s.m_queueMutex = none) :
    lockStep s (.producer k) =
      some { s with m_queueMutex := some (.producer k),
                    producers := s.producers.set k (.emplace t) } := by
  rw [lockStep_producer_at h]; simp only [producerStep, hfree, if_true]

theorem lockStep_worker_scopeEnd {s : LockState τ} {k : Nat} {t : τ}
    (h : s.workers[k]? = some (.scopeEnd t)) :
    lockStep s (.worker k) =
      some { s with m_queueMutex := none, workers := s.workers.set k (.callTask t) } := by
  rw [lockStep_worker_at h]; simp only [workerStep]

/-- C18. In every reachable state a worker that is Executing (inside `task()`,
line 54; its control state in the pool is then Executing `t`) does not own
`m_queueMutex`: whoever owns it is another thread, inside its own critical
section.  The mutex is given back at the end of the
scope of `lock` (line 52), in the step that takes the worker to `task()`.
So an Executing worker keeps nobody out: when no other thread is inside a
critical section the mutex is free, a call of `Enqueue` at its entry and any
other worker at the top of its loop or blocked in `wait` take it with their
next statement, and in terms of whole critical sections `Enqueue` and the
dequeue step of every idle worker are enabled while worker `i` is
Executing. -/
theorem executing_without_lock (n : Nat) (s : LockState τ) (hs : LockReachable n s)
    (i : Nat) (t : τ) (hi : s.workers[i]? = some (.callTask t)) :
    s.toPool.m_threads[i]? = some ⟨.executing t, !s.dtor.joined i⟩ ∧
    s.m_queueMutex ≠ some (.worker i) ∧
    (∀ x, s.m_queueMutex = some x → x ≠ .worker i ∧ s.inCritical x = true) ∧
    ((∀ x, x ≠ .worker i → s.inCritical x = false) → s.m_queueMutex = none) ∧
    (s.m_queueMutex = none →
      (∀ k t', s.producers[k]? = some (.entry t') →
        ∃ s', lockStep s (.producer k) = some s' ∧ s'.m_queueMutex = some (.producer k) ∧
          s'.workers[i]? = some (.callTask t)) ∧
      (∀ k, s.workers[k]? = some .loopTop ∨ s.workers[k]? = some .waitBlocked →
        ∃ s', lockStep s (.worker k) = some s' ∧ s'.m_queueMutex = some (.worker k) ∧
          s'.workers[i]? = some (.callTask t))) ∧
    (∀ (s0 : LockState τ) (k : Nat) (u : τ), s0.workers[k]? = some (.scopeEnd u) →
      ∃ s1, lockStep s0 (.worker k) = some s1 ∧ s1.m_queueMutex = none ∧
        s1.workers[k]? = some (.callTask u)) ∧
    (∀ (c : Config τ) (j : Bool), c.pool.m_threads[i]? = some ⟨.executing t, j⟩ →
      (∀ t', ∃ c', step c (.enqueue t') = .running c' ∧
        c'.pool.m_tasks = c.pool.m_tasks ++ [t']) ∧
      (∀ k j', c.pool.m_threads[k]? = some ⟨.idleWait, j'⟩ →
        ∃ c', step c (.wake k) = .running c' ∧
          ∀ u rest, c.pool.m_tasks = u :: rest →
            c'.pool.m_threads[k]? = some ⟨.executing u, j'⟩ ∧ c'.pool.m_tasks = rest)) := by
  have hI := lockInv_reachable hs
  have hnot : s.inCritical (.worker i) = false := by
    simp only [LockState.inCritical, hi, WorkerPc.inCritical]
  have hown : s.m_queueMutex ≠ some (.worker i) := by
    intro h
    rw [(hI _).2 h] at hnot
    cases hnot
  refine ⟨?_, hown, ?_, ?_, ?_, ?_, ?_⟩
  · simp only [LockState.toPool, List.getElem?_mapIdx, hi]
    rfl
  · intro x hx
    refine ⟨?_, (hI x).2 hx⟩
    rintro rfl
    exact hown hx
  · intro hall
    cases hm : s.m_queueMutex with
    | none => rfl
    | some x =>
      have hx := (hI x).2 hm
      have hxi : x ≠ .worker i := by
        rintro rfl
        exact hown hm
      rw [hall x hxi] at hx
      cases hx
  · intro hfree
    constructor
    · intro k t' hk
      exact ⟨_, lockStep_producer_acquire hk hfree, rfl, hi⟩
    · intro k hk
      have hki : k ≠ i := by
        rintro rfl
        rw [hi] at hk
        rcases hk with hk | hk <;> cases hk
      refine ⟨_, lockStep_worker_acquire hk hfree, rfl, ?_⟩
      show (s.workers.set k .waitCheck)[i]? = _
      rw [getElem?_set_other hki, hi]
  · intro s0 k u hk
    exact ⟨_, lockStep_worker_scopeEnd hk, rfl, getElem?_set_of_some hk _⟩
  · intro c j _
    refine ⟨fun t' => ⟨_, step_enqueue c t', rfl⟩, ?_⟩
    intro k j' hk
    obtain ⟨c', hstep, hcases⟩ := step_wake_cases hk
    refine ⟨c', hstep, ?_⟩
    intro u rest hq
    rcases hcases with ⟨hq', _, _⟩ | ⟨hq', _, _⟩ | ⟨u', rest', hq', rfl⟩
    · rw [hq] at hq'; cases hq'
    · rw [hq] at hq'; cases hq'
    · rw [hq] at hq'
      injection hq' with h1 h2
      subst h1 h2
      exact ⟨getElem?_set_of_some hk _, rfl⟩

theorem executing_without_lock_witness :
    LockReachable 2 lockDemo ∧ lockDemo.workers[0]? = some (.callTask 7) ∧
    lockDemo.m_queueMutex ≠ some (.worker 0) :=
  ⟨⟨lockDemoActs, rfl⟩, rfl,
    (executing_without_lock 2 lockDemo ⟨lockDemoActs, rfl⟩ 0 7 rfl).2.1⟩

end Threads

namespace Threads

variable {τ : Type}

/-! ## What the mutex protects -/

theorem lockInv_exclusive {s : LockState τ} (hI : s.LockInv) {x y : ThreadId}
    (hx : s.inCritical x = true) (hy : s.inCritical y = true) : x = y := by
  have h1 := (hI x).1 hx
  have h2 := (hI y).1 hy
  rw [h1] at h2
  injection h2

/-- What one statement of a worker does to the state, read off `workerStep`. -/
theorem workerStep_spec {s s' : LockState τ} {k : Nat} {pc : WorkerPc τ}
    (h : workerStep s k pc = some s') :
    ∃ pc', s'.workers = s.workers.set k pc' ∧ s'.producers = s.producers ∧
      s'.dtor = s.dtor ∧ s'.m_stop = s.m_stop ∧
      (s'.m_tasks = s.m_tasks ∨
        (pc = .takeFront ∧ ∃ t, s.m_tasks = t :: s'.m_tasks ∧ pc' = .scopeEnd t)) ∧
      (pc' = .exitCheck → s.m_tasks ≠ [] ∨ s.m_stop = true) ∧
      (pc' = .takeFront → pc = .exitCheck ∧ ¬ (s.m_stop = true ∧ s.m_tasks = [])) := by
  cases pc with
  | loopTop =>
    simp only [workerStep] at h
    split at h
    · injection h with h
      subst h
      exact ⟨.waitCheck, rfl, rfl, rfl, rfl, Or.inl rfl, nofun, nofun⟩
    · cases h
  | waitBlocked =>
    simp only [workerStep] at h
    split at h
    · injection h with h
      subst h
      exact ⟨.waitCheck, rfl, rfl, rfl, rfl, Or.inl rfl, nofun, nofun⟩
    · cases h
  | waitCheck =>
    simp only [workerStep] at h
    split at h
    · next hp =>
      injection h with h
      subst h
      refine ⟨.exitCheck, rfl, rfl, rfl, rfl, Or.inl rfl, fun _ => ?_, nofun⟩
      cases hq : s.m_tasks with
      | nil =>
        right
        simpa [hq] using hp
      | cons t rest => left; simp
    · injection h with h
      subst h
      exact ⟨.waitBlocked, rfl, rfl, rfl, rfl, Or.inl rfl, nofun, nofun⟩
  | exitCheck =>
    simp only [workerStep] at h
    split at h
    · injection h with h
      subst h
      exact ⟨.returned, rfl, rfl, rfl, rfl, Or.inl rfl, nofun, nofun⟩
    · next hp =>
      injection h with h
      subst h
      refine ⟨.takeFront, rfl, rfl, rfl, rfl, Or.inl rfl, nofun, fun _ => ⟨rfl, ?_⟩⟩
      rintro ⟨h1, h2⟩
      apply hp
      simp [h1, h2]
  | takeFront =>
    simp only [workerStep] at h
    split at h
    · next t rest hq =>
      injection h with h
      subst h
      exact ⟨.scopeEnd t, rfl, rfl, rfl, rfl, Or.inr ⟨rfl, t, hq, rfl⟩, nofun, nofun⟩
    · cases h
  | scopeEnd t =>
    simp only [workerStep] at h
    injection h with h
    subst h
    exact ⟨.callTask t, rfl, rfl, rfl, rfl, Or.inl rfl, nofun, nofun⟩
  | callTask t =>
    simp only [workerStep] at h
    injection h with h
    subst h
    exact ⟨.loopTop, rfl, rfl, rfl, rfl, Or.inl rfl, nofun, nofun⟩
  | returned => simp only [workerStep] at h; cases h

theorem guarded_workerStep {s s' : LockState τ} {k : Nat} {pc : WorkerPc τ}
    (hI : s.LockInv) (hG : s.Guarded) (hpc : s.workers[k]? = some pc)
    (h : workerStep s k pc = some s') : s'.Guarded := by
  obtain ⟨pc', hw, _, hd, hst, hq, hexit, htake⟩ := workerStep_spec h
  -- another worker inside its critical section rules out a `pop` by worker `k`
  have hsame : ∀ i : Nat, i ≠ k → (∃ p, s.workers[i]? = some p ∧ p.inCritical = true) →
      s'.m_tasks = s.m_tasks := by
    intro i hik ⟨p, hp, hpc'⟩
    rcases hq with hq | ⟨hpcT, _⟩
    · exact hq
    · subst hpcT
      have h1 : s.inCritical (.worker k) = true := by
        simp only [LockState.inCritical, hpc, WorkerPc.inCritical]
      have h2 : s.inCritical (.worker i) = true := by
        simp only [LockState.inCritical, hp, hpc']
      have := lockInv_exclusive hI h1 h2
      injection this with this
      exact absurd this.symm hik
  -- a worker that arrives at one of the two tests did not `pop`
  have hown : pc' = .exitCheck ∨ pc' = .takeFront → s'.m_tasks = s.m_tasks := by
    intro hpc'
    rcases hq with hq | ⟨_, t, _, hsc⟩
    · exact hq
    · rw [hsc] at hpc'
      rcases hpc' with h1 | h1 <;> cases h1
  refine ⟨?_, ?_, ?_⟩
  · intro i hi
    rw [hw] at hi
    by_cases hik : i = k
    · subst hik
      rw [getElem?_set_of_some hpc] at hi
      injection hi with hi
      rw [hown (Or.inl hi), hst]
      exact hexit hi
    · rw [getElem?_set_other (fun h => hik h.symm)] at hi
      rw [hsame i hik ⟨_, hi, rfl⟩, hst]
      exact hG.atExitCheck i hi
  · intro i hi
    rw [hw] at hi
    by_cases hik : i = k
    · subst hik
      rw [getElem?_set_of_some hpc] at hi
      injection hi with hi
      obtain ⟨hpcE, hne⟩ := htake hi
      subst hpcE
      rw [hown (Or.inr hi)]
      rcases hG.atExitCheck i hpc with h1 | h1
      · exact h1
      · intro h2
        exact hne ⟨h1, h2⟩
    · rw [getElem?_set_other (fun h => hik h.symm)] at hi
      rw [hsame i hik ⟨_, hi, rfl⟩]
      exact hG.atTakeFront i hi
  · intro hp
    rw [hd] at hp
    rw [hst]
    exact hG.stopSet hp

theorem producerStep_spec {s s' : LockState τ} {k : Nat} {pc : EnqueuePc τ}
    (h : producerStep s k pc = some s') :
    s'.workers = s.workers ∧ s'.dtor = s.dtor ∧ s'.m_stop = s.m_stop ∧
    (s'.m_tasks = s.m_tasks ∨ ∃ t, pc = .emplace t ∧ s'.m_tasks = s.m_tasks ++ [t]) := by
  cases pc with
  | entry t =>
    simp only [producerStep] at h
    split at h
    · injection h with h
      subst h
      exact ⟨rfl, rfl, rfl, Or.inl rfl⟩
    · cases h
  | emplace t =>
    simp only [producerStep] at h
    injection h with h
    subst h
    exact ⟨rfl, rfl, rfl, Or.inr ⟨t, rfl, rfl⟩⟩
  | scopeEnd =>
    simp only [producerStep] at h
    injection h with h
    subst h
    exact ⟨rfl, rfl, rfl, Or.inl rfl⟩
  | notifyOne =>
    simp only [producerStep] at h
    injection h with h
    subst h
    exact ⟨rfl, rfl, rfl, Or.inl rfl⟩
  | done => simp only [producerStep] at h; cases h

theorem dtorStep_spec {s s' : LockState τ} (h : dtorStep s s.dtor = some s') :
    s'.workers = s.workers ∧ s'.producers = s.producers ∧ s'.m_tasks = s.m_tasks ∧
    ((s'.m_stop = s.m_stop ∧ (s'.dtor.pastSetStop = true → s.dtor.pastSetStop = true)) ∨
      (s.dtor = .setStop ∧ s'.m_stop = true)) := by
  cases hpc : s.dtor with
  | entry =>
    rw [hpc] at h
    simp only [dtorStep] at h
    split at h
    · injection h with h
      subst h
      exact ⟨rfl, rfl, rfl, Or.inl ⟨rfl, nofun⟩⟩
    · cases h
  | setStop =>
    rw [hpc] at h
    simp only [dtorStep] at h
    injection h with h
    subst h
    exact ⟨rfl, rfl, rfl, Or.inr ⟨rfl, rfl⟩⟩
  | scopeEnd =>
    rw [hpc] at h
    simp only [dtorStep] at h
    injection h with h
    subst h
    exact ⟨rfl, rfl, rfl, Or.inl ⟨rfl, fun _ => rfl⟩⟩
  | notifyAll =>
    rw [hpc] at h
    simp only [dtorStep] at h
    injection h with h
    subst h
    exact ⟨rfl, rfl, rfl, Or.inl ⟨rfl, fun _ => rfl⟩⟩
  | joinLoop i =>
    rw [hpc] at h
    simp only [dtorStep] at h
    split at h
    · injection h with h
      subst h
      exact ⟨rfl, rfl, rfl, Or.inl ⟨rfl, fun _ => rfl⟩⟩
    · cases h
    · injection h with h
      subst h
      exact ⟨rfl, rfl, rfl, Or.inl ⟨rfl, fun _ => rfl⟩⟩
  | done =>
    rw [hpc] at h
    simp only [dtorStep] at h
    cases h

theorem guarded_init (n : Nat) : (LockState.init n : LockState τ).Guarded := by
  refine ⟨?_, ?_, nofun⟩
  · intro i hi
    have := List.eq_of_mem_replicate (mem_of_getElem?_some hi)
    cases this
  · intro i hi
    have := List.eq_of_mem_replicate (mem_of_getElem?_some hi)
    cases this

theorem guarded_step {s s' : LockState τ} {a : LockAction τ} (hI : s.LockInv)
    (hG : s.Guarded) (h : lockStep s a = some s') : s'.Guarded := by
  cases a with
  | worker i =>
    simp only [lockStep] at h
    split at h
    · next pc hpc => exact guarded_workerStep hI hG hpc h
    · cases h
  | workerThrows i => simp only [lockStep] at h; cases h
  | callEnqueue t =>
    simp only [lockStep] at h
    injection h with h
    subst h
    exact ⟨hG.atExitCheck, hG.atTakeFront, hG.stopSet⟩
  | producer k =>
    simp only [lockStep] at h
    split at h
    · next pc hpc =>
      obtain ⟨hw, hd, hst, hq⟩ := producerStep_spec h
      have hne : s.m_tasks ≠ [] → s'.m_tasks ≠ [] := by
        intro hne
        rcases hq with hq | ⟨t, _, hq⟩
        · rw [hq]; exact hne
        · rw [hq]; simp
      refine ⟨?_, ?_, ?_⟩
      · intro i hi
        rw [hw] at hi
        rw [hst]
        rcases hG.atExitCheck i hi with h1 | h1
        · exact Or.inl (hne h1)
        · exact Or.inr h1
      · intro i hi
        rw [hw] at hi
        exact hne (hG.atTakeFront i hi)
      · intro hp
        rw [hd] at hp
        rw [hst]
        exact hG.stopSet hp
    · cases h
  | destructor =>
    simp only [lockStep] at h
    obtain ⟨hw, _, hq, hst⟩ := dtorStep_spec h
    refine ⟨?_, ?_, ?_⟩
    · intro i hi
      rw [hw] at hi
      rw [hq]
      rcases hG.atExitCheck i hi with h1 | h1
      · exact Or.inl h1
      · right
        rcases hst with ⟨h2, _⟩ | ⟨_, h2⟩
        · rw [h2]; exact h1
        · exact h2
    · intro i hi
      rw [hw] at hi
      rw [hq]
      exact hG.atTakeFront i hi
    · intro hp
      rcases hst with ⟨h2, h3⟩ | ⟨_, h2⟩
      · rw [h2]; exact hG.stopSet (h3 hp)
      · exact h2

theorem guarded_run {acts : List (LockAction τ)} {s s' : LockState τ} (hI : s.LockInv)
    (hG : s.Guarded) (h : lockRun s acts = some s') : s'.Guarded := by
  induction acts generalizing s with
  | nil =>
    simp only [lockRun] at h
    injection h with h
    subst h
    exact hG
  | cons a rest ih =>
    simp only [lockRun] at h
    split at h
    · next s1 h1 => exact ih (lockInv_step hI h1) (guarded_step hI hG h1) h
    · cases h

theorem guarded_reachable {n : Nat} {s : LockState τ} (h : LockReachable n s) :
    s.Guarded := by
  obtain ⟨acts, h⟩ := h
  exact guarded_run (lockInv_init n) (guarded_init n) h

/-- In a reachable state a worker inside its critical section is never stuck:
its next statement can be executed; in particular `front()` is never called
on an empty queue. -/
theorem worker_in_critical_moves {n : Nat} {s : LockState τ} (hs : LockReachable n s)
    {i : Nat} {pc : WorkerPc τ} (hpc : s.workers[i]? = some pc)
    (hc : pc.inCritical = true) : ∃ s', lockStep s (.worker i) = some s' := by
  rw [lockStep_worker_at hpc]
  cases pc with
  | loopTop => cases hc
  | waitBlocked => cases hc
  | callTask t => cases hc
  | returned => cases hc
  | waitCheck =>
    simp only [workerStep]
    split <;> exact ⟨_, rfl⟩
  | exitCheck =>
    simp only [workerStep]
    split <;> exact ⟨_, rfl⟩
  | scopeEnd t => exact ⟨_, rfl⟩
  | takeFront =>
    have hne := (guarded_reachable hs).atTakeFront i hpc
    cases hq : s.m_tasks with
    | nil => exact absurd hq hne
    | cons t rest =>
      simp only [workerStep, hq]
      exact ⟨_, rfl⟩

end Threads

namespace Threads

variable {τ : Type}

/-! ## Statement by statement, the program follows the step relation -/

theorem toPool_getElem? (s : LockState τ) (i : Nat) :
    s.toPool.m_threads[i]? =
      (s.workers[i]?).map (fun pc => ⟨pc.toState, !s.dtor.joined i⟩) := by
  simp only [LockState.toPool, List.getElem?_mapIdx]

theorem run_single {c c' : Config τ} {a : Action τ} (h : step c a = .running c') :
    run c [a] = .running c' := by
  simp only [run, h]

/-- A worker statement that stays within one control state is invisible in
the pool state. -/
theorem toPool_worker_stutter {s : LockState τ} {k : Nat} {pc : WorkerPc τ}
    (hpc : s.workers[k]? = some pc) (pc' : WorkerPc τ) (m : Option ThreadId)
    (hsame : pc'.toState = pc.toState) :
    (LockState.mk s.m_tasks s.m_stop m (s.workers.set k pc') s.producers s.dtor).toPool
      = s.toPool := by
  simp only [LockState.toPool, List.mapIdx_set, hsame]
  have : s.toPool.m_threads[k]? = some ⟨pc.toState, !s.dtor.joined k⟩ := by
    rw [toPool_getElem?, hpc]; rfl
  have h2 := set_same this
  simp only [LockState.toPool] at h2
  rw [h2]

theorem toPool_worker_set {s : LockState τ} (k : Nat) (pc' : WorkerPc τ) (q : List τ)
    (m : Option ThreadId) :
    (LockState.mk q s.m_stop m (s.workers.set k pc') s.producers s.dtor).toPool
      = { m_threads := s.toPool.m_threads.set k ⟨pc'.toState, !s.dtor.joined k⟩
          m_tasks := q, m_stop := s.m_stop } := by
  simp only [LockState.toPool, List.mapIdx_set]

theorem workerStep_refines {s s' : LockState τ} {k : Nat} {pc : WorkerPc τ}
    (hpc : s.workers[k]? = some pc) (h : workerStep s k pc = some s') (hist : History τ) :
    ∃ (acts : List (Action τ)) (c' : Config τ), acts.length ≤ 1 ∧
      run ⟨s.toPool, hist⟩ acts = .running c' ∧ c'.pool = s'.toPool := by
  have hth : s.toPool.m_threads[k]? = some ⟨pc.toState, !s.dtor.joined k⟩ := by
    rw [toPool_getElem?, hpc]; rfl
  cases pc with
  | loopTop =>
    simp only [workerStep] at h
    split at h
    · injection h with h
      subst h
      exact ⟨[], _, by simp, rfl, (toPool_worker_stutter hpc .waitCheck _ rfl).symm⟩
    · cases h
  | waitBlocked =>
    simp only [workerStep] at h
    split at h
    · injection h with h
      subst h
      exact ⟨[], _, by simp, rfl, (toPool_worker_stutter hpc .waitCheck _ rfl).symm⟩
    · cases h
  | waitCheck =>
    simp only [workerStep] at h
    split at h
    · injection h with h
      subst h
      exact ⟨[], _, by simp, rfl, (toPool_worker_stutter hpc .exitCheck _ rfl).symm⟩
    · injection h with h
      subst h
      exact ⟨[], _, by simp, rfl, (toPool_worker_stutter hpc .waitBlocked _ rfl).symm⟩
  | scopeEnd t =>
    simp only [workerStep] at h
    injection h with h
    subst h
    exact ⟨[], _, by simp, rfl, (toPool_worker_stutter hpc (.callTask t) _ rfl).symm⟩
  | returned => simp only [workerStep] at h; cases h
  | callTask t =>
    simp only [workerStep] at h
    injection h with h
    subst h
    refine ⟨[.taskReturns k], _, by simp,
      run_single (step_taskReturns_executing (c := ⟨s.toPool, hist⟩) hth), ?_⟩
    rw [toPool_worker_set]
    rfl
  | exitCheck =>
    simp only [workerStep] at h
    split at h
    · next hcond =>
      injection h with h
      subst h
      simp only [Bool.and_eq_true, List.isEmpty_iff] at hcond
      obtain ⟨c', hstep, hcases⟩ := step_wake_cases (c := ⟨s.toPool, hist⟩) hth
      rcases hcases with ⟨_, hs', _⟩ | ⟨_, _, rfl⟩ | ⟨t, rest, hq, _⟩
      · have : s.m_stop = false := hs'
        rw [hcond.1] at this; cases this
      · refine ⟨[.wake k], _, by simp, run_single hstep, ?_⟩
        rw [toPool_worker_set]
        rfl
      · have : s.m_tasks = t :: rest := hq
        rw [hcond.2] at this; cases this
    · injection h with h
      subst h
      exact ⟨[], _, by simp, rfl, (toPool_worker_stutter hpc .takeFront _ rfl).symm⟩
  | takeFront =>
    simp only [workerStep] at h
    split at h
    · next t rest hq =>
      injection h with h
      subst h
      obtain ⟨c', hstep, hcases⟩ := step_wake_cases (c := ⟨s.toPool, hist⟩) hth
      rcases hcases with ⟨hq', _, _⟩ | ⟨hq', _, _⟩ | ⟨t', rest', hq', rfl⟩
      · have : s.m_tasks = [] := hq'
        rw [hq] at this; cases this
      · have : s.m_tasks = [] := hq'
        rw [hq] at this; cases this
      · have : s.m_tasks = t' :: rest' := hq'
        rw [hq] at this
        injection this with h1 h2
        subst h1 h2
        refine ⟨[.wake k], _, by simp, run_single hstep, ?_⟩
        rw [toPool_worker_set]
        rfl
    · cases h

theorem producerStep_refines {s s' : LockState τ} {k : Nat} {pc : EnqueuePc τ}
    (h : producerStep s k pc = some s') (hist : History τ) :
    ∃ (acts : List (Action τ)) (c' : Config τ), acts.length ≤ 1 ∧
      run ⟨s.toPool, hist⟩ acts = .running c' ∧ c'.pool = s'.toPool := by
  cases pc with
  | entry t =>
    simp only [producerStep] at h
    split at h
    · injection h with h
      subst h
      exact ⟨[], _, by simp, rfl, rfl⟩
    · cases h
  | emplace t =>
    simp only [producerStep] at h
    injection h with h
    subst h
    exact ⟨[.enqueue t], _, by simp, run_single (step_enqueue _ t), rfl⟩
  | scopeEnd =>
    simp only [producerStep] at h
    injection h with h
    subst h
    exact ⟨[], _, by simp, rfl, rfl⟩
  | notifyOne =>
    simp only [producerStep] at h
    injection h with h
    subst h
    exact ⟨[], _, by simp, rfl, rfl⟩
  | done => simp only [producerStep] at h; cases h

/-- The pool state depends on the destructor's program point only through the
threads it has joined. -/
theorem toPool_dtor_congr (s : LockState τ) (pc' : DtorPc) (m : Option ThreadId)
    (h : ∀ i : Nat, i < s.workers.length → pc'.joined i = s.dtor.joined i) :
    (LockState.mk s.m_tasks s.m_stop m s.workers s.producers pc').toPool = s.toPool := by
  have : (LockState.mk s.m_tasks s.m_stop m s.workers s.producers pc').toPool.m_threads
      = s.toPool.m_threads := by
    apply List.ext_getElem?
    intro i
    rw [toPool_getElem?, toPool_getElem?]
    rcases Nat.lt_or_ge i s.workers.length with hi | hi
    · show Option.map (fun pc => Worker.mk pc.toState (!pc'.joined i)) s.workers[i]? = _
      rw [h i hi]
    · show Option.map (fun pc => Worker.mk pc.toState (!pc'.joined i)) s.workers[i]? = _
      rw [List.getElem?_eq_none hi]
      rfl
  simp only [LockState.toPool] at this ⊢
  rw [this]

theorem dtorStep_refines {s s' : LockState τ} (hG : s.Guarded)
    (h : dtorStep s s.dtor = some s') (hist : History τ) :
    ∃ (acts : List (Action τ)) (c' : Config τ), acts.length ≤ 1 ∧
      run ⟨s.toPool, hist⟩ acts = .running c' ∧ c'.pool = s'.toPool := by
  cases hpc : s.dtor with
  | entry =>
    rw [hpc] at h
    simp only [dtorStep] at h
    split at h
    · injection h with h
      subst h
      refine ⟨[], _, by simp, rfl, (toPool_dtor_congr s .setStop _ ?_).symm⟩
      intro i _
      rw [hpc]
      rfl
    · cases h
  | setStop =>
    rw [hpc] at h
    simp only [dtorStep] at h
    injection h with h
    subst h
    refine ⟨[.dtorStop], _, by simp, run_single (step_dtorStop _), ?_⟩
    simp only [LockState.toPool, ThreadPool.dtorSetStop, hpc]
    rfl
  | scopeEnd =>
    rw [hpc] at h
    simp only [dtorStep] at h
    injection h with h
    subst h
    refine ⟨[], _, by simp, rfl, (toPool_dtor_congr s .notifyAll _ ?_).symm⟩
    intro i _
    rw [hpc]
    rfl
  | notifyAll =>
    rw [hpc] at h
    simp only [dtorStep] at h
    injection h with h
    subst h
    refine ⟨[], _, by simp, rfl, (toPool_dtor_congr s (.joinLoop 0) _ ?_).symm⟩
    intro i _
    rw [hpc]
    simp [DtorPc.joined]
  | done =>
    rw [hpc] at h
    simp only [dtorStep] at h
    cases h
  | joinLoop i =>
    have hstop : s.m_stop = true := hG.stopSet (by rw [hpc]; rfl)
    rw [hpc] at h
    simp only [dtorStep] at h
    split at h
    · next hw =>
      -- `join()` returns for thread `i`
      injection h with h
      subst h
      have hth : s.toPool.m_threads[i]? = some ⟨.terminated, true⟩ := by
        rw [toPool_getElem?, hw, hpc]
        simp [WorkerPc.toState, DtorPc.joined]
      have hbefore : (s.toPool.m_stop &&
          (s.toPool.m_threads.take i).all (fun w => !w.joinable)) = true := by
        have h1 : s.toPool.m_stop = true := hstop
        rw [h1, Bool.true_and, List.all_eq_true]
        intro w hw'
        obtain ⟨k, hk⟩ := List.mem_iff_getElem?.1 hw'
        rw [List.getElem?_take] at hk
        split at hk
        · next hki =>
          rw [toPool_getElem?, hpc] at hk
          cases hwk : s.workers[k]? with
          | none => rw [hwk] at hk; cases hk
          | some pc =>
            rw [hwk] at hk
            injection hk with hk
            rw [← hk]
            simp [DtorPc.joined, hki]
        · cases hk
      have hstep : step ⟨s.toPool, hist⟩ (.dtorJoin i) = .running
          { pool := { s.toPool with m_threads := s.toPool.m_threads.set i ⟨.terminated, false⟩ }
            hist := hist } := by
        simp only [step, hbefore, hth, joinIfJoinable, if_true]
      refine ⟨[.dtorJoin i], _, by simp, run_single hstep, ?_⟩
      show ThreadPool.mk _ _ _ = ThreadPool.mk _ _ _
      congr 1
      apply List.ext_getElem?
      intro k
      have hlen : i < s.toPool.m_threads.length := by
        rcases Nat.lt_or_ge i s.toPool.m_threads.length with h1 | h1
        · exact h1
        · rw [List.getElem?_eq_none h1] at hth; cases hth
      rw [List.getElem?_mapIdx]
      by_cases hki : i = k
      · subst hki
        rw [List.getElem?_set_self hlen, hw]
        simp [WorkerPc.toState, DtorPc.joined]
      · rw [getElem?_set_other hki, toPool_getElem?, hpc]
        have : decide (k < i + 1) = decide (k < i) := by
          have : k < i + 1 ↔ k < i := by omega
          simp [this]
        simp only [DtorPc.joined, this]
    · cases h
    · next hw =>
      -- the loop is past the last thread
      injection h with h
      subst h
      refine ⟨[], _, by simp, rfl, (toPool_dtor_congr s .done _ ?_).symm⟩
      intro k hk
      have hik : s.workers.length ≤ i := by
        rcases Nat.lt_or_ge i s.workers.length with h1 | h1
        · rw [List.getElem?_eq_getElem h1] at hw; cases hw
        · exact h1
      rw [hpc]
      have : k < i := by omega
      simp [DtorPc.joined, this]

/-- Every statement of the program is either invisible in the pool state or
is one step of the step relation, on the pool state the statement-level state
stands for. -/
theorem lockStep_refines {s s' : LockState τ} {a : LockAction τ} (hG : s.Guarded)
    (h : lockStep s a = some s') (hist : History τ) :
    ∃ (acts : List (Action τ)) (c' : Config τ), acts.length ≤ 1 ∧
      run ⟨s.toPool, hist⟩ acts = .running c' ∧ c'.pool = s'.toPool := by
  cases a with
  | worker i =>
    simp only [lockStep] at h
    split at h
    · next pc hpc => exact workerStep_refines hpc h hist
    · cases h
  | workerThrows i => simp only [lockStep] at h; cases h
  | callEnqueue t =>
    simp only [lockStep] at h
    injection h with h
    subst h
    exact ⟨[], _, by simp, rfl, rfl⟩
  | producer k =>
    simp only [lockStep] at h
    split at h
    · next pc hpc => exact producerStep_refines h hist
    · cases h
  | destructor =>
    simp only [lockStep] at h
    exact dtorStep_refines hG h hist

theorem toPool_init (n : Nat) : (LockState.init n : LockState τ).toPool = ThreadPool.ctor n := by
  simp only [LockState.toPool, LockState.init, ThreadPool.ctor]
  congr 1
  apply List.ext_getElem?
  intro i
  rw [List.getElem?_mapIdx]
  rcases Nat.lt_or_ge i n with hi | hi
  · simp [List.getElem?_replicate, hi, WorkerPc.toState, DtorPc.joined]
  · simp [List.getElem?_replicate, Nat.not_lt.2 hi]

theorem lockRun_refines {acts : List (LockAction τ)} {s s' : LockState τ}
    (hI : s.LockInv) (hG : s.Guarded) (h : lockRun s acts = some s') (c : Config τ)
    (hc : c.pool = s.toPool) :
    ∃ (cacts : List (Action τ)) (c' : Config τ),
      run c cacts = .running c' ∧ c'.pool = s'.toPool := by
  induction acts generalizing s c with
  | nil =>
    simp only [lockRun] at h
    injection h with h
    subst h
    exact ⟨[], c, rfl, hc⟩
  | cons a rest ih =>
    simp only [lockRun] at h
    split at h
    · next s1 h1 =>
      obtain ⟨a1, c1, _, hr1, hp1⟩ := lockStep_refines hG h1 c.hist
      have hceq : (⟨s.toPool, c.hist⟩ : Config τ) = c := by
        rcases c with ⟨p, hh⟩
        simp only at hc
        subst hc
        rfl
      rw [hceq] at hr1
      obtain ⟨a2, c2, hr2, hp2⟩ := ih (lockInv_step hI h1) (guarded_step hI hG h1) h c1 hp1
      exact ⟨a1 ++ a2, c2, by rw [run_append hr1, hr2], hp2⟩
    · cases h

/-- The pool state of every state that the program reaches statement by
statement is reachable in the step relation. -/
theorem lockReachable_refines {n : Nat} {s : LockState τ} (h : LockReachable n s) :
    ∃ c : Config τ, Reachable n c ∧ c.pool = s.toPool := by
  obtain ⟨acts, h⟩ := h
  obtain ⟨cacts, c', hrun, hp⟩ :=
    lockRun_refines (lockInv_init n) (guarded_init n) h (Config.init n)
      (by rw [toPool_init]; rfl)
  exact ⟨c', ⟨cacts, hrun⟩, hp⟩

end Threads

namespace Threads

variable {τ : Type}

/-! ## Every access to the shared data is made by the owner of the mutex -/

theorem inCritical_of_accessing {s : LockState τ} {tid : ThreadId}
    (h : s.accessing tid = true) : s.inCritical tid = true := by
  cases tid with
  | worker i =>
    simp only [LockState.accessing] at h
    simp only [LockState.inCritical]
    cases hw : s.workers[i]? with
    | none => rw [hw] at h; cases h
    | some pc =>
      rw [hw] at h
      cases pc <;> first | rfl | cases h
  | producer k =>
    simp only [LockState.accessing] at h
    simp only [LockState.inCritical]
    cases hw : s.producers[k]? with
    | none => rw [hw] at h; cases h
    | some pc =>
      rw [hw] at h
      cases pc <;> first | rfl | cases h
  | destructor =>
    simp only [LockState.accessing] at h
    simp only [LockState.inCritical]
    cases hd : s.dtor <;> rw [hd] at h <;> first | rfl | cases h

/-- A statement that is not marked as an access writes neither `m_tasks` nor
`m_stop`, and does the same whatever they contain: it does not read them. -/
theorem lockStep_frame {s : LockState τ} {a : LockAction τ}
    (hna : s.accessing (a.thread s) = false) :
    (∀ s', lockStep s a = some s' → s'.m_tasks = s.m_tasks ∧ s'.m_stop = s.m_stop) ∧
    (∀ (q : List τ) (b : Bool),
      lockStep (s.withShared q b) a = (lockStep s a).map (fun s' => s'.withShared q b)) := by
  cases a with
  | workerThrows i => exact ⟨nofun, fun _ _ => rfl⟩
  | callEnqueue t =>
    refine ⟨?_, fun _ _ => rfl⟩
    intro s' h
    simp only [lockStep] at h
    injection h with h
    subst h
    exact ⟨rfl, rfl⟩
  | worker i =>
    simp only [LockAction.thread, LockState.accessing] at hna
    cases hw : s.workers[i]? with
    | none =>
      refine ⟨?_, fun q b => ?_⟩
      · intro s' h
        simp only [lockStep, hw] at h
        cases h
      · simp only [lockStep, LockState.withShared, hw]
        rfl
    | some pc =>
      rw [hw] at hna
      have hstep : ∀ x : LockState τ, x.workers = s.workers →
          lockStep x (.worker i) = workerStep x i pc := by
        intro x hx
        simp only [lockStep, hx, hw]
      rw [hstep s rfl]
      have h2 : ∀ q b, lockStep (s.withShared q b) (.worker i)
          = workerStep (s.withShared q b) i pc := fun q b => hstep _ rfl
      simp only [h2]
      cases pc with
      | waitCheck => cases hna
      | exitCheck => cases hna
      | takeFront => cases hna
      | loopTop =>
        refine ⟨?_, fun q b => ?_⟩
        · intro s' h
          simp only [workerStep] at h
          split at h
          · injection h with h; subst h; exact ⟨rfl, rfl⟩
          · cases h
        · simp only [workerStep, LockState.withShared]
          split <;> rfl
      | waitBlocked =>
        refine ⟨?_, fun q b => ?_⟩
        · intro s' h
          simp only [workerStep] at h
          split at h
          · injection h with h; subst h; exact ⟨rfl, rfl⟩
          · cases h
        · simp only [workerStep, LockState.withShared]
          split <;> rfl
      | scopeEnd t =>
        refine ⟨?_, fun q b => rfl⟩
        intro s' h
        simp only [workerStep] at h
        injection h with h; subst h; exact ⟨rfl, rfl⟩
      | callTask t =>
        refine ⟨?_, fun q b => rfl⟩
        intro s' h
        simp only [workerStep] at h
        injection h with h; subst h; exact ⟨rfl, rfl⟩
      | returned => exact ⟨nofun, fun q b => rfl⟩
  | producer k =>
    simp only [LockAction.thread, LockState.accessing] at hna
    cases hw : s.producers[k]? with
    | none =>
      refine ⟨?_, fun q b => ?_⟩
      · intro s' h
        simp only [lockStep, hw] at h
        cases h
      · simp only [lockStep, LockState.withShared, hw]
        rfl
    | some pc =>
      rw [hw] at hna
      have hstep : ∀ x : LockState τ, x.producers = s.producers →
          lockStep x (.producer k) = producerStep x k pc := by
        intro x hx
        simp only [lockStep, hx, hw]
      rw [hstep s rfl]
      have h2 : ∀ q b, lockStep (s.withShared q b) (.producer k)
          = producerStep (s.withShared q b) k pc := fun q b => hstep _ rfl
      simp only [h2]
      cases pc with
      | emplace t => cases hna
      | entry t =>
        refine ⟨?_, fun q b => ?_⟩
        · intro s' h
          simp only [producerStep] at h
          split at h
          · injection h with h; subst h; exact ⟨rfl, rfl⟩
          · cases h
        · simp only [producerStep, LockState.withShared]
          split <;> rfl
      | scopeEnd =>
        refine ⟨?_, fun q b => rfl⟩
        intro s' h
        simp only [producerStep] at h
        injection h with h; subst h; exact ⟨rfl, rfl⟩
      | notifyOne =>
        refine ⟨?_, fun q b => rfl⟩
        intro s' h
        simp only [producerStep] at h
        injection h with h; subst h; exact ⟨rfl, rfl⟩
      | done => exact ⟨nofun, fun q b => rfl⟩
  | destructor =>
    simp only [LockAction.thread, LockState.accessing] at hna
    have hstep : ∀ x : LockState τ, x.dtor = s.dtor →
        lockStep x .destructor = dtorStep x s.dtor := by
      intro x hx
      simp only [lockStep, hx]
    rw [hstep s rfl]
    have h2 : ∀ q b, lockStep (s.withShared q b) .destructor
        = dtorStep (s.withShared q b) s.dtor := fun q b => hstep _ rfl
    simp only [h2]
    cases hd : s.dtor with
    | setStop => rw [hd] at hna; cases hna
    | entry =>
      refine ⟨?_, fun q b => ?_⟩
      · intro s' h
        simp only [dtorStep] at h
        split at h
        · injection h with h; subst h; exact ⟨rfl, rfl⟩
        · cases h
      · simp only [dtorStep, LockState.withShared]
        split <;> rfl
    | scopeEnd =>
      refine ⟨?_, fun q b => rfl⟩
      intro s' h
      simp only [dtorStep] at h
      injection h with h; subst h; exact ⟨rfl, rfl⟩
    | notifyAll =>
      refine ⟨?_, fun q b => rfl⟩
      intro s' h
      simp only [dtorStep] at h
      injection h with h; subst h; exact ⟨rfl, rfl⟩
    | joinLoop i =>
      refine ⟨?_, fun q b => ?_⟩
      · intro s' h
        simp only [dtorStep] at h
        split at h
        · injection h with h; subst h; exact ⟨rfl, rfl⟩
        · cases h
        · injection h with h; subst h; exact ⟨rfl, rfl⟩
      · simp only [dtorStep, LockState.withShared]
        split <;> rfl
    | done => exact ⟨nofun, fun q b => rfl⟩

end Threads

namespace Threads

variable {τ : Type}

/-- C21. In every reachable state, a thread whose next statement reads or
writes `m_tasks` or `m_stop` (a worker at its wait predicate, exit test or
`front`/`pop`, a call of `Enqueue` at `emplace`, the destructor at
`m_stop = true`) owns `m_queueMutex`; so no two threads are at such a
statement at the same time and the accesses are serialised.  These are all
the accesses there are: every other statement leaves `m_tasks` and `m_stop`
as they are and does the same whatever they contain. -/
theorem shared_access_under_mutex (n : Nat) (s : LockState τ) (hs : LockReachable n s) :
    (∀ tid, s.accessing tid = true → s.m_queueMutex = some tid) ∧
    (∀ a s', lockStep s a = some s' → s.accessing (a.thread s) = true →
      s.m_queueMutex = some (a.thread s)) ∧
    (∀ t1 t2, s.accessing t1 = true → s.accessing t2 = true → t1 = t2) ∧
    (∀ a : LockAction τ, s.accessing (a.thread s) = false →
      (∀ s', lockStep s a = some s' → s'.m_tasks = s.m_tasks ∧ s'.m_stop = s.m_stop) ∧
      (∀ (q : List τ) (b : Bool),
        lockStep (s.withShared q b) a =
          (lockStep s a).map (fun s' => s'.withShared q b))) := by
  have hI := lockInv_reachable hs
  refine ⟨?_, ?_, ?_, fun a ha => lockStep_frame ha⟩
  · intro tid h
    exact (hI tid).1 (inCritical_of_accessing h)
  · intro a s' _ h
    exact (hI _).1 (inCritical_of_accessing h)
  · intro t1 t2 h1 h2
    exact lockInv_exclusive hI (inCritical_of_accessing h1) (inCritical_of_accessing h2)

theorem shared_access_under_mutex_witness :
    LockReachable 2 lockDemo ∧ lockDemo.accessing (.worker 1) = true ∧
    lockDemo.m_queueMutex = some (.worker 1) :=
  ⟨⟨lockDemoActs, rfl⟩, rfl,
    (shared_access_under_mutex 2 lockDemo ⟨lockDemoActs, rfl⟩).1 (.worker 1) rfl⟩

/-! ## The stop flag -/

theorem step_stop {c c' : Config τ} {a : Action τ} (h : step c a = .running c') :
    c'.pool.m_stop = c.pool.m_stop ∨ (a = .dtorStop ∧ c'.pool.m_stop = true) := by
  cases a with
  | enqueue t =>
    rw [step_enqueue] at h
    injection h with h
    subst h
    exact Or.inl rfl
  | wake i =>
    obtain ⟨j, hj, ⟨_, _, rfl⟩ | ⟨_, _, rfl⟩ | ⟨t, rest, _, rfl⟩⟩ := step_wake_inv h
    · exact Or.inl rfl
    · exact Or.inl rfl
    · exact Or.inl rfl
  | taskReturns i =>
    obtain ⟨t, j, hj, rfl⟩ := step_taskReturns_inv h
    exact Or.inl rfl
  | taskThrows i => exact absurd h (step_taskThrows_ne_running c c' i)
  | dtorStop =>
    rw [step_dtorStop] at h
    injection h with h
    subst h
    exact Or.inr ⟨rfl, rfl⟩
  | dtorJoin i =>
    obtain ⟨_, _, w, hw, ⟨_, rfl⟩ | ⟨_, hst, rfl⟩⟩ := step_dtorJoin_inv h
    · exact Or.inl rfl
    · exact Or.inl rfl

theorem run_stop {acts : List (Action τ)} {c c' : Config τ}
    (h : run c acts = .running c') :
    (c.pool.m_stop = true → c'.pool.m_stop = true) ∧
    (c'.pool.m_stop ≠ c.pool.m_stop → Action.dtorStop ∈ acts) := by
  induction acts generalizing c with
  | nil =>
    simp only [run] at h
    injection h with h
    subst h
    exact ⟨id, fun hne => absurd rfl hne⟩
  | cons a rest ih =>
    obtain ⟨c1, h1, h2⟩ := run_cons_running h
    obtain ⟨ih1, ih2⟩ := ih h2
    rcases step_stop h1 with hs | ⟨ha, hs⟩
    · refine ⟨fun hc => ih1 (by rw [hs]; exact hc), fun hne => ?_⟩
      rw [← hs] at hne
      exact List.mem_cons_of_mem a (ih2 hne)
    · subst ha
      exact ⟨fun _ => ih1 hs, fun _ => List.mem_cons_self _ _⟩

/-- C22. The stop flag is monotone: it is false in the freshly constructed
pool; a step changes it only if it is the destructor's flag-setting step, and
then to true; so once it is true it is true in every later state, and a flag
that has changed was set by the destructor.  No `Enqueue`, worker wake, task
return or join clears it. -/
theorem stop_flag_monotone (n : Nat) :
    (Config.init n : Config τ).pool.m_stop = false ∧
    (∀ (c c' : Config τ) (a : Action τ), step c a = .running c' →
      (c.pool.m_stop = true → c'.pool.m_stop = true) ∧
      (c'.pool.m_stop ≠ c.pool.m_stop → a = .dtorStop ∧ c'.pool.m_stop = true)) ∧
    (∀ (c c' : Config τ) (acts : List (Action τ)), run c acts = .running c' →
      (c.pool.m_stop = true → c'.pool.m_stop = true) ∧
      (c'.pool.m_stop ≠ c.pool.m_stop → Action.dtorStop ∈ acts)) ∧
    (∀ c : Config τ, Reachable n c → c.pool.m_stop = true →
      ∀ (acts : List (Action τ)) (c' : Config τ), run c acts = .running c' →
        Reachable n c' ∧ c'.pool.m_stop = true) ∧
    (∀ (s s' : LockState τ) (a : LockAction τ), lockStep s a = some s' →
      (s.m_stop = true → s'.m_stop = true) ∧
      (s'.m_stop ≠ s.m_stop → a = .destructor ∧ s.dtor = .setStop)) := by
  refine ⟨rfl, ?_, fun c c' acts h => run_stop h, ?_, ?_⟩
  · intro c c' a h
    rcases step_stop h with hs | ⟨ha, hs⟩
    · exact ⟨fun hc => by rw [hs]; exact hc, fun hne => absurd hs hne⟩
    · exact ⟨fun _ => hs, fun _ => ⟨ha, hs⟩⟩
  · intro c hc hs acts c' hrun
    exact ⟨reachable_run hc hrun, (run_stop hrun).1 hs⟩
  · intro s s' a h
    cases a with
    | worker i =>
      simp only [lockStep] at h
      split at h
      · obtain ⟨_, _, _, _, hst, _⟩ := workerStep_spec h
        exact ⟨fun hc => by rw [hst]; exact hc, fun hne => absurd hst hne⟩
      · cases h
    | workerThrows i => simp only [lockStep] at h; cases h
    | callEnqueue t =>
      simp only [lockStep] at h
      injection h with h
      subst h
      exact ⟨id, fun hne => absurd rfl hne⟩
    | producer k =>
      simp only [lockStep] at h
      split at h
      · obtain ⟨_, _, hst, _⟩ := producerStep_spec h
        exact ⟨fun hc => by rw [hst]; exact hc, fun hne => absurd hst hne⟩
      · cases h
    | destructor =>
      simp only [lockStep] at h
      obtain ⟨_, _, _, ⟨hst, _⟩ | ⟨hd, hst⟩⟩ := dtorStep_spec h
      · exact ⟨fun hc => by rw [hst]; exact hc, fun hne => absurd hst hne⟩
      · exact ⟨fun _ => hst, fun _ => ⟨rfl, hd⟩⟩

end Threads

namespace Threads

/-! ## 32-bit `int` -/

theorem intWrap_idem (x : Int) : intWrap (intWrap x) = intWrap x := by
  unfold intWrap
  omega

theorem intWrap_add_left (a b : Int) : intWrap (intWrap a + b) = intWrap (a + b) := by
  unfold intWrap
  omega

theorem intWrap_add_right (a b : Int) : intWrap (a + intWrap b) = intWrap (a + b) := by
  unfold intWrap
  omega

theorem intWrap_of_range {x : Int} (h1 : -2147483648 ≤ x) (h2 : x < 2147483648) :
    intWrap x = x := by
  unfold intWrap
  omega

theorem intWrap_range (x : Int) : -2147483648 ≤ intWrap x ∧ intWrap x < 2147483648 := by
  unfold intWrap
  omega

namespace Async

/-! ## `ParallelSum` -/

theorem accumulate_eq (xs : List Int) (init : Int) (h : intWrap init = init) :
    accumulate xs init = intWrap (init + xs.sum) := by
  induction xs generalizing init with
  | nil => simp [accumulate, h]
  | cons x xs ih =>
    have := ih (intWrap (init + x)) (intWrap_idem _)
    simp only [accumulate, List.foldl_cons] at this ⊢
    rw [this, intWrap_add_left, List.sum_cons, Int.add_assoc]

theorem ParallelSum_eq_sum (n : Nat) :
    ∀ xs : List Int, xs.length ≤ n → ParallelSum xs = intWrap xs.sum := by
  induction n with
  | zero =>
    intro xs hlen
    rw [ParallelSum]
    have : xs.length < 1000 := by omega
    rw [dif_pos this, accumulate_eq xs 0 rfl, Int.zero_add]
  | succ n ih =>
    intro xs hlen
    rw [ParallelSum]
    by_cases hshort : xs.length < 1000
    · rw [dif_pos hshort, accumulate_eq xs 0 rfl, Int.zero_add]
    · rw [dif_neg hshort]
      have h1 : (xs.take (xs.length / 2)).length ≤ n := by
        simp only [List.length_take]
        omega
      have h2 : (xs.drop (xs.length / 2)).length ≤ n := by
        simp only [List.length_drop]
        omega
      rw [ih _ h1, ih _ h2, intWrap_add_left, intWrap_add_right, ← List.sum_append,
        List.take_append_drop]

/-- C23. For every sequence of `int` of any length, `ParallelSum(beg, end)`
returns (the function is total: each recursive call is on a strictly shorter
range) the value of the sequential `std::accumulate(beg, end, 0)`, which is
the sum of all elements in 32-bit arithmetic.  A range shorter than 1000 is
summed directly; a longer one is split at `len / 2` into two strictly shorter
halves whose results are added.  For 10000 ones the result is 10000. -/
theorem ParallelSum_eq_accumulate (xs : List Int) :
    ParallelSum xs = accumulate xs 0 ∧
    ParallelSum xs = intWrap xs.sum ∧
    (xs.length < 1000 → ParallelSum xs = accumulate xs 0) ∧
    (1000 ≤ xs.length →
      (xs.take (xs.length / 2)).length < xs.length ∧
      (xs.drop (xs.length / 2)).length < xs.length ∧
      ParallelSum xs =
        intWrap (ParallelSum (xs.take (xs.length / 2)) +
          ParallelSum (xs.drop (xs.length / 2)))) ∧
    ParallelSum (List.replicate 10000 1) = 10000 := by
  have hsum := ParallelSum_eq_sum xs.length xs (Nat.le_refl _)
  have hacc : ParallelSum xs = accumulate xs 0 := by
    rw [hsum, accumulate_eq xs 0 rfl, Int.zero_add]
  refine ⟨hacc, hsum, fun _ => hacc, ?_, ?_⟩
  · intro hlong
    refine ⟨?_, ?_, ?_⟩
    · simp only [List.length_take]
      omega
    · simp only [List.length_drop]
      omega
    · conv_lhs => rw [ParallelSum]
      rw [dif_neg (by omega)]
  · rw [ParallelSum_eq_sum _ _ (Nat.le_refl _), List.sum_replicate]
    rfl

end Async

/-! ## `SafeContainer` -/

/-- C27. For every `SafeContainer` holding value `v` whose mutex is free or
already owned by the calling thread, and every `int` `val`: `addAndDouble(val)`
returns (the nested locks of the recursive mutex succeed), leaves the mutex
as it found it, and afterwards `GetValue()` returns `2 * (v + val)` in 32-bit
arithmetic: the first `internalAdd` makes the value `v + val`, the second
adds that value to itself. -/
theorem addAndDouble_value (c : SafeContainer) (tid : Nat) (val : Int)
    (hfree : c.m_mutex = { owner := none, count := 0 } ∨
      (c.m_mutex.owner = some tid ∧ 1 ≤ c.m_mutex.count)) :
    ∃ c', c.addAndDouble tid val = some c' ∧
      c'.m_value = intWrap (2 * (c.m_value + val)) ∧
      c'.m_value = intWrap (intWrap (c.m_value + val) + intWrap (c.m_value + val)) ∧
      c'.m_mutex = c.m_mutex ∧
      c'.GetValue tid = some (intWrap (2 * (c.m_value + val)), c') := by
  have harith : intWrap (intWrap (c.m_value + val) + intWrap (c.m_value + val))
      = intWrap (2 * (c.m_value + val)) := by
    unfold intWrap
    omega
  rcases c with ⟨⟨o, k⟩, v⟩
  rcases hfree with hfree | ⟨ho, hk⟩
  · injection hfree with ho hk
    subst ho hk
    refine ⟨⟨⟨none, 0⟩, intWrap (intWrap (v + val) + intWrap (v + val))⟩, ?_, harith, rfl,
      rfl, ?_⟩
    · simp [SafeContainer.addAndDouble, SafeContainer.internalAdd, RecursiveMutex.lock,
        RecursiveMutex.unlock]
    · simp only [SafeContainer.GetValue, RecursiveMutex.lock, RecursiveMutex.unlock]
      simp [harith]
  · simp only at ho hk
    subst ho
    refine ⟨⟨⟨some tid, k⟩, intWrap (intWrap (v + val) + intWrap (v + val))⟩, ?_, harith,
      rfl, rfl, ?_⟩
    · simp only [SafeContainer.addAndDouble, SafeContainer.internalAdd, RecursiveMutex.lock,
        RecursiveMutex.unlock, if_true]
      have h1 : ¬ (k + 1 + 1 ≤ 1) := by omega
      have h2 : ¬ (k + 1 ≤ 1) := by omega
      simp [h1, h2]
    · simp only [SafeContainer.GetValue, RecursiveMutex.lock, RecursiveMutex.unlock, if_true]
      have h2 : ¬ (k + 1 ≤ 1) := by omega
      simp [h2, harith]

theorem addAndDouble_value_witness :
    ((SafeContainer.ctor 5).addAndDouble 1 16).map (fun c => c.m_value) = some 42 ∧
    ∃ c', (SafeContainer.ctor 5).addAndDouble 1 16 = some c' ∧
      c'.m_value = intWrap (2 * ((SafeContainer.ctor 5).m_value + 16)) :=
  ⟨by decide,
    (addAndDouble_value (SafeContainer.ctor 5) 1 16 (Or.inl rfl)).elim
      (fun c' h => ⟨c', h.1, h.2.1⟩)⟩

end Threads

namespace Threads

/-! ## `EventQueue` -/

theorem pushAll_events (q : EventQueue) (events : List Event) :
    (q.pushAll events).Events = q.Events ++ events := by
  induction events generalizing q with
  | nil => simp [EventQueue.pushAll]
  | cons e rest ih =>
    have := ih (q.push e)
    simp only [EventQueue.pushAll, List.foldl_cons] at this ⊢
    rw [this]
    simp [EventQueue.push]

theorem popMany_all (events : List Event) :
    EventQueue.popMany events.length { Events := events }
      = (events.map some, { Events := [] }) := by
  induction events with
  | nil => rfl
  | cons e rest ih =>
    simp only [List.length_cons, EventQueue.popMany, EventQueue.try_pop, ih, List.map_cons]

theorem popMany_succ_fst (n : Nat) (q : EventQueue) :
    (EventQueue.popMany (n + 1) q).1
      = (EventQueue.popMany n q).1 ++ [(EventQueue.popMany n q).2.try_pop.1] := by
  induction n generalizing q with
  | zero => rfl
  | succ n ih =>
    have := ih q.try_pop.2
    simp only [EventQueue.popMany] at this ⊢
    rw [this]
    rfl

/-- C25. `EventQueue` is first-in first-out and `try_pop` is total.  On an
empty queue `try_pop` returns `nullopt` and leaves the queue unchanged; on a
non-empty queue it returns the oldest event (the front) and removes exactly
that one; `push` puts the event behind all others.  So after pushing
`e1 .. en` onto an empty queue, `n` successive calls of `try_pop` return
`e1 .. en` in that order and leave the queue empty, and the next call returns
`nullopt`. -/
theorem event_queue_fifo :
    (∀ q : EventQueue, q.Events = [] → q.try_pop = (none, q)) ∧
    (∀ (e : Event) (rest : List Event),
      EventQueue.try_pop { Events := e :: rest } = (some e, { Events := rest })) ∧
    (∀ (q : EventQueue) (e : Event), (q.push e).Events = q.Events ++ [e]) ∧
    (∀ events : List Event,
      (EventQueue.pushAll { Events := [] } events).Events = events ∧
      EventQueue.popMany events.length (EventQueue.pushAll { Events := [] } events)
        = (events.map some, { Events := [] }) ∧
      (EventQueue.popMany (events.length + 1)
          (EventQueue.pushAll { Events := [] } events)).1
        = events.map some ++ [none]) := by
  refine ⟨?_, fun _ _ => rfl, fun _ _ => rfl, ?_⟩
  · intro q hq
    rcases q with ⟨l⟩
    simp only at hq
    subst hq
    rfl
  · intro events
    have hq : EventQueue.pushAll { Events := [] } events = { Events := events } := by
      have := pushAll_events { Events := [] } events
      rcases hp : EventQueue.pushAll { Events := [] } events with ⟨l⟩
      rw [hp] at this
      simp only [List.nil_append] at this
      rw [this]
    refine ⟨by rw [hq], by rw [hq, popMany_all], ?_⟩
    rw [hq, popMany_succ_fst, popMany_all]
    rfl

end Threads

namespace Patterns

variable {ι : Type}

/-! ## `Subject` -/

theorem notifyFrom_eq_map (message : String) (l : List ι) :
    Subject.notifyFrom message l = l.map (fun o => (o, message)) := by
  induction l with
  | nil => rfl
  | cons o rest ih => simp only [Subject.notifyFrom, ih, List.map_cons]

theorem callAll_cons [DecidableEq ι] (s : Subject ι) (c : Call ι) (rest : List (Call ι)) :
    s.callAll (c :: rest) = (s.call c).callAll rest := rfl

theorem callAll_append [DecidableEq ι] (s : Subject ι) (a b : List (Call ι)) :
    s.callAll (a ++ b) = (s.callAll a).callAll b := by
  simp only [Subject.callAll, List.foldl_append]

theorem callAll_message [DecidableEq ι] (s : Subject ι) (calls : List (Call ι)) :
    (s.callAll calls).m_message = s.m_message := by
  induction calls generalizing s with
  | nil => rfl
  | cons c rest ih =>
    rw [callAll_cons, ih]
    cases c <;> rfl

/-- The list after a sequence of calls: what was there before and is not
detached, then what the sequence leaves attached. -/
theorem callAll_list [DecidableEq ι] (s : Subject ι) (calls : List (Call ι)) :
    (s.callAll calls).m_listObserver =
      s.m_listObserver.filter (fun o => decide (Call.detach o ∉ calls))
        ++ stillAttached calls := by
  induction calls generalizing s with
  | nil => simp [Subject.callAll, stillAttached]
  | cons c rest ih =>
    rw [callAll_cons, ih]
    cases c with
    | attach o =>
      by_cases h : Call.detach o ∈ rest
      · simp [Subject.call, Subject.Attach, List.filter_append, stillAttached, h]
      · simp [Subject.call, Subject.Attach, List.filter_append, stillAttached, h]
    | detach o =>
      simp only [Subject.call, Subject.Detach, stillAttached, List.filter_filter,
        List.mem_cons]
      congr 1
      apply List.filter_congr
      intro x _
      by_cases hx : x = o
      · subst hx; simp
      · have : Call.detach x ≠ Call.detach o := fun h => hx (by injection h)
        simp [hx, this]

theorem stillAttached_sublist [DecidableEq ι] (calls : List (Call ι)) :
    (stillAttached calls).Sublist (attachOrder calls) := by
  induction calls with
  | nil => exact List.Sublist.slnil
  | cons c rest ih =>
    cases c with
    | attach o =>
      simp only [stillAttached, attachOrder]
      split
      · exact ih.cons o
      · exact ih.cons₂ o
    | detach o => exact ih

theorem not_mem_callAll [DecidableEq ι] (s : Subject ι) (o : ι) (after : List (Call ι))
    (hs : o ∉ s.m_listObserver) (hafter : ∀ c ∈ after, c ≠ Call.attach o) :
    o ∉ (s.callAll after).m_listObserver := by
  induction after generalizing s with
  | nil => exact hs
  | cons c rest ih =>
    rw [callAll_cons]
    apply ih
    · cases c with
      | attach x =>
        have hx : x ≠ o := by
          intro h
          exact hafter (.attach x) (List.mem_cons_self _ _) (by rw [h])
        simp only [Subject.call, Subject.Attach, List.mem_append, List.mem_singleton, not_or]
        exact ⟨hs, fun h => hx h.symm⟩
      | detach x =>
        simp only [Subject.call, Subject.Detach, List.mem_filter, not_and]
        intro h
        exact absurd h hs
    · intro c' hc'
      exact hafter c' (List.mem_cons_of_mem _ hc')

theorem not_mem_detach [DecidableEq ι] (s : Subject ι) (o : ι) :
    o ∉ (s.Detach o).m_listObserver := by
  simp [Subject.Detach]

/-- C24. For every sequence of `Attach` and `Detach` calls on a `Subject`:
`Notify`, and so `CreateMessage(msg)`, calls `Update` with the current message
once for each entry of the observer list, in list order, which is the order
in which the entries were attached; the list holds one entry for each
`Attach(o)` not followed by a `Detach(o)`.  `Detach(o)` removes every
occurrence of `o` and keeps the others in their order, so an observer
detached after its last `Attach` is called by no later `Notify`, and
detaching an observer that is not in the list changes nothing. -/
theorem notify_each_attached [DecidableEq ι] (calls : List (Call ι)) (message : String) :
    ((Subject.init.callAll calls).CreateMessage message).2
      = (Subject.init.callAll calls).m_listObserver.map (fun o => (o, message)) ∧
    ((Subject.init.callAll calls).CreateMessage message).1.Notify
      = ((Subject.init.callAll calls).CreateMessage message).2 ∧
    ((Subject.init.callAll calls).CreateMessage message).1.m_listObserver
      = (Subject.init.callAll calls).m_listObserver ∧
    (Subject.init.callAll calls).m_listObserver = stillAttached calls ∧
    (stillAttached calls).Sublist (attachOrder calls) ∧
    (∀ (s : Subject ι) (o : ι),
      o ∉ (s.Detach o).m_listObserver ∧
      (s.Detach o).m_listObserver.Sublist s.m_listObserver ∧
      (∀ x, x ≠ o → (s.Detach o).m_listObserver.count x = s.m_listObserver.count x) ∧
      (s.Detach o).m_message = s.m_message ∧
      (o ∉ s.m_listObserver → s.Detach o = s)) ∧
    (∀ (before after : List (Call ι)) (o : ι), (∀ c ∈ after, c ≠ Call.attach o) →
      ∀ (msg : String),
        ∀ call ∈ ((Subject.init.callAll (before ++ Call.detach o :: after)).CreateMessage
          msg).2, call.1 ≠ o) := by
  refine ⟨?_, rfl, rfl, ?_, stillAttached_sublist calls, ?_, ?_⟩
  · simp only [Subject.CreateMessage, Subject.Notify, notifyFrom_eq_map]
  · rw [callAll_list]
    simp [Subject.init]
  · intro s o
    refine ⟨not_mem_detach s o, List.filter_sublist _, ?_, rfl, ?_⟩
    · intro x hx
      exact List.count_filter (by simp [hx])
    · intro ho
      rcases s with ⟨l, m⟩
      simp only [Subject.Detach, Subject.mk.injEq, and_true]
      rw [List.filter_eq_self]
      intro x hx
      simp only [decide_eq_true_eq]
      rintro rfl
      exact ho hx
  · intro before after o hafter msg call hcall
    simp only [Subject.CreateMessage, Subject.Notify, notifyFrom_eq_map, List.mem_map] at hcall
    obtain ⟨x, hx, rfl⟩ := hcall
    rw [callAll_append, callAll_cons] at hx
    intro hxo
    simp only at hxo
    subst hxo
    exact not_mem_callAll _ x after (not_mem_detach _ x) hafter hx

/-- The observer lists of `TestObserver` at its three calls of `CreateMessage`
and at its end. -/
theorem TestObserver_lists :
    (Subject.init.callAll (TestObserver.take 3)).m_listObserver = [1, 2, 3] ∧
    (Subject.init.callAll (TestObserver.take 4)).m_listObserver = [1, 2] ∧
    (Subject.init.callAll (TestObserver.take 7)).m_listObserver = [1, 4, 5] ∧
    ((Subject.init.callAll (TestObserver.take 7)).CreateMessage "My new car is great").2
      = [(1, "My new car is great"), (4, "My new car is great"), (5, "My new car is great")] ∧
    (Subject.init.callAll TestObserver).m_listObserver = [] := by
  decide

end Patterns

namespace Patterns

/-! ## `User` -/

theorem read_set_self {h : Heap} {p : Nat} {v : Impl} (x : Option Impl)
    (hp : h.read p = some v) : Heap.read { cells := h.cells.set p x } p = x := by
  have hlen : p < h.cells.length := by
    rcases Nat.lt_or_ge p h.cells.length with h1 | h1
    · exact h1
    · simp [Heap.read, List.getElem?_eq_none h1] at hp
  simp [Heap.read, hlen]

theorem read_set_other (h : Heap) {p q : Nat} (x : Option Impl) (hne : p ≠ q) :
    Heap.read { cells := h.cells.set p x } q = h.read q := by
  simp [Heap.read, List.getElem?_set, hne]

theorem getSalary_delete_other (h : Heap) (u : User) {p : Nat} (hne : p ≠ u.m_pimpl) :
    u.GetSalary (h.delete p) = u.GetSalary h := by
  simp only [User.GetSalary, Heap.delete, read_set_other h none hne]

theorem read_lt {h : Heap} {p : Nat} {v : Impl} (hp : h.read p = some v) :
    p < h.cells.length := by
  rcases Nat.lt_or_ge p h.cells.length with h1 | h1
  · exact h1
  · simp [Heap.read, List.getElem?_eq_none h1] at hp

theorem read_new_self (h : Heap) (v : Impl) : (h.new v).1.read (h.new v).2 = some v := by
  simp [Heap.new, Heap.read]

theorem read_new_other {h : Heap} {p : Nat} {w : Impl} (v : Impl) (hp : h.read p = some w) :
    (h.new v).1.read p = some w := by
  have hlen := read_lt hp
  simp only [Heap.new, Heap.read, List.getElem?_append_left hlen]
  exact hp

theorem setSalary_spec {h : Heap} {u : User} {v : Impl} (hu : h.read u.m_pimpl = some v)
    (t : Int) :
    ∃ h2, u.SetSalary h t = some h2 ∧ u.GetSalary h2 = some t ∧
      ∀ q, q ≠ u.m_pimpl → h2.read q = h.read q := by
  refine ⟨{ cells := h.cells.set u.m_pimpl (some { v with Salary := t }) }, ?_, ?_, ?_⟩
  · simp only [User.SetSalary, hu]
  · simp only [User.GetSalary, read_set_self _ hu]
    rfl
  · intro q hq
    exact read_set_other h _ (fun h' => hq h'.symm)

/-- Two users that hold different live objects are independent. -/
theorem independent_of_distinct {h : Heap} {c u : User} {s : Int}
    (hne : c.m_pimpl ≠ u.m_pimpl) (hc : c.GetSalary h = some s)
    (hu : u.GetSalary h = some s) : User.IndependentWith h c u s := by
  refine ⟨hne, hc, hu, fun t => ⟨?_, ?_⟩⟩
  · cases hrc : h.read c.m_pimpl with
    | none => simp [User.GetSalary, hrc] at hc
    | some v =>
      obtain ⟨h2, hset, hget, hframe⟩ := setSalary_spec hrc t
      refine ⟨h2, hset, hget, ?_⟩
      simp only [User.GetSalary] at hu ⊢
      rw [hframe _ (fun h' => hne h'.symm)]
      exact hu
  · cases hru : h.read u.m_pimpl with
    | none => simp [User.GetSalary, hru] at hu
    | some v =>
      obtain ⟨h3, hset, hget, hframe⟩ := setSalary_spec hru t
      refine ⟨h3, hset, hget, ?_⟩
      simp only [User.GetSalary] at hc ⊢
      rw [hframe _ hne]
      exact hc

/-- C26. Copies of a `User` are independent.  For every `User` `u` with salary
`s`: the copy-constructed `User` `c` holds its own `Impl`, `c.GetSalary()` is
`s`, and for every `t` a later `c.SetSalary(t)` makes `c.GetSalary()` return
`t` while `u.GetSalary()` still returns `s`, and the other way round.  The
same holds when `c` is an existing `User` (another object than `u`) to which
`u` is assigned. -/
theorem copies_independent (h : Heap) (u : User) (s : Int)
    (hs : u.GetSalary h = some s) :
    (∃ h1 c, User.copy h u = some (h1, c) ∧ User.IndependentWith h1 c u s) ∧
    (∀ self : User, self.m_pimpl ≠ u.m_pimpl → (h.read self.m_pimpl).isSome = true →
      ∃ h1 c, User.assign h self u = some (h1, c) ∧ User.IndependentWith h1 c u s) := by
  cases hru : h.read u.m_pimpl with
  | none => simp [User.GetSalary, hru] at hs
  | some v =>
    have hv : v.Salary = s := by
      simp only [User.GetSalary, hru, Option.map_some'] at hs
      injection hs
    have hlt := read_lt hru
    have hfresh : (h.new v).2 ≠ u.m_pimpl := by
      simp only [Heap.new]
      omega
    have hcopy : User.copy h u = some ((h.new v).1, { m_pimpl := (h.new v).2 }) := by
      simp only [User.copy, hru]
    have hc1 : User.GetSalary (h.new v).1 { m_pimpl := (h.new v).2 } = some s := by
      simp only [User.GetSalary, read_new_self, Option.map_some', hv]
    have hu1 : u.GetSalary (h.new v).1 = some s := by
      simp only [User.GetSalary, read_new_other v hru, Option.map_some', hv]
    refine ⟨⟨_, _, hcopy, independent_of_distinct hfresh hc1 hu1⟩, ?_⟩
    intro self hne hlive
    have hself : self.m_pimpl < h.cells.length := by
      cases hrs : h.read self.m_pimpl with
      | none => rw [hrs] at hlive; cases hlive
      | some w => exact read_lt hrs
    have hfresh2 : self.m_pimpl ≠ (h.new v).2 := by
      simp only [Heap.new]
      omega
    refine ⟨(h.new v).1.delete self.m_pimpl, { m_pimpl := (h.new v).2 }, ?_, ?_⟩
    · simp only [User.assign, hcopy]
    · apply independent_of_distinct hfresh
      · rw [getSalary_delete_other _ _ hfresh2]
        exact hc1
      · rw [getSalary_delete_other _ _ hne]
        exact hu1

theorem copies_independent_witness :
    User.GetSalary twoUsers { m_pimpl := 0 } = some 100 ∧
    (∃ h1 c, User.copy twoUsers { m_pimpl := 0 } = some (h1, c) ∧
      User.IndependentWith h1 c { m_pimpl := 0 } 100) ∧
    (∃ h1 c, User.assign twoUsers { m_pimpl := 1 } { m_pimpl := 0 } = some (h1, c) ∧
      User.IndependentWith h1 c { m_pimpl := 0 } 100) :=
  ⟨rfl, (copies_independent twoUsers { m_pimpl := 0 } 100 rfl).1,
    (copies_independent twoUsers { m_pimpl := 0 } 100 rfl).2 { m_pimpl := 1 } (by decide) rfl⟩

end Patterns

namespace Threads

variable {τ : Type}

/-! ## Shutdown and the condition variable -/

theorem ofBase_running {o : Outcome τ} {f : Config τ → WaitConfig τ} {w' : WaitConfig τ}
    (h : WaitOutcome.ofBase o f = .running w') : ∃ c, o = .running c ∧ w' = f c := by
  cases o with
  | running c =>
    simp only [WaitOutcome.ofBase] at h
    injection h with h
    exact ⟨c, rfl, h.symm⟩
  | notEnabled =>
    simp only [WaitOutcome.ofBase] at h
    cases h
  | terminateCalled =>
    simp only [WaitOutcome.ofBase] at h
    cases h

theorem step_keeps_stop {c c' : Config τ} {a : Action τ} (h : step c a = .running c')
    (ha : a ≠ .dtorStop) : c'.pool.m_stop = c.pool.m_stop := by
  rcases step_stop h with hs | ⟨hd, _⟩
  · exact hs
  · exact absurd hd ha

theorem waitStep_wake_inv {w w' : WaitConfig τ} {i : Nat}
    (h : waitStep w (.wake i) = .running w') :
    i ∉ w.m_cv ∧ ∃ c, step w.base (.wake i) = .running c ∧
      w' = { w with
        base := c
        m_cv := if w.base.pool.waitPredicate then w.m_cv else w.m_cv ++ [i] } := by
  simp only [waitStep] at h
  split at h
  · cases h
  · next hi =>
    obtain ⟨c, hc, rfl⟩ := ofBase_running h
    exact ⟨hi, c, hc, rfl⟩

theorem waitStep_taskReturns_inv {w w' : WaitConfig τ} {i : Nat}
    (h : waitStep w (.taskReturns i) = .running w') :
    ∃ c, step w.base (.taskReturns i) = .running c ∧ w' = { w with base := c } := by
  simp only [waitStep] at h
  exact ofBase_running h

theorem waitStep_dtorJoin_inv {w w' : WaitConfig τ} {i : Nat}
    (h : waitStep w (.dtorJoin i) = .running w') :
    w.dtor = .notified ∧
    ∃ c, step w.base (.dtorJoin i) = .running c ∧ w' = { w with base := c } := by
  simp only [waitStep] at h
  split at h
  · next hd => exact ⟨hd, ofBase_running h⟩
  · cases h

theorem waitStep_wake_idle {w : WaitConfig τ} {i : Nat} {j : Bool}
    (hi : w.base.pool.m_threads[i]? = some ⟨.idleWait, j⟩) (hm : i ∉ w.m_cv) :
    ∃ c, step w.base (.wake i) = .running c ∧
      waitStep w (.wake i) = .running { w with
        base := c
        m_cv := if w.base.pool.waitPredicate then w.m_cv else w.m_cv ++ [i] } := by
  refine ⟨_, step_wake_idle hi, ?_⟩
  simp only [waitStep, hm, if_false, step_wake_idle hi, WaitOutcome.ofBase]

theorem waitStep_taskReturns_executing {w : WaitConfig τ} {i : Nat} {t : τ} {j : Bool}
    (hi : w.base.pool.m_threads[i]? = some ⟨.executing t, j⟩) :
    ∃ c, step w.base (.taskReturns i) = .running c ∧
      waitStep w (.taskReturns i) = .running { w with base := c } := by
  refine ⟨_, step_taskReturns_executing hi, ?_⟩
  simp only [waitStep, step_taskReturns_executing hi, WaitOutcome.ofBase]

theorem waitRun_cons_running {w w' : WaitConfig τ} {a : WaitAction τ}
    {rest : List (WaitAction τ)} (h : waitRun w (a :: rest) = .running w') :
    ∃ w1, waitStep w a = .running w1 ∧ waitRun w1 rest = .running w' := by
  simp only [waitRun] at h
  split at h
  · next w1 h1 => exact ⟨w1, h1, h⟩
  · next o hne =>
    rw [h] at hne
    exact absurd rfl (hne w')

theorem waitRun_cons {w w1 : WaitConfig τ} {a : WaitAction τ} (rest : List (WaitAction τ))
    (h : waitStep w a = .running w1) : waitRun w (a :: rest) = waitRun w1 rest := by
  simp only [waitRun, h]

/-- Every step with wake-ups is a step of the pool as `step` has it, or leaves
the pool as it is. -/
theorem waitStep_refines {w w' : WaitConfig τ} {a : WaitAction τ}
    (h : waitStep w a = .running w') :
    w'.base = w.base ∨ ∃ a0, step w.base a0 = .running w'.base := by
  cases a with
  | enqueue t =>
    simp only [waitStep] at h
    obtain ⟨c, hc, rfl⟩ := ofBase_running h
    exact Or.inr ⟨.enqueue t, hc⟩
  | notifyOne k =>
    cases k with
    | none =>
      simp only [waitStep] at h
      split at h
      · injection h with h
        subst h
        exact Or.inl rfl
      · cases h
    | some k =>
      simp only [waitStep] at h
      split at h
      · injection h with h
        subst h
        exact Or.inl rfl
      · cases h
  | wake i =>
    obtain ⟨_, c, hc, rfl⟩ := waitStep_wake_inv h
    exact Or.inr ⟨.wake i, hc⟩
  | spuriousWake i =>
    simp only [waitStep] at h
    split at h
    · injection h with h
      subst h
      exact Or.inl rfl
    · cases h
  | taskReturns i =>
    obtain ⟨c, hc, rfl⟩ := waitStep_taskReturns_inv h
    exact Or.inr ⟨.taskReturns i, hc⟩
  | taskThrows i =>
    simp only [waitStep] at h
    obtain ⟨c, hc, rfl⟩ := ofBase_running h
    exact Or.inr ⟨.taskThrows i, hc⟩
  | dtorStop =>
    simp only [waitStep] at h
    split at h
    · obtain ⟨c, hc, rfl⟩ := ofBase_running h
      exact Or.inr ⟨.dtorStop, hc⟩
    · cases h
  | dtorNotifyAll =>
    simp only [waitStep] at h
    split at h
    · injection h with h
      subst h
      exact Or.inl rfl
    · cases h
  | dtorJoin i =>
    obtain ⟨_, c, hc, rfl⟩ := waitStep_dtorJoin_inv h
    exact Or.inr ⟨.dtorJoin i, hc⟩

theorem waitRun_refines {acts : List (WaitAction τ)} {w w' : WaitConfig τ}
    (h : waitRun w acts = .running w') :
    ∃ acts0, run w.base acts0 = .running w'.base := by
  induction acts generalizing w with
  | nil =>
    simp only [waitRun] at h
    injection h with h
    subst h
    exact ⟨[], rfl⟩
  | cons a rest ih =>
    obtain ⟨w1, h1, h2⟩ := waitRun_cons_running h
    obtain ⟨acts0, h0⟩ := ih h2
    rcases waitStep_refines h1 with he | ⟨a0, ha0⟩
    · exact ⟨acts0, by rw [← he]; exact h0⟩
    · exact ⟨a0 :: acts0, by simp only [run, ha0]; exact h0⟩

/-- The pool of a configuration reachable with wake-ups is reachable in the
model without them, so what holds in every state there holds here. -/
theorem waitReachable_refines {n : Nat} {w : WaitConfig τ} (h : WaitReachable n w) :
    Reachable n w.base := by
  obtain ⟨acts, hacts⟩ := h
  exact waitRun_refines hacts

theorem stop_of_phase {w : WaitConfig τ} (hw : w.Inv) (hd : w.dtor ≠ .notCalled) :
    w.base.pool.m_stop = true := by
  cases hb : w.base.pool.m_stop with
  | true => rfl
  | false => exact absurd (hw.flagOfPhase.2 hb) hd

theorem waitInv_init (n : Nat) : (WaitConfig.init n : WaitConfig τ).Inv :=
  ⟨fun _ => rfl, fun _ => rfl, fun _ => rfl⟩

theorem waitInv_step {w w' : WaitConfig τ} {a : WaitAction τ} (hw : w.Inv)
    (h : waitStep w a = .running w') : w'.Inv := by
  cases a with
  | enqueue t =>
    simp only [waitStep] at h
    obtain ⟨c, hc, rfl⟩ := ofBase_running h
    have hs := step_keeps_stop hc (by simp)
    refine ⟨hw.noneBlocked, ?_⟩
    show w.dtor = .notCalled ↔ c.pool.m_stop = false
    rw [hs]
    exact hw.flagOfPhase
  | notifyOne k =>
    cases k with
    | none =>
      simp only [waitStep] at h
      split at h
      · injection h with h
        subst h
        exact ⟨hw.noneBlocked, hw.flagOfPhase⟩
      · cases h
    | some k =>
      simp only [waitStep] at h
      split at h
      · injection h with h
        subst h
        refine ⟨fun hd => ?_, hw.flagOfPhase⟩
        show w.m_cv.erase k = []
        rw [hw.noneBlocked hd]
        rfl
      · cases h
  | wake i =>
    obtain ⟨_, c, hc, rfl⟩ := waitStep_wake_inv h
    have hs := step_keeps_stop hc (by simp)
    refine ⟨fun hd => ?_, ?_⟩
    · have hd' : w.dtor = .notified := hd
      have hstop := stop_of_phase hw (by rw [hd']; simp)
      show (if w.base.pool.waitPredicate then w.m_cv else w.m_cv ++ [i]) = []
      have hp : w.base.pool.waitPredicate = true := by
        simp only [ThreadPool.waitPredicate, hstop, Bool.or_true]
      rw [if_pos hp]
      exact hw.noneBlocked hd'
    · show w.dtor = .notCalled ↔ c.pool.m_stop = false
      rw [hs]
      exact hw.flagOfPhase
  | spuriousWake i =>
    simp only [waitStep] at h
    split at h
    · injection h with h
      subst h
      refine ⟨fun hd => ?_, hw.flagOfPhase⟩
      show w.m_cv.erase i = []
      rw [hw.noneBlocked hd]
      rfl
    · cases h
  | taskReturns i =>
    obtain ⟨c, hc, rfl⟩ := waitStep_taskReturns_inv h
    have hs := step_keeps_stop hc (by simp)
    refine ⟨hw.noneBlocked, ?_⟩
    show w.dtor = .notCalled ↔ c.pool.m_stop = false
    rw [hs]
    exact hw.flagOfPhase
  | taskThrows i =>
    simp only [waitStep] at h
    obtain ⟨c, hc, rfl⟩ := ofBase_running h
    exact absurd hc (step_taskThrows_ne_running _ _ _)
  | dtorStop =>
    simp only [waitStep] at h
    split at h
    · obtain ⟨c, hc, rfl⟩ := ofBase_running h
      rw [step_dtorStop] at hc
      injection hc with hc
      subst hc
      refine ⟨fun hd => ?_, fun hd => ?_, fun hd => ?_⟩
      · cases hd
      · cases hd
      · simp [ThreadPool.dtorSetStop] at hd
    · cases h
  | dtorNotifyAll =>
    simp only [waitStep] at h
    split at h
    · next hd =>
      injection h with h
      subst h
      have hstop := stop_of_phase hw (by rw [hd]; simp)
      refine ⟨fun _ => rfl, fun hd' => ?_, fun hb => ?_⟩
      · cases hd'
      · have hb' : w.base.pool.m_stop = false := hb
        rw [hstop] at hb'
        cases hb'
    · cases h
  | dtorJoin i =>
    obtain ⟨_, c, hc, rfl⟩ := waitStep_dtorJoin_inv h
    have hs := step_keeps_stop hc (by simp)
    refine ⟨hw.noneBlocked, ?_⟩
    show w.dtor = .notCalled ↔ c.pool.m_stop = false
    rw [hs]
    exact hw.flagOfPhase

theorem waitInv_run {acts : List (WaitAction τ)} {w w' : WaitConfig τ} (hw : w.Inv)
    (h : waitRun w acts = .running w') : w'.Inv := by
  induction acts generalizing w with
  | nil =>
    simp only [waitRun] at h
    injection h with h
    subst h
    exact hw
  | cons a rest ih =>
    obtain ⟨w1, h1, h2⟩ := waitRun_cons_running h
    exact ih (waitInv_step hw h1) h2

theorem waitInv_reachable {n : Nat} {w : WaitConfig τ} (h : WaitReachable n w) : w.Inv := by
  obtain ⟨acts, hacts⟩ := h
  exact waitInv_run (waitInv_init n) hacts

end Threads

namespace Threads

variable {τ : Type}

/-! ## Shutdown makes progress once `notify_all` has run -/

/-- With the flag set and a worker still in its loop, a worker that is awake
can take a step, or every such worker is blocked and the destructor has
`notify_all` still to execute. -/
theorem wait_progress {w : WaitConfig τ} (hw : w.Inv) (hs : w.base.pool.m_stop = true)
    (hex : ∃ x ∈ w.base.pool.m_threads, x.state ≠ .terminated) :
    (∃ a w', WaitAction.isWorkerStep a = true ∧ waitStep w a = .running w') ∨
    (w.dtor = .flagSet ∧
      waitStep w .dtorNotifyAll = .running { w with m_cv := [], dtor := .notified }) := by
  obtain ⟨x, hx, hne⟩ := hex
  obtain ⟨i, hi⟩ := exists_index hx
  rcases x with ⟨st, j⟩
  cases st with
  | terminated => exact absurd rfl hne
  | executing t =>
    obtain ⟨c, _, hc⟩ := waitStep_taskReturns_executing hi
    exact Or.inl ⟨.taskReturns i, _, rfl, hc⟩
  | idleWait =>
    by_cases hm : i ∈ w.m_cv
    · cases hd : w.dtor with
      | notCalled =>
        have := hw.flagOfPhase.1 hd
        rw [hs] at this
        cases this
      | flagSet =>
        refine Or.inr ⟨rfl, ?_⟩
        simp only [waitStep, hd, if_true]
      | notified =>
        rw [hw.noneBlocked hd] at hm
        cases hm
    · obtain ⟨c, _, hc⟩ := waitStep_wake_idle hi hm
      exact Or.inl ⟨.wake i, _, rfl, hc⟩

theorem wait_worker_step_decreases {w w' : WaitConfig τ} {a : WaitAction τ}
    (hs : w.base.pool.m_stop = true) (ha : WaitAction.isWorkerStep a = true)
    (h : waitStep w a = .running w') :
    w'.base.pool.workLeft < w.base.pool.workLeft ∧ w'.base.pool.m_stop = true ∧
    w'.dtor = w.dtor ∧ w'.m_cv = w.m_cv := by
  cases a with
  | enqueue t => cases ha
  | notifyOne k => cases ha
  | spuriousWake i => cases ha
  | taskThrows i => cases ha
  | dtorStop => cases ha
  | dtorNotifyAll => cases ha
  | dtorJoin i => cases ha
  | wake i =>
    obtain ⟨_, c, hc, rfl⟩ := waitStep_wake_inv h
    have hk : Action.isWorkerStep (Action.wake i : Action τ) = true := rfl
    obtain ⟨hlt, hs', _, _⟩ := worker_step_decreases hs hk hc
    refine ⟨hlt, hs', rfl, ?_⟩
    show (if w.base.pool.waitPredicate then w.m_cv else w.m_cv ++ [i]) = w.m_cv
    have hp : w.base.pool.waitPredicate = true := by
      simp only [ThreadPool.waitPredicate, hs, Bool.or_true]
    rw [if_pos hp]
  | taskReturns i =>
    obtain ⟨c, hc, rfl⟩ := waitStep_taskReturns_inv h
    have hk : Action.isWorkerStep (Action.taskReturns i : Action τ) = true := rfl
    obtain ⟨hlt, hs', _, _⟩ := worker_step_decreases hs hk hc
    exact ⟨hlt, hs', rfl, rfl⟩

theorem wait_worker_steps_bounded {acts : List (WaitAction τ)} {w w' : WaitConfig τ}
    (hs : w.base.pool.m_stop = true)
    (hacts : ∀ a ∈ acts, WaitAction.isWorkerStep a = true)
    (h : waitRun w acts = .running w') :
    acts.length + w'.base.pool.workLeft ≤ w.base.pool.workLeft := by
  induction acts generalizing w with
  | nil =>
    simp only [waitRun] at h
    injection h with h
    subst h
    simp
  | cons a rest ih =>
    obtain ⟨w1, h1, h2⟩ := waitRun_cons_running h
    obtain ⟨hlt, hs1, _, _⟩ :=
      wait_worker_step_decreases hs (hacts a (List.mem_cons_self a rest)) h1
    have := ih hs1 (fun b hb => hacts b (List.mem_cons_of_mem a hb)) h2
    simp only [List.length_cons]
    omega

/-- After `notify_all`, worker steps alone bring every worker to Terminated, in
no more steps than `workLeft` counts. -/
theorem wait_workers_drain (m : Nat) :
    ∀ w : WaitConfig τ, w.Inv → w.dtor = .notified → w.base.pool.m_stop = true →
    w.base.pool.workLeft ≤ m →
    ∃ acts w', (∀ a ∈ acts, WaitAction.isWorkerStep a = true) ∧
      waitRun w acts = .running w' ∧
      (∀ x ∈ w'.base.pool.m_threads, x.state = .terminated) ∧ acts.length ≤ m ∧
      w'.dtor = .notified ∧ w'.base.pool.m_stop = true := by
  induction m with
  | zero =>
    intro w _ hd hs hm
    refine ⟨[], w, by simp, rfl, ?_, Nat.le_refl _, hd, hs⟩
    apply not_terminated_of_countP
    simp only [ThreadPool.workLeft] at hm
    omega
  | succ m ih =>
    intro w hw hd hs hm
    by_cases hex : ∃ x ∈ w.base.pool.m_threads, x.state ≠ .terminated
    · rcases wait_progress hw hs hex with ⟨a, w1, ha, hstep⟩ | ⟨hf, _⟩
      · obtain ⟨hlt, hs1, hd1, _⟩ := wait_worker_step_decreases hs ha hstep
        obtain ⟨acts, w', hacts, hrun, hall, hlen, hd', hs'⟩ :=
          ih w1 (waitInv_step hw hstep) (hd1.trans hd) hs1 (by omega)
        refine ⟨a :: acts, w', ?_, ?_, hall, by simp; omega, hd', hs'⟩
        · intro b hb
          rcases List.mem_cons.1 hb with rfl | hb
          · exact ha
          · exact hacts b hb
        · rw [waitRun_cons _ hstep]
          exact hrun
      · rw [hd] at hf
        cases hf
    · refine ⟨[], w, by simp, rfl, ?_, Nat.zero_le _, hd, hs⟩
      intro x hx
      by_contra hne
      exact hex ⟨x, hx, hne⟩

/-- When every worker is Terminated, the flag is set and some thread is still
joinable, the step that `shutdown_progress` finds is a visit of the join loop. -/
theorem join_progress {c : Config τ} (hs : c.pool.m_stop = true)
    (hall : ∀ w ∈ c.pool.m_threads, w.state = .terminated)
    (hr : c.pool.dtorReturned = false) :
    ∃ i c', step c (.dtorJoin i) = .running c' ∧ c'.pool.pending < c.pool.pending ∧
      c'.pool.m_stop = true ∧ ∀ w ∈ c'.pool.m_threads, w.state = .terminated := by
  obtain ⟨a, c', hne, hstep, hlt, hs', _, _⟩ := shutdown_progress hs hr
  cases a with
  | enqueue t => cases hne
  | wake i =>
    obtain ⟨j, hj, _⟩ := step_wake_inv hstep
    have := hall _ (mem_of_getElem?_some hj)
    cases this
  | taskReturns i =>
    obtain ⟨t, j, hj, _⟩ := step_taskReturns_inv hstep
    have := hall _ (mem_of_getElem?_some hj)
    cases this
  | taskThrows i => exact absurd hstep (step_taskThrows_ne_running _ _ _)
  | dtorStop =>
    rw [step_dtorStop] at hstep
    injection hstep with hstep
    subst hstep
    exact absurd hlt (Nat.lt_irrefl _)
  | dtorJoin i => exact ⟨i, c', hstep, hlt, hs', (all_terminated_step hall hstep).1⟩

/-- After `notify_all`, when every worker is Terminated, the join loop runs to
its end. -/
theorem wait_joins (m : Nat) :
    ∀ w : WaitConfig τ, w.dtor = .notified → w.base.pool.m_stop = true →
    (∀ x ∈ w.base.pool.m_threads, x.state = .terminated) → w.base.pool.pending ≤ m →
    ∃ joins w', (∀ a ∈ joins, WaitAction.isJoin a = true) ∧
      waitRun w joins = .running w' ∧ w'.base.pool.dtorReturned = true := by
  induction m with
  | zero =>
    intro w hd hs hall hm
    cases hr : w.base.pool.dtorReturned with
    | true => exact ⟨[], w, by simp, rfl, hr⟩
    | false =>
      obtain ⟨i, c1, _, hlt, _⟩ := join_progress hs hall hr
      omega
  | succ m ih =>
    intro w hd hs hall hm
    cases hr : w.base.pool.dtorReturned with
    | true => exact ⟨[], w, by simp, rfl, hr⟩
    | false =>
      obtain ⟨i, c1, hstep, hlt, hs1, hall1⟩ := join_progress hs hall hr
      have hw1 : waitStep w (.dtorJoin i) = .running { w with base := c1 } := by
        simp only [waitStep, hd, if_true, hstep, WaitOutcome.ofBase]
      obtain ⟨joins, w', hj, hrun, hret⟩ :=
        ih { w with base := c1 } hd hs1 hall1 (by show c1.pool.pending ≤ m; omega)
      refine ⟨.dtorJoin i :: joins, w', ?_, ?_, hret⟩
      · intro b hb
        rcases List.mem_cons.1 hb with rfl | hb
        · rfl
        · exact hj b hb
      · rw [waitRun_cons _ hw1]
        exact hrun

/-- C17, as the code has it.  Shutdown cannot deadlock: in every reachable
state in which the stop flag is set and some worker is not Terminated, a
worker step (dequeue, return of a task, or exit) is enabled for a worker that
is not blocked in `m_cv.wait`, or the destructor has `notify_all` (line 69)
still to execute and that step is enabled; once `notify_all` has run no
worker is blocked and a worker step is enabled.  No spurious wake-up is
needed.  With the flag set, each worker step strictly lowers the measure
2 * (queue length) + (number of Executing workers) + (number of workers not
Terminated) and blocks no worker, so a run of worker steps is no longer than
that measure; `notify_all` if it is still to come, then worker steps alone,
reach the state in which every worker is Terminated, and from there the
visits of the join loop run to the return of the destructor. -/
theorem shutdown_no_deadlock (n : Nat) (w : WaitConfig τ) (hw : WaitReachable n w)
    (hs : w.base.pool.m_stop = true) :
    ((∃ x ∈ w.base.pool.m_threads, x.state ≠ .terminated) →
      (∃ a w', WaitAction.isWorkerStep a = true ∧ waitStep w a = .running w') ∨
      (w.dtor = .flagSet ∧
        waitStep w .dtorNotifyAll = .running { w with m_cv := [], dtor := .notified })) ∧
    (w.dtor = .notified →
      w.m_cv = [] ∧
      ((∃ x ∈ w.base.pool.m_threads, x.state ≠ .terminated) →
        ∃ a w', WaitAction.isWorkerStep a = true ∧ waitStep w a = .running w')) ∧
    (∀ a w', WaitAction.isWorkerStep a = true → waitStep w a = .running w' →
      w'.base.pool.workLeft < w.base.pool.workLeft ∧ w'.base.pool.m_stop = true ∧
      w'.m_cv = w.m_cv) ∧
    (∀ acts w', (∀ a ∈ acts, WaitAction.isWorkerStep a = true) →
      waitRun w acts = .running w' →
      acts.length + w'.base.pool.workLeft ≤ w.base.pool.workLeft) ∧
    (∃ pre w0 acts w' joins w'',
      (pre = [] ∨ pre = [WaitAction.dtorNotifyAll]) ∧ waitRun w pre = .running w0 ∧
      w0.dtor = .notified ∧
      (∀ a ∈ acts, WaitAction.isWorkerStep a = true) ∧ waitRun w0 acts = .running w' ∧
      (∀ x ∈ w'.base.pool.m_threads, x.state = .terminated) ∧
      acts.length ≤ w.base.pool.workLeft ∧
      (∀ a ∈ joins, WaitAction.isJoin a = true) ∧ waitRun w' joins = .running w'' ∧
      w''.base.pool.dtorReturned = true) := by
  have hinv := waitInv_reachable hw
  refine ⟨wait_progress hinv hs, ?_, ?_, ?_, ?_⟩
  · intro hd
    refine ⟨hinv.noneBlocked hd, fun hex => ?_⟩
    rcases wait_progress hinv hs hex with h | ⟨hf, _⟩
    · exact h
    · rw [hd] at hf
      cases hf
  · intro a w' ha hstep
    obtain ⟨hlt, hs', _, hcv⟩ := wait_worker_step_decreases hs ha hstep
    exact ⟨hlt, hs', hcv⟩
  · intro acts w' hacts hrun
    exact wait_worker_steps_bounded hs hacts hrun
  · have key : ∀ w0 : WaitConfig τ, w0.Inv → w0.dtor = .notified → w0.base = w.base →
        ∃ acts w' joins w'',
          (∀ a ∈ acts, WaitAction.isWorkerStep a = true) ∧ waitRun w0 acts = .running w' ∧
          (∀ x ∈ w'.base.pool.m_threads, x.state = .terminated) ∧
          acts.length ≤ w.base.pool.workLeft ∧
          (∀ a ∈ joins, WaitAction.isJoin a = true) ∧ waitRun w' joins = .running w'' ∧
          w''.base.pool.dtorReturned = true := by
      intro w0 hinv0 hd0 hb
      obtain ⟨acts, w', hacts, hrun, hall, hlen, hd', hs'⟩ :=
        wait_workers_drain _ w0 hinv0 hd0 (by rw [hb]; exact hs) (Nat.le_refl _)
      obtain ⟨joins, w'', hj, hjrun, hret⟩ := wait_joins _ w' hd' hs' hall (Nat.le_refl _)
      rw [hb] at hlen
      exact ⟨acts, w', joins, w'', hacts, hrun, hall, hlen, hj, hjrun, hret⟩
    cases hd : w.dtor with
    | notCalled =>
      have := hinv.flagOfPhase.1 hd
      rw [hs] at this
      cases this
    | flagSet =>
      have hstep : waitStep w .dtorNotifyAll =
          .running { w with m_cv := [], dtor := .notified } := by
        simp only [waitStep, hd, if_true]
      obtain ⟨acts, w', joins, w'', h1, h2, h3, h4, h5, h6, h7⟩ :=
        key _ (waitInv_step hinv hstep) rfl rfl
      refine ⟨[.dtorNotifyAll], _, acts, w', joins, w'', Or.inr rfl, ?_, rfl,
        h1, h2, h3, h4, h5, h6, h7⟩
      rw [waitRun_cons _ hstep]
      rfl
    | notified =>
      obtain ⟨acts, w', joins, w'', h1, h2, h3, h4, h5, h6, h7⟩ := key w hinv hd rfl
      exact ⟨[], w, acts, w', joins, w'', Or.inl rfl, rfl, hd, h1, h2, h3, h4, h5, h6, h7⟩

theorem shutdown_no_deadlock_witness :
    WaitReachable 1 blockedAtStop ∧ blockedAtStop.base.pool.m_stop = true ∧
    ((∃ x ∈ blockedAtStop.base.pool.m_threads, x.state ≠ .terminated) →
      (∃ a w', WaitAction.isWorkerStep a = true ∧ waitStep blockedAtStop a = .running w') ∨
      (blockedAtStop.dtor = .flagSet ∧
        waitStep blockedAtStop .dtorNotifyAll =
          .running { blockedAtStop with m_cv := [], dtor := .notified })) :=
  ⟨⟨[.wake 0, .dtorStop], rfl⟩, rfl,
    (shutdown_no_deadlock 1 blockedAtStop ⟨[.wake 0, .dtorStop], rfl⟩ rfl).1⟩

/-- C17 fails on the code in two places.  The measure it names is not lowered
by a dequeue: with the stop flag set, one worker awake and task `7` queued,
the worker takes the task and queue length + Executing + non-Terminated stays
at 2.  And a worker step need not be enabled: after `ThreadPool(1)` the worker
blocks in `m_cv.wait` on the empty queue, the destructor sets the flag, and
until it executes `notify_all` the worker is not Terminated and neither a
worker step nor a visit of the join loop is enabled; `notify_all` is, and
after it the worker leaves its loop and is joined. -/
theorem shutdown_claim_fails :
    (WaitReachable 1 flagSetWithTask ∧ flagSetWithTask.base.pool.m_stop = true ∧
      waitStep flagSetWithTask (.wake 0) = .running flagSetTaking ∧
      flagSetWithTask.base.pool.claimedMeasure = 2 ∧
      flagSetTaking.base.pool.claimedMeasure = 2 ∧
      ¬ (flagSetTaking.base.pool.claimedMeasure <
          flagSetWithTask.base.pool.claimedMeasure)) ∧
    (WaitReachable 1 blockedAtStop ∧ blockedAtStop.base.pool.m_stop = true ∧
      (∃ x ∈ blockedAtStop.base.pool.m_threads, x.state ≠ .terminated) ∧
      (∀ a : WaitAction Nat, WaitAction.isWorkerStep a = true ∨ WaitAction.isJoin a = true →
        waitStep blockedAtStop a = .notEnabled) ∧
      ¬ (∃ a w', WaitAction.isWorkerStep a = true ∧
          waitStep blockedAtStop a = .running w') ∧
      waitStep blockedAtStop .dtorNotifyAll = .running wokenAtStop ∧
      waitRun wokenAtStop [.wake 0, .dtorJoin 0] =
        .running ⟨⟨⟨[⟨.terminated, false⟩], [], true⟩, ⟨[], [], [], []⟩⟩, [], 0, .notified⟩) := by
  have hblocked : ∀ a : WaitAction Nat,
      WaitAction.isWorkerStep a = true ∨ WaitAction.isJoin a = true →
      waitStep blockedAtStop a = .notEnabled := by
    intro a ha
    cases a with
    | enqueue t => rcases ha with h | h <;> cases h
    | notifyOne k => rcases ha with h | h <;> cases h
    | spuriousWake i => rcases ha with h | h <;> cases h
    | taskThrows i => rcases ha with h | h <;> cases h
    | dtorStop => rcases ha with h | h <;> cases h
    | dtorNotifyAll => rcases ha with h | h <;> cases h
    | wake i => cases i <;> rfl
    | taskReturns i => cases i <;> rfl
    | dtorJoin i => rfl
  refine ⟨⟨⟨[.enqueue 7, .dtorStop], rfl⟩, rfl, rfl, rfl, rfl, by decide⟩,
    ⟨[.wake 0, .dtorStop], rfl⟩, rfl, ⟨⟨.idleWait, true⟩, by decide, by decide⟩, hblocked, ?_,
    rfl, rfl⟩
  rintro ⟨a, w', ha, hstep⟩
  rw [hblocked a (Or.inl ha)] at hstep
  cases hstep

end Threads
